import Mathlib

/-!
# Batch GCD (`utils/batch_gcd/batch_gcd.c`)

A shallow embedding of the batch-GCD utility: the `numlist` container, the three
list kernels (pairwise product, square-and-reduce, divide-then-gcd) with their
strided workers, the product tree, the remainder-tree descent `fast_batchgcd`
and the co-factor post-processing `factor_coprimes`.

Conventions of the embedding.

* `mpz_t` values are mathematical integers (`Int`); the GMP primitives are modelled
  after the GMP manual.  A primitive whose behaviour is a division by zero or is left
  undefined by the manual returns `none`.
* `size_t` values are natural numbers; subtraction and doubling are reduced modulo
  `2 ^ 64` where the C code can wrap.
* A failed `assert`, an out-of-bounds slot access, a division by zero and a loop that
  never terminates are all rendered as the result `none`.
* `malloc`/`calloc`/`reallocarray` are taken to succeed (also `calloc` of zero elements,
  which returns a non-null pointer); `free` has no observable effect and is omitted.
* Threads: a kernel's workers are run one after the other on the shared destination list.
-/

namespace BatchGcd

/-! ## Machine integers -/

/-- The number of values of a `size_t` (64-bit). -/
def SIZE_MOD : Nat := 2 ^ 64

/-- Bytes taken by one `mpz_t` (two `int` fields and a limb pointer). -/
def sizeof_mpz_t : Nat := 16

/-- Subtraction of two `size_t` values, which wraps around below zero. -/
def size_sub (a b : Nat) : Nat := (a + SIZE_MOD - b % SIZE_MOD) % SIZE_MOD

/-- Conversion of an unsigned 64-bit value to `int` (32-bit two's complement), as in
`int idx_w = weakidx[wi];`. -/
def to_int (x : Nat) : Int :=
  if x % 2 ^ 32 < 2 ^ 31 then ((x % 2 ^ 32 : Nat) : Int) else ((x % 2 ^ 32 : Nat) : Int) - 2 ^ 32

/-! ## GMP primitives -/

/-- GMP `mpz_mul`. -/
def mpz_mul (a b : Int) : Int := a * b

/-- GMP `mpz_mod`: the result is non-negative, the sign of the divisor is ignored;
a zero divisor is a division by zero. -/
def mpz_mod (n d : Int) : Option Int :=
  if d = 0 then none else some (n % d)

/-- GMP `mpz_divexact`: correct only when `d` divides `n`; a zero divisor is a division by
zero, and a divisor that does not divide `n` leaves the result unspecified. -/
def mpz_divexact (n d : Int) : Option Int :=
  if d = 0 then none else if n % d = 0 then some (n / d) else none

/-- GMP `mpz_div`, the old name of `mpz_fdiv_q`: quotient rounded towards minus infinity. -/
def mpz_div (n d : Int) : Option Int :=
  if d = 0 then none else some (Int.fdiv n d)

/-- GMP `mpz_gcd`: always non-negative, `gcd(0, 0) = 0`. -/
def mpz_gcd (a b : Int) : Int := (Int.gcd a b : Int)

/-! ## `struct numlist` -/

/-- The C `struct numlist`: `len` used slots out of `alloc` allocated ones. -/
structure numlist where
  len : Nat
  alloc : Nat
  num : List Int
deriving DecidableEq

/-- The logical content of a list: its first `len` slots. -/
def numlist.toList (l : numlist) : List Int := l.num.take l.len

/-- A list as it exists in memory: `num` is a block of `alloc` initialised slots obtained
from `calloc(sizeof(mpz_t), alloc)` (so its byte size fits a `size_t`), of which the first
`len` are in use. -/
def numlist.valid (l : numlist) : Prop :=
  l.len ≤ l.alloc ∧ l.num.length = l.alloc ∧ l.alloc * sizeof_mpz_t < SIZE_MOD

instance (l : numlist) : Decidable l.valid := by
  unfold numlist.valid; infer_instance

/-- Read slot `i` of a list; outside the allocated block the access is undefined. -/
def numlist.rd (l : numlist) (i : Nat) : Option Int := l.num[i]?

/-- Overwrite slot `i` of a list; outside the allocated block the access is undefined. -/
def numlist.wr (l : numlist) (i : Nat) (v : Int) : Option numlist :=
  if i < l.num.length then some ⟨l.len, l.alloc, l.num.set i v⟩ else none

/-- Read slot `i` where `i` is a C `int`: a negative index is outside the block. -/
def numlist.rd_int (l : numlist) (i : Int) : Option Int :=
  if i < 0 then none else l.rd i.toNat

/-- Overwrite slot `i` where `i` is a C `int`. -/
def numlist.wr_int (l : numlist) (i : Int) (v : Int) : Option numlist :=
  if i < 0 then none else l.wr i.toNat v

/-- The C loop `for (size_t i = start; i < bound; i += step) body`, run with `fuel` rounds.
With `step ≥ 1` the body runs fewer than `bound` times, so `fuel = bound` is never used up;
running out of fuel with `i < bound` still true (only possible with `step = 0`) is
non-termination. -/
def for_loop {σ : Type} (bound step : Nat) (body : Nat → σ → Option σ) :
    Nat → Nat → σ → Option σ
  | 0, i, st => if i < bound then none else some st
  | fuel + 1, i, st =>
    if i < bound then (body i st).bind (for_loop bound step body fuel (i + step))
    else some st

/-- Function `intlog2`, loop part: `for (size_t i = 1; i < num; i *= 2) l2++`, where the
doubling wraps modulo `2 ^ 64`. -/
def intlog2_loop (num : Nat) : Nat → Nat → Nat → Option Nat
  | 0, _, _ => none
  | fuel + 1, i, l2 =>
    if i < num then intlog2_loop num fuel (i * 2 % SIZE_MOD) (l2 + 1) else some l2

/-- Function `intlog2`.  After 64 doublings `i` has wrapped to `0` and stays there, so a loop
that has not stopped within 65 tests never stops: `none` is exactly non-termination. -/
def intlog2 (num : Nat) : Option Nat := intlog2_loop num 65 1 0

/-- Function `makenumlist`: `len` slots in use, `max 1 len` slots allocated, all zero. -/
def makenumlist (len : Nat) : numlist :=
  let alloc := if len = 0 then 1 else len
  ⟨len, alloc, List.replicate alloc 0⟩

/-! ## Pairwise product kernel -/

/-- The body shared by `listmul` and `listmul_worker`:
`mpz_mul(d->num[i], s->num[i * 2], s->num[(i * 2) + 1])`. -/
def listmul_body (s : numlist) (i : Nat) (d : numlist) : Option numlist :=
  (s.rd (i * 2)).bind fun a => (s.rd (i * 2 + 1)).bind fun b => d.wr i (mpz_mul a b)

/-- The last slot of the pairwise product ("either copy or mul the last single / pair"). -/
def listmul_tail (d s : numlist) : Option numlist :=
  if s.len % 2 = 0 then
    (s.rd (size_sub s.len 1)).bind fun a => (s.rd (size_sub s.len 2)).bind fun b =>
      d.wr (size_sub d.len 1) (mpz_mul a b)
  else
    (s.rd (size_sub s.len 1)).bind fun a => d.wr (size_sub d.len 1) a

/-- Function `listmul` (sequential). -/
def listmul (d s : numlist) : Option numlist :=
  if d.len = 0 then none
  else
    (for_loop (size_sub d.len 1) 1 (listmul_body s) (size_sub d.len 1) 0 d).bind fun d1 =>
      listmul_tail d1 s

/-- Function `listmul_worker` of thread `tnum` out of `num_threads`. -/
def listmul_worker (s : numlist) (tnum num_threads : Nat) (d : numlist) : Option numlist :=
  for_loop (size_sub d.len 1) num_threads (listmul_body s) (size_sub d.len 1) tnum d

/-- A unit of work of `threaded_listmul`: one of the workers, or the last slot, which the
calling thread computes itself while the workers run. -/
inductive mul_task where
  | worker (t : Nat)
  | tail
deriving DecidableEq

/-- Run one unit of work of `threaded_listmul` on the destination list. -/
def run_mul_task (s : numlist) (num_threads : Nat) (d : numlist) : mul_task → Option numlist
  | mul_task.worker t => listmul_worker s t num_threads d
  | mul_task.tail => listmul_tail d s

/-- Function `threaded_listmul` with the units of work completed in the order `order`. -/
def threaded_listmul_sched (order : List mul_task) (d s : numlist) (num_threads : Nat) :
    Option numlist :=
  if d.len = 0 then none
  else if num_threads = 0 then none
  else order.foldlM (run_mul_task s num_threads) d

/-- The units of work of `threaded_listmul` in program order: workers `0 .. T-1` are created,
then the caller computes the last slot. -/
def mul_tasks (num_threads : Nat) : List mul_task :=
  (List.range num_threads).map mul_task.worker ++ [mul_task.tail]

/-- Function `threaded_listmul`. -/
def threaded_listmul (d s : numlist) (num_threads : Nat) : Option numlist :=
  threaded_listmul_sched (mul_tasks num_threads) d s num_threads

/-! ## Square-and-reduce kernel -/

/-- The lists a square/mod kernel works on (`X`, `R`, `nR` of `struct list_worker_thread`). -/
structure sqmod_lists where
  X : numlist
  R : numlist
  nR : numlist
deriving DecidableEq

/-- The two GMP calls of `listsqmod_worker` for index `i`:
`mpz_mul(sq, X[i], X[i]); mpz_mod(nR[i], R[i / 2], sq)`. -/
def listsqmod_slot (X R : numlist) (i : Nat) (nR : numlist) : Option numlist :=
  (X.rd i).bind fun x => (R.rd (i / 2)).bind fun r =>
    (mpz_mod r (mpz_mul x x)).bind fun v => nR.wr i v

/-- The body of the loop of `listsqmod_worker`: only `nR` is written. -/
def listsqmod_body (i : Nat) (st : sqmod_lists) : Option sqmod_lists :=
  (listsqmod_slot st.X st.R i st.nR).map fun nR1 => ⟨st.X, st.R, nR1⟩

/-- Function `listsqmod_worker` of thread `tnum` out of `num_threads`. -/
def listsqmod_worker (tnum num_threads : Nat) (st : sqmod_lists) : Option sqmod_lists :=
  for_loop st.X.len num_threads listsqmod_body st.X.len tnum st

/-- Function `threaded_listsqmod`: the workers `0 .. T-1`. -/
def threaded_listsqmod (X R nR : numlist) (num_threads : Nat) : Option sqmod_lists :=
  if num_threads = 0 then none
  else (List.range num_threads).foldlM (fun st t => listsqmod_worker t num_threads st) ⟨X, R, nR⟩

/-! ## Divide-then-gcd kernel -/

/-- The body of `listdivgcd_worker`:
`mpz_divexact(d, R[i], N[i]); mpz_gcd(G[i], d, N[i])`. -/
def listdivgcd_body (R N : numlist) (i : Nat) (G : numlist) : Option numlist :=
  (R.rd i).bind fun r => (N.rd i).bind fun n =>
    (mpz_divexact r n).bind fun d => G.wr i (mpz_gcd d n)

/-- Function `listdivgcd_worker` of thread `tnum` out of `num_threads`. -/
def listdivgcd_worker (R N : numlist) (tnum num_threads : Nat) (G : numlist) : Option numlist :=
  for_loop G.len num_threads (listdivgcd_body R N) G.len tnum G

/-- Function `threaded_listdivgcd`: the workers `0 .. T-1`. -/
def threaded_listdivgcd (G R N : numlist) (num_threads : Nat) : Option numlist :=
  if num_threads = 0 then none
  else (List.range num_threads).foldlM (fun g t => listdivgcd_worker R N t num_threads g) G

/-! ## Product tree -/

/-- The C `struct prodtree`. -/
structure prodtree where
  height : Nat
  level : List numlist
deriving DecidableEq

/-- One round of the loop of `producttree`: allocate level `l` and fill it from level `l - 1`. -/
def producttree_body (l : Nat) (level : List numlist) : Option (List numlist) :=
  level[l - 1]?.bind fun prev =>
    (threaded_listmul (makenumlist ((prev.len + 1) / 2)) prev 4).map fun d => level ++ [d]

/-- Function `producttree`. -/
def producttree (nlist : numlist) : Option prodtree :=
  (intlog2 nlist.len).bind fun l2 =>
    let height := l2 + 1
    (for_loop height 1 producttree_body height 1 [nlist]).map fun level => ⟨height, level⟩

/-! ## Batch GCD -/

/-- One round of the descent loop of `fast_batchgcd`, on the current remainder list. -/
def fast_batchgcd_body (ptree : prodtree) (up : Nat) (Rlist : numlist) : Option numlist :=
  ptree.level[size_sub ptree.height up]?.bind fun Xlist =>
    (threaded_listsqmod Xlist Rlist (makenumlist Xlist.len) 4).map fun st => st.nR

/-- Function `fast_batchgcd`. -/
def fast_batchgcd (nlist : numlist) : Option numlist :=
  (producttree nlist).bind fun ptree =>
    ptree.level[size_sub ptree.height 1]?.bind fun Rlist0 =>
      (for_loop (ptree.height + 1) 1 (fast_batchgcd_body ptree) (ptree.height + 1) 2 Rlist0).bind
        fun Rlist => threaded_listdivgcd (makenumlist nlist.len) Rlist nlist 4

/-! ## Co-factor post-processing -/

/-- The local state of `factor_coprimes`: the co-factor list being filled, the two index
arrays with their fill counts, and the number of indices settled by the pairwise pass. -/
structure factor_state where
  cplist : numlist
  weak_count : Nat
  weakidx : List Nat
  weak_gcd_count : Nat
  weakidx_gcd : List Nat
  weak_gcd_success : Nat
deriving DecidableEq

/-- Store `v` in slot `k` of a `uint64_t` array; outside the array the access is undefined. -/
def idx_store (a : List Nat) (k v : Nat) : Option (List Nat) :=
  if k < a.length then some (a.set k v) else none

/-- The smaller of a divisor `g` and its quotient `q`, as selected by
`if (mpz_cmp(g, q) < 0) mpz_set(c, g); else mpz_set(c, q);`. -/
def lesser (g q : Int) : Int := if g < q then g else q

/-- One round of the first loop of `factor_coprimes` ("Each GCD that isn't 1 is vulnerable and
needs factoring"). -/
def classify_body (nlist gcdlist : numlist) (i : Nat) (st : factor_state) :
    Option factor_state :=
  (gcdlist.rd i).bind fun g => (nlist.rd i).bind fun n =>
    if g ≠ 1 then
      if g ≠ n then
        (idx_store st.weakidx st.weak_count i).bind fun widx =>
          (mpz_div n g).bind fun q =>
            (st.cplist.wr i (lesser g q)).map fun cp =>
              ⟨cp, st.weak_count + 1, widx, st.weak_gcd_count, st.weakidx_gcd,
                st.weak_gcd_success⟩
      else
        (idx_store st.weakidx st.weak_count i).bind fun widx =>
          (idx_store st.weakidx_gcd st.weak_gcd_count i).map fun gidx =>
            ⟨st.cplist, st.weak_count + 1, widx, st.weak_gcd_count + 1, gidx,
              st.weak_gcd_success⟩
    else
      (st.cplist.wr i n).map fun cp =>
        ⟨cp, st.weak_count, st.weakidx, st.weak_gcd_count, st.weakidx_gcd,
          st.weak_gcd_success⟩

/-- The inner loop of the pairwise pass of `factor_coprimes`,
`for (size_t wi = 0; wi < weak_count; wi++)`, for the index stored at `weakidx_gcd[wgi]`; it
is left by `break` at the first split. -/
def pairwise_inner (nlist : numlist) (wgi : Nat) : Nat → Nat → factor_state → Option factor_state
  | 0, wi, st => if wi < st.weak_count then none else some st
  | fuel + 1, wi, st =>
    if wi < st.weak_count then
      st.weakidx[wi]?.bind fun w => st.weakidx_gcd[wgi]?.bind fun g =>
        if to_int w = to_int g then pairwise_inner nlist wgi fuel (wi + 1) st
        else
          (nlist.rd_int (to_int w)).bind fun nw => (nlist.rd_int (to_int g)).bind fun ng =>
            if mpz_gcd nw ng ≠ 1 then
              if mpz_gcd nw ng ≠ ng then
                (mpz_div ng (mpz_gcd nw ng)).bind fun q =>
                  (st.cplist.wr_int (to_int g) (lesser (mpz_gcd nw ng) q)).map fun cp =>
                    ⟨cp, st.weak_count, st.weakidx, st.weak_gcd_count, st.weakidx_gcd,
                      st.weak_gcd_success + 1⟩
              else pairwise_inner nlist wgi fuel (wi + 1) st
            else pairwise_inner nlist wgi fuel (wi + 1) st
    else some st

/-- One round of the outer loop of the pairwise pass of `factor_coprimes`. -/
def pairwise_body (nlist : numlist) (wgi : Nat) (st : factor_state) : Option factor_state :=
  pairwise_inner nlist wgi st.weak_count 0 st

/-- Function `factor_coprimes`; the result is the final local state, of which the C function
returns `cplist` and prints `weak_count`, `weak_gcd_count` and `weak_gcd_success`. -/
def factor_coprimes (nlist gcdlist : numlist) : Option factor_state :=
  (for_loop nlist.len 1 (classify_body nlist gcdlist) nlist.len 0
      ⟨makenumlist nlist.len, 0, List.replicate nlist.len 0, 0, List.replicate nlist.len 0,
        0⟩).bind fun st =>
    for_loop st.weak_gcd_count 1 (pairwise_body nlist) st.weak_gcd_count 0 st

/-- Function `grownumlist`: double `alloc` (a `size_t`), keep the block's content and
initialise the slots from `len` on. -/
def grownumlist (nlist : numlist) : numlist :=
  let alloc := nlist.alloc * 2 % SIZE_MOD
  ⟨nlist.len, alloc, (nlist.num.take nlist.len ++ List.replicate (alloc - nlist.len) 0).take alloc⟩

/-- Function `push_numlist`. -/
def push_numlist (nlist : numlist) (n : Int) : Option numlist :=
  let l1 := if nlist.len ≥ nlist.alloc then grownumlist nlist else nlist
  (l1.wr l1.len n).map fun l2 => ⟨l2.len + 1, l2.alloc, l2.num⟩

/-- The input list as `main` builds it: `makenumlist(0)` followed by one `push_numlist` per
modulus read. -/
def mk_input (xs : List Int) : Option numlist :=
  xs.foldlM push_numlist (makenumlist 0)

/-! ## Proof devices

The definitions below are not part of the program: they name the mathematical objects
the theorems about the program are stated with. -/

/-- A step `step` on a destination list of `A` allocated slots and logical length `L`
succeeds, keeps the shape of the list, stores `val j` in every slot `j` of `cov` and leaves
the other slots alone. -/
def WritesSlots (A L : Nat) (val : Nat → Int) (cov : Nat → Prop)
    (step : numlist → Option numlist) : Prop :=
  ∀ d : numlist, d.num.length = A → d.len = L →
    ∃ d1, step d = some d1 ∧ d1.len = L ∧ d1.alloc = d.alloc ∧ d1.num.length = A ∧
      (∀ j, cov j → d1.num[j]? = some (val j)) ∧ (∀ j, ¬ cov j → d1.num[j]? = d.num[j]?)

/-- The products of the adjacent pairs of a list, an odd last element being kept as it is. -/
def pair_products : List Int → List Int
  | a :: b :: rest => a * b :: pair_products rest
  | [a] => [a]
  | [] => []

/-- The value the pairwise product kernel stores in slot `j` of a destination of length `L`. -/
def mul_val (L : Nat) (s : numlist) (j : Nat) : Int :=
  if j + 1 = L then
    if s.len % 2 = 0 then s.num.getD (s.len - 1) 0 * s.num.getD (s.len - 2) 0
    else s.num.getD (s.len - 1) 0
  else s.num.getD (j * 2) 0 * s.num.getD (j * 2 + 1) 0

/-- The length of the level above a level of length `n`: `n / 2` rounded up. -/
def halve (n : Nat) : Nat := (n + 1) / 2

/-- The remainder-tree invariant: `Rs` has the length of the level `Ys` and `Rs[i]` is
congruent to `P` modulo `Ys[i]^2`. -/
def CongSq (P : Int) (Ys Rs : List Int) : Prop :=
  Rs.length = Ys.length ∧
    ∀ i, i < Ys.length →
      Rs.getD i 0 % (Ys.getD i 0 * Ys.getD i 0) = P % (Ys.getD i 0 * Ys.getD i 0)

/-- The value the square-and-reduce kernel stores in slot `j`. -/
def sqmod_val (X R : numlist) (j : Nat) : Int :=
  R.num.getD (j / 2) 0 % (X.num.getD j 0 * X.num.getD j 0)

/-- The value the divide-then-gcd kernel stores in slot `j`. -/
def divgcd_val (R N : numlist) (j : Nat) : Int :=
  mpz_gcd (R.num.getD j 0 / N.num.getD j 0) (N.num.getD j 0)

/-- The slots a unit of work of `threaded_listmul` writes, for a destination of length `L`. -/
def mul_cov (L T : Nat) : mul_task → Nat → Prop
  | mul_task.worker t, j => t ≤ j ∧ j + 1 < L ∧ T ∣ (j - t)
  | mul_task.tail, j => j + 1 = L

/-- Index `i` is weak: its entry in the gcd list is not `1`. -/
def is_weak (G : numlist) (i : Nat) : Bool := decide (G.num.getD i 0 ≠ 1)

/-- Index `i` is weak and its gcd is the whole modulus ("case 2"). -/
def is_case2 (N G : numlist) (i : Nat) : Bool :=
  decide (G.num.getD i 0 ≠ 1 ∧ G.num.getD i 0 = N.num.getD i 0)

/-- The content of slot `j` of the co-factor list after the first loop of `factor_coprimes`. -/
def classify_val (N G : numlist) (j : Nat) : Int :=
  if G.num.getD j 0 = 1 then N.num.getD j 0
  else if G.num.getD j 0 = N.num.getD j 0 then 0
  else lesser (G.num.getD j 0) (Int.fdiv (N.num.getD j 0) (G.num.getD j 0))

/-- The invariant of the first loop of `factor_coprimes` before round `i`. -/
def ClassifyInv (N G : numlist) (i : Nat) (st : factor_state) : Prop :=
  st.cplist.len = N.len ∧ st.cplist.alloc = (makenumlist N.len).alloc ∧
  st.cplist.num.length = (makenumlist N.len).num.length ∧
  st.weakidx.length = N.len ∧ st.weakidx_gcd.length = N.len ∧
  st.weak_count ≤ i ∧ st.weak_gcd_count ≤ i ∧
  st.weakidx.take st.weak_count = (List.range i).filter (is_weak G) ∧
  st.weakidx_gcd.take st.weak_gcd_count = (List.range i).filter (is_case2 N G) ∧
  st.weak_gcd_success = 0 ∧
  ∀ j : Nat, st.cplist.num[j]? =
    if j < i then some (classify_val N G j) else (makenumlist N.len).num[j]?

/-- The split the pairwise pass of `factor_coprimes` finds for index `ig`: the one given by the
first index `iw` of `weak`, other than `ig`, whose gcd with `N[ig]` is neither `1` nor
`N[ig]`. -/
def find_split (N : numlist) (ig : Nat) : List Nat → Option Int
  | [] => none
  | iw :: rest =>
    if iw = ig then find_split N ig rest
    else if mpz_gcd (N.num.getD iw 0) (N.num.getD ig 0) ≠ 1 ∧
        mpz_gcd (N.num.getD iw 0) (N.num.getD ig 0) ≠ N.num.getD ig 0 then
      some (lesser (mpz_gcd (N.num.getD iw 0) (N.num.getD ig 0))
        (Int.fdiv (N.num.getD ig 0) (mpz_gcd (N.num.getD iw 0) (N.num.getD ig 0))))
    else find_split N ig rest

/-- The weak indices of a run, in the order `factor_coprimes` stores them. -/
def weak_list (N G : numlist) : List Nat := (List.range N.len).filter (is_weak G)

/-- The "case 2" indices of a run, in the order `factor_coprimes` stores them. -/
def case2_list (N G : numlist) : List Nat := (List.range N.len).filter (is_case2 N G)

/-- The content of a "case 2" slot after its round of the pairwise pass: the split found, or
what the slot held before. -/
def pair_slot (N G : numlist) (old : Option Int) (j : Nat) : Option Int :=
  match find_split N j (weak_list N G) with
  | some v => some v
  | none => old

/-- The invariant of the pairwise pass of `factor_coprimes` before round `wgi`, where `st0` is
the state left by the first loop. -/
def PairInv (N G : numlist) (st0 : factor_state) (wgi : Nat) (st : factor_state) : Prop :=
  st.weak_count = st0.weak_count ∧ st.weakidx = st0.weakidx ∧
  st.weak_gcd_count = st0.weak_gcd_count ∧ st.weakidx_gcd = st0.weakidx_gcd ∧
  st.cplist.len = st0.cplist.len ∧ st.cplist.alloc = st0.cplist.alloc ∧
  st.cplist.num.length = st0.cplist.num.length ∧
  st.weak_gcd_success =
    (((case2_list N G).take wgi).filter
      fun ig => (find_split N ig (weak_list N G)).isSome).length ∧
  ∀ j : Nat, st.cplist.num[j]? =
    if j ∈ (case2_list N G).take wgi then pair_slot N G st0.cplist.num[j]? j
    else st0.cplist.num[j]?

/-- The postcondition of the pairwise product kernel for a source `s` and the destination
`d` it leaves: interior slots hold the product of a pair, the last slot holds the product of
the last pair of an even-length source and the last element of an odd-length one. -/
def PairMulPost (s d : numlist) : Prop :=
  (∀ i, i + 1 < d.len → ∃ a b, s.toList[2 * i]? = some a ∧ s.toList[2 * i + 1]? = some b ∧
    d.toList[i]? = some (a * b)) ∧
  (s.len % 2 = 0 → ∃ a b, s.toList[s.len - 1]? = some a ∧ s.toList[s.len - 2]? = some b ∧
    d.toList[d.len - 1]? = some (a * b)) ∧
  (s.len % 2 = 1 → ∃ a, s.toList[s.len - 1]? = some a ∧ d.toList[d.len - 1]? = some a)

/-- The indices at which the loop `for (size_t i = start; i < bound; i += step)` of a worker
runs its body, in the order of the rounds: the loop is run with a body that only records
`i`. -/
def loop_indices (bound step start : Nat) : Option (List Nat) :=
  for_loop bound step (fun i acc => some (acc ++ [i])) bound start []

/-! ## Example inputs -/

/-- The list `main` builds from the three moduli `15 = 3 * 5`, `21 = 3 * 7`, `35 = 5 * 7`. -/
def semiprime_moduli : numlist := ⟨3, 4, [15, 21, 35, 0]⟩

/-- The first prime factor of each modulus of `semiprime_moduli`. -/
def semiprime_p (i : Nat) : Nat := [3, 3, 5].getD i 2

/-- The second prime factor of each modulus of `semiprime_moduli`. -/
def semiprime_q (i : Nat) : Nat := [5, 7, 7].getD i 2

/-- The list `main` builds from the first hundred odd primes, one per input line. -/
def odd_primes_100 : numlist :=
  ⟨100, 128, [3, 5, 7, 11, 13, 17, 19, 23, 29, 31, 37, 41, 43, 47, 53, 59, 61, 67, 71, 73, 79,
    83, 89, 97, 101, 103, 107, 109, 113, 127, 131, 137, 139, 149, 151, 157, 163, 167, 173, 179,
    181, 191, 193, 197, 199, 211, 223, 227, 229, 233, 239, 241, 251, 257, 263, 269, 271, 277,
    281, 283, 293, 307, 311, 313, 317, 331, 337, 347, 349, 353, 359, 367, 373, 379, 383, 389,
    397, 401, 409, 419, 421, 431, 433, 439, 443, 449, 457, 461, 463, 467, 479, 487, 491, 499,
    503, 509, 521, 523, 541, 547, 0, 0, 0, 0, 0, 0, 0, 0, 0, 0, 0, 0, 0, 0, 0, 0, 0, 0, 0, 0,
    0, 0, 0, 0, 0, 0, 0, 0]⟩

/-- The list of `m` moduli `6 = 2 * 3` followed by the modulus `10 = 2 * 5`, in a block of
`m + 1` slots as `makenumlist (m + 1)` allocates it. -/
def sixes_then_ten (m : Nat) : numlist := ⟨m + 1, m + 1, List.replicate m 6 ++ [10]⟩

end BatchGcd

namespace BatchGcd

/-! ## Machine arithmetic and slot access -/

theorem size_sub_eq {a b : Nat} (hb : b ≤ a) (ha : a < 2 ^ 64) : size_sub a b = a - b := by
  unfold size_sub SIZE_MOD
  omega

theorem valid_len_lt {l : numlist} (hv : l.valid) : l.len < 2 ^ 60 := by
  unfold numlist.valid sizeof_mpz_t SIZE_MOD at hv
  omega

theorem valid_len_le {l : numlist} (hv : l.valid) : l.len ≤ l.num.length := by
  unfold numlist.valid at hv
  omega

theorem toList_length {l : numlist} (h : l.len ≤ l.num.length) : l.toList.length = l.len := by
  simp [numlist.toList, h]

theorem toList_getElem? (l : numlist) (i : Nat) :
    l.toList[i]? = if i < l.len then l.num[i]? else none := by
  unfold numlist.toList
  rw [List.getElem?_take]

theorem toList_getElem?_lt {l : numlist} {i : Nat} (h : i < l.len) :
    l.toList[i]? = l.num[i]? := by
  rw [toList_getElem?, if_pos h]

theorem getElem?_eq_some_getD {l : List Int} {i : Nat} (h : i < l.length) :
    l[i]? = some (l.getD i 0) := by
  simp [List.getD, List.getElem?_eq_getElem h]

theorem numlist_ext {d1 d2 : numlist} (h1 : d1.len = d2.len) (h2 : d1.alloc = d2.alloc)
    (h3 : ∀ j : Nat, d1.num[j]? = d2.num[j]?) : d1 = d2 := by
  cases d1
  cases d2
  simp only [numlist.mk.injEq]
  exact ⟨h1, h2, List.ext_getElem? h3⟩

theorem makenumlist_shape (n : Nat) (hn : 1 ≤ n) :
    (makenumlist n).len = n ∧ (makenumlist n).alloc = n ∧ (makenumlist n).num.length = n := by
  unfold makenumlist
  have : n ≠ 0 := by omega
  simp [this]

/-! ## The `for` loop as a sequence of slot writes -/

theorem for_loop_wr {B step : Nat} {F : Nat → numlist → Option numlist} {f : Nat → Int}
    (hstep : 1 ≤ step) (hbody : ∀ k d, k < B → F k d = d.wr k (f k)) :
    ∀ (fuel i : Nat) (d : numlist), B ≤ i + fuel → B ≤ d.num.length →
      ∃ d1, for_loop B step F fuel i d = some d1 ∧ d1.len = d.len ∧
        d1.alloc = d.alloc ∧ d1.num.length = d.num.length ∧
        ∀ j, d1.num[j]? =
          if i ≤ j ∧ j < B ∧ step ∣ (j - i) then some (f j) else d.num[j]? := by
  intro fuel
  induction fuel with
  | zero =>
    intro i d hf hlen
    refine ⟨d, ?_, rfl, rfl, rfl, ?_⟩
    · simp only [for_loop]
      rw [if_neg (by omega)]
    · intro j
      rw [if_neg (by omega)]
  | succ fuel ih =>
    intro i d hf hlen
    by_cases hi : i < B
    · have hw : d.wr i (f i) = some ⟨d.len, d.alloc, d.num.set i (f i)⟩ := by
        unfold numlist.wr
        rw [if_pos (by omega)]
      obtain ⟨d1, h1, h2, h3, h4, h5⟩ :=
        ih (i + step) ⟨d.len, d.alloc, d.num.set i (f i)⟩ (by omega) (by simpa using hlen)
      refine ⟨d1, ?_, h2, h3, by simpa using h4, ?_⟩
      · simp only [for_loop]
        rw [if_pos hi, hbody i d hi, hw]
        exact h1
      · intro j
        rw [h5 j]
        by_cases hij : i = j
        · subst hij
          have hd : step ∣ (i - i) := by simp
          rw [if_neg (by omega), if_pos ⟨le_refl _, hi, hd⟩]
          simp [List.getElem?_set]
          omega
        · have hset : (d.num.set i (f i))[j]? = d.num[j]? := by
            simp [List.getElem?_set, hij]
          simp only [hset]
          by_cases hc : i ≤ j ∧ j < B ∧ step ∣ (j - i)
          · obtain ⟨c1, c2, c3⟩ := hc
            have hpos : 0 < j - i := by omega
            have hge : step ≤ j - i := Nat.le_of_dvd hpos c3
            have hd : step ∣ (j - (i + step)) := by
              have := Nat.dvd_sub' c3 (dvd_refl step)
              rwa [Nat.sub_sub] at this
            rw [if_pos ⟨by omega, c2, hd⟩, if_pos ⟨c1, c2, c3⟩]
          · have hc2 : ¬ (i + step ≤ j ∧ j < B ∧ step ∣ (j - (i + step))) := by
              rintro ⟨c1, c2, c3⟩
              apply hc
              refine ⟨by omega, c2, ?_⟩
              have : j - i = (j - (i + step)) + step := by omega
              rw [this]
              exact Dvd.dvd.add c3 (dvd_refl step)
            rw [if_neg hc2, if_neg hc]
    · refine ⟨d, ?_, rfl, rfl, rfl, ?_⟩
      · simp only [for_loop]
        rw [if_neg hi]
      · intro j
        rw [if_neg (by omega)]

/-- A strided `for` loop whose body stores `f k` in slot `k` writes exactly the slots of its
stride below the bound `B`. -/
theorem for_loop_writes {A L B step t : Nat} {F : Nat → numlist → Option numlist}
    {f : Nat → Int} (hstep : 1 ≤ step) (hA : B ≤ A)
    (hbody : ∀ k d, k < B → F k d = d.wr k (f k)) :
    WritesSlots A L f (fun j => t ≤ j ∧ j < B ∧ step ∣ (j - t))
      (for_loop B step F B t) := by
  intro d hdA hdL
  obtain ⟨d1, h1, h2, h3, h4, h5⟩ :=
    for_loop_wr hstep hbody B t d (by omega) (by omega)
  refine ⟨d1, h1, by omega, h3, by omega, ?_, ?_⟩
  · intro j hj
    rw [h5 j, if_pos hj]
  · intro j hj
    rw [h5 j, if_neg hj]

/-- Steps that write slots with a common value function compose: the sequence writes the
union of their slots. -/
theorem foldlM_writes {ι : Type} {A L : Nat} {V : Nat → Int} (cov : ι → Nat → Prop)
    (run : numlist → ι → Option numlist) :
    ∀ steps : List ι, (∀ a ∈ steps, WritesSlots A L V (cov a) (fun d => run d a)) →
      WritesSlots A L V (fun j => ∃ a ∈ steps, cov a j) (fun d => steps.foldlM run d) := by
  intro steps
  induction steps with
  | nil =>
    intro _ d hdA hdL
    refine ⟨d, rfl, hdL, rfl, hdA, ?_, ?_⟩
    · rintro j ⟨a, ha, _⟩
      simp at ha
    · intro j _
      rfl
  | cons a rest ih =>
    intro h d hdA hdL
    obtain ⟨d1, e1, l1, a1, n1, w1, k1⟩ := h a (List.mem_cons_self a rest) d hdA hdL
    obtain ⟨d2, e2, l2, a2, n2, w2, k2⟩ :=
      ih (fun b hb => h b (List.mem_cons_of_mem a hb)) d1 n1 l1
    refine ⟨d2, ?_, l2, by omega, n2, ?_, ?_⟩
    · simp only [List.foldlM_cons]
      simp only [bind, Option.bind, e1]
      exact e2
    · rintro j ⟨b, hb, hcov⟩
      by_cases hr : ∃ c ∈ rest, cov c j
      · exact w2 j hr
      · rw [k2 j hr]
        rcases List.mem_cons.mp hb with rfl | hb
        · exact w1 j hcov
        · exact absurd ⟨b, hb, hcov⟩ hr
    · intro j hj
      have hr : ¬ ∃ c ∈ rest, cov c j := by
        rintro ⟨c, hc, hcov⟩
        exact hj ⟨c, List.mem_cons_of_mem a hc, hcov⟩
      have ha : ¬ cov a j := fun hcov => hj ⟨a, List.mem_cons_self a rest, hcov⟩
      rw [k2 j hr, k1 j ha]

/-- Two steps that write the same slots with the same values give the same list. -/
theorem writes_unique {A L : Nat} {V : Nat → Int} {cov1 cov2 : Nat → Prop}
    {step1 step2 : numlist → Option numlist} (h1 : WritesSlots A L V cov1 step1)
    (h2 : WritesSlots A L V cov2 step2) (hcov : ∀ j, cov1 j ↔ cov2 j) (d : numlist)
    (hdA : d.num.length = A) (hdL : d.len = L) : step1 d = step2 d := by
  obtain ⟨d1, e1, l1, a1, _, w1, k1⟩ := h1 d hdA hdL
  obtain ⟨d2, e2, l2, a2, _, w2, k2⟩ := h2 d hdA hdL
  rw [e1, e2]
  congr 1
  apply numlist_ext (by omega) (by omega)
  intro j
  by_cases hj : cov1 j
  · rw [w1 j hj, w2 j ((hcov j).mp hj)]
  · rw [k1 j hj, k2 j (fun h => hj ((hcov j).mpr h))]

/-- The `T` strided workers started at `0 .. T-1` cover every index below the bound. -/
theorem stride_cover {T j : Nat} (hT : 1 ≤ T) :
    ∃ t ∈ List.range T, t ≤ j ∧ T ∣ (j - t) := by
  refine ⟨j % T, List.mem_range.mpr (Nat.mod_lt _ (by omega)), Nat.mod_le _ _, ?_⟩
  exact (Nat.modEq_iff_dvd' (Nat.mod_le _ _)).mp (Nat.mod_mod _ _)

end BatchGcd

namespace BatchGcd

/-! ## The pairwise product kernel -/

theorem WritesSlots.congr {A L : Nat} {V : Nat → Int} {cov1 cov2 : Nat → Prop}
    {step : numlist → Option numlist} (h : WritesSlots A L V cov1 step)
    (hcov : ∀ j, cov1 j ↔ cov2 j) : WritesSlots A L V cov2 step := by
  intro d hdA hdL
  obtain ⟨d1, e1, l1, a1, n1, w1, k1⟩ := h d hdA hdL
  exact ⟨d1, e1, l1, a1, n1, fun j hj => w1 j ((hcov j).mpr hj),
    fun j hj => k1 j (fun c => hj ((hcov j).mp c))⟩

theorem rd_eq_getD {s : numlist} {i : Nat} (h : i < s.num.length) :
    s.rd i = some (s.num.getD i 0) := by
  unfold numlist.rd
  exact getElem?_eq_some_getD h

theorem listmul_body_wr {s : numlist} {L k : Nat} (hk : k + 1 < L)
    (hL : L = (s.len + 1) / 2) (hs : s.len ≤ s.num.length) (d : numlist) :
    listmul_body s k d = d.wr k (mul_val L s k) := by
  have h1 : k * 2 < s.num.length := by omega
  have h2 : k * 2 + 1 < s.num.length := by omega
  unfold listmul_body mul_val
  rw [rd_eq_getD h1, rd_eq_getD h2, if_neg (by omega)]
  rfl

theorem listmul_worker_writes {s : numlist} {A L T t : Nat} (hT : 1 ≤ T)
    (hL : L = (s.len + 1) / 2) (hL1 : 1 ≤ L) (hs : s.valid) (hA : L ≤ A) :
    WritesSlots A L (mul_val L s) (mul_cov L T (mul_task.worker t))
      (fun d => listmul_worker s t T d) := by
  have hlt := valid_len_lt hs
  have hsl := valid_len_le hs
  · have hw : WritesSlots A L (mul_val L s) (fun j => t ≤ j ∧ j < L - 1 ∧ T ∣ (j - t))
        (for_loop (L - 1) T (listmul_body s) (L - 1) t) :=
      for_loop_writes hT (by omega)
        (fun k d hk => listmul_body_wr (by omega) hL hsl d)
    intro d hdA hdL
    have hb : size_sub d.len 1 = L - 1 := by
      rw [hdL]
      exact size_sub_eq (by omega) (by omega)
    obtain ⟨d1, e1, l1, a1, n1, w1, k1⟩ := hw d hdA hdL
    refine ⟨d1, ?_, l1, a1, n1, ?_, ?_⟩
    · show listmul_worker s t T d = some d1
      unfold listmul_worker
      rw [hb]
      exact e1
    · intro j hj
      simp only [mul_cov] at hj
      exact w1 j ⟨hj.1, by omega, hj.2.2⟩
    · intro j hj
      simp only [mul_cov] at hj
      exact k1 j (fun c => hj ⟨c.1, by omega, c.2.2⟩)

theorem listmul_tail_writes {s : numlist} {A L T : Nat} (hL : L = (s.len + 1) / 2)
    (hL1 : 1 ≤ L) (hs : s.valid) (hA : L ≤ A) :
    WritesSlots A L (mul_val L s) (mul_cov L T mul_task.tail) (fun d => listmul_tail d s) := by
  have hlt := valid_len_lt hs
  have hsl := valid_len_le hs
  have hs1 : 1 ≤ s.len := by omega
  intro d hdA hdL
  have hb : size_sub d.len 1 = L - 1 := by
    rw [hdL]
    exact size_sub_eq (by omega) (by omega)
  have hb1 : size_sub s.len 1 = s.len - 1 := size_sub_eq (by omega) (by omega)
  have hval : listmul_tail d s = d.wr (L - 1) (mul_val L s (L - 1)) := by
    unfold listmul_tail mul_val
    rw [hb, hb1, if_pos (show L - 1 + 1 = L by omega)]
    by_cases hev : s.len % 2 = 0
    · have hb2 : size_sub s.len 2 = s.len - 2 := size_sub_eq (by omega) (by omega)
      rw [if_pos hev, if_pos hev, hb2, rd_eq_getD (by omega), rd_eq_getD (by omega)]
      rfl
    · rw [if_neg hev, if_neg hev, rd_eq_getD (by omega)]
      rfl
  have hw : d.wr (L - 1) (mul_val L s (L - 1)) =
      some ⟨d.len, d.alloc, d.num.set (L - 1) (mul_val L s (L - 1))⟩ := by
    unfold numlist.wr
    rw [if_pos (by omega)]
  refine ⟨_, hval.trans hw, hdL, rfl, by simpa using hdA, ?_, ?_⟩
  · intro j hj
    simp only [mul_cov] at hj
    have hj1 : j = L - 1 := by omega
    subst hj1
    rw [List.getElem?_set_self (by omega)]
  · intro j hj
    simp only [mul_cov] at hj
    rw [List.getElem?_set_ne (by omega)]

theorem run_mul_task_writes {s : numlist} {A L T : Nat} (hT : 1 ≤ T)
    (hL : L = (s.len + 1) / 2) (hL1 : 1 ≤ L) (hs : s.valid) (hA : L ≤ A) (a : mul_task) :
    WritesSlots A L (mul_val L s) (mul_cov L T a) (fun d => run_mul_task s T d a) := by
  cases a with
  | worker t => exact listmul_worker_writes hT hL hL1 hs hA
  | tail => exact listmul_tail_writes hL hL1 hs hA

/-- The units of work of `threaded_listmul`, taken together, write slots `0 .. L-1`. -/
theorem mul_tasks_cover {L T : Nat} (hT : 1 ≤ T) (j : Nat) :
    (∃ a ∈ mul_tasks T, mul_cov L T a j) ↔ j < L := by
  constructor
  · rintro ⟨a, _, hc⟩
    cases a with
    | worker t =>
      simp only [mul_cov] at hc
      omega
    | tail =>
      simp only [mul_cov] at hc
      omega
  · intro hj
    by_cases hl : j + 1 = L
    · exact ⟨mul_task.tail, by simp [mul_tasks], hl⟩
    · obtain ⟨t, ht, h1, h2⟩ := stride_cover (T := T) (j := j) hT
      refine ⟨mul_task.worker t, ?_, h1, by omega, h2⟩
      simp only [mul_tasks, List.mem_append, List.mem_map]
      exact Or.inl ⟨t, ht, rfl⟩

/-- Any complete schedule of `threaded_listmul` writes slot `j < L` with `mul_val L s j`. -/
theorem threaded_listmul_sched_writes {s : numlist} {A L T : Nat} (hT : 1 ≤ T)
    (hL : L = (s.len + 1) / 2) (hL1 : 1 ≤ L) (hs : s.valid) (hA : L ≤ A)
    {order : List mul_task} (hperm : order.Perm (mul_tasks T)) :
    WritesSlots A L (mul_val L s) (fun j => j < L)
      (fun d => threaded_listmul_sched order d s T) := by
  have h := foldlM_writes (A := A) (L := L) (V := mul_val L s) (mul_cov L T)
    (run_mul_task s T) order (fun a _ => run_mul_task_writes hT hL hL1 hs hA a)
  have h2 : WritesSlots A L (mul_val L s) (fun j => j < L) _ := h.congr (fun j => by
    show (∃ a ∈ order, mul_cov L T a j) ↔ j < L
    rw [← mul_tasks_cover hT j]
    constructor
    · rintro ⟨a, ha, hc⟩
      exact ⟨a, hperm.mem_iff.mp ha, hc⟩
    · rintro ⟨a, ha, hc⟩
      exact ⟨a, hperm.mem_iff.mpr ha, hc⟩)
  intro d hdA hdL
  obtain ⟨d1, e1, r⟩ := h2 d hdA hdL
  refine ⟨d1, ?_, r⟩
  show threaded_listmul_sched order d s T = some d1
  unfold threaded_listmul_sched
  rw [if_neg (by omega), if_neg (by omega)]
  exact e1

theorem listmul_eq_sched (d s : numlist) :
    listmul d s = threaded_listmul_sched (mul_tasks 1) d s 1 := by
  unfold listmul threaded_listmul_sched
  by_cases h : d.len = 0
  · rw [if_pos h, if_pos h]
  · rw [if_neg h, if_neg h, if_neg (by omega)]
    show _ = List.foldlM (run_mul_task s 1) d [mul_task.worker 0, mul_task.tail]
    simp only [List.foldlM_cons, List.foldlM_nil, run_mul_task, listmul_worker]
    cases for_loop (size_sub d.len 1) 1 (listmul_body s) (size_sub d.len 1) 0 d with
    | none => rfl
    | some d1 =>
      show listmul_tail d1 s = (listmul_tail d1 s).bind some
      cases listmul_tail d1 s <;> rfl

theorem listmul_writes {s : numlist} {A L : Nat}
    (hL : L = (s.len + 1) / 2) (hL1 : 1 ≤ L) (hs : s.valid) (hA : L ≤ A) :
    WritesSlots A L (mul_val L s) (fun j => j < L) (fun d => listmul d s) := by
  have h := threaded_listmul_sched_writes (T := 1) (le_refl 1) hL hL1 hs hA
    (List.Perm.refl (mul_tasks 1))
  intro d hdA hdL
  have h1 := h d hdA hdL
  beta_reduce at h1 ⊢
  rw [← listmul_eq_sched] at h1
  exact h1

/-! ## Pairwise products of a list -/

theorem pair_products_length (l : List Int) :
    (pair_products l).length = (l.length + 1) / 2 := by
  induction l using pair_products.induct with
  | case1 a b rest ih =>
    simp only [pair_products, List.length_cons, ih]
    omega
  | case2 a => simp [pair_products]
  | case3 => simp [pair_products]

theorem pair_products_getElem? (l : List Int) (j : Nat) :
    (pair_products l)[j]? =
      if j * 2 + 1 < l.length then some (l.getD (j * 2) 0 * l.getD (j * 2 + 1) 0)
      else if j * 2 < l.length then some (l.getD (j * 2) 0) else none := by
  induction l using pair_products.induct generalizing j with
  | case1 a b rest ih =>
    cases j with
    | zero => simp [pair_products]
    | succ j =>
      simp only [pair_products, List.getElem?_cons_succ, ih j, List.length_cons]
      have e1 : (j + 1) * 2 = j * 2 + 1 + 1 := by omega
      have e2 : (j + 1) * 2 + 1 = j * 2 + 1 + 1 + 1 := by omega
      rw [e1]
      simp only [List.getD_cons_succ]
      split_ifs <;> first | rfl | (exfalso; omega)
  | case2 a =>
    cases j with
    | zero => simp [pair_products]
    | succ j => simp [pair_products]
  | case3 => simp [pair_products]

theorem pair_products_prod (l : List Int) : (pair_products l).prod = l.prod := by
  induction l using pair_products.induct with
  | case1 a b rest ih =>
    simp only [pair_products, List.prod_cons, ih]
    ring
  | case2 a => simp [pair_products]
  | case3 => simp [pair_products]

theorem toList_getD {s : numlist} {k : Nat} (hk : k < s.len) :
    s.toList.getD k 0 = s.num.getD k 0 := by
  rw [List.getD_eq_getElem?_getD, List.getD_eq_getElem?_getD, toList_getElem?_lt hk]

/-- What the product kernel leaves in the destination is the list of pairwise products. -/
theorem mul_val_toList {s : numlist} {L : Nat} (hL : L = (s.len + 1) / 2)
    (hs : s.len ≤ s.num.length) {d1 : numlist} (hl : d1.len = L)
    (hw : ∀ j, j < L → d1.num[j]? = some (mul_val L s j)) :
    d1.toList = pair_products s.toList := by
  apply List.ext_getElem?
  intro j
  rw [toList_getElem?, pair_products_getElem?, toList_length hs, hl]
  by_cases hj : j < L
  · rw [if_pos hj, hw j hj]
    unfold mul_val
    by_cases hlast : j + 1 = L
    · rw [if_pos hlast]
      by_cases hev : s.len % 2 = 0
      · rw [if_pos hev, if_pos (by omega), toList_getD (by omega), toList_getD (by omega)]
        have e1 : s.len - 1 = j * 2 + 1 := by omega
        have e2 : s.len - 2 = j * 2 := by omega
        rw [e1, e2, mul_comm]
      · rw [if_neg hev, if_neg (by omega), if_pos (by omega), toList_getD (by omega)]
        have e1 : s.len - 1 = j * 2 := by omega
        rw [e1]
    · rw [if_neg hlast, if_pos (by omega), toList_getD (by omega), toList_getD (by omega)]
  · rw [if_neg hj, if_neg (by omega), if_neg (by omega)]

end BatchGcd

namespace BatchGcd

/-! ## The strided workers of the other two kernels -/

/-- The `T` strided workers of a kernel, run one after the other, write every slot below
the bound `B`. -/
theorem workers_write {A L B T : Nat} {F : Nat → numlist → Option numlist}
    {f : Nat → Int} (run : numlist → Nat → Option numlist) (hT : 1 ≤ T) (hA : B ≤ A)
    (hbody : ∀ k d, k < B → F k d = d.wr k (f k))
    (hrun : ∀ d t, d.len = L → run d t = for_loop B T F B t d) :
    WritesSlots A L f (fun j => j < B) (fun d => (List.range T).foldlM run d) := by
  have h := foldlM_writes (A := A) (L := L) (V := f)
    (fun t j => t ≤ j ∧ j < B ∧ T ∣ (j - t)) run (List.range T)
    (fun t _ d hdA hdL => by
      have hw := for_loop_writes (L := L) (t := t) hT hA hbody d hdA hdL
      rw [← hrun d t hdL] at hw
      exact hw)
  refine h.congr (fun j => ?_)
  constructor
  · rintro ⟨t, _, _, hb, _⟩
    exact hb
  · intro hj
    obtain ⟨t, ht, h1, h2⟩ := stride_cover (T := T) (j := j) hT
    exact ⟨t, ht, h1, hj, h2⟩

/-! ### Square-and-reduce -/

theorem listsqmod_slot_wr {X R : numlist} {k : Nat} (hk : k < X.num.length)
    (hR : k / 2 < R.num.length) (hx : X.num.getD k 0 ≠ 0) (d : numlist) :
    listsqmod_slot X R k d = d.wr k (sqmod_val X R k) := by
  unfold listsqmod_slot sqmod_val
  rw [rd_eq_getD hk, rd_eq_getD hR]
  have hsq : mpz_mul (X.num.getD k 0) (X.num.getD k 0) ≠ 0 := by
    unfold mpz_mul
    exact mul_ne_zero hx hx
  simp only [Option.some_bind, mpz_mod, if_neg hsq]
  rfl

theorem sqmod_for_loop (X R : numlist) (b T : Nat) :
    ∀ (fuel i : Nat) (nR : numlist),
      for_loop b T listsqmod_body fuel i ⟨X, R, nR⟩ =
        (for_loop b T (listsqmod_slot X R) fuel i nR).map (fun n => ⟨X, R, n⟩) := by
  intro fuel
  induction fuel with
  | zero =>
    intro i nR
    simp only [for_loop]
    split_ifs <;> rfl
  | succ fuel ih =>
    intro i nR
    simp only [for_loop]
    split_ifs
    · simp only [listsqmod_body]
      cases listsqmod_slot X R i nR with
      | none => rfl
      | some n1 => exact ih (i + T) n1
    · rfl

theorem sqmod_workers (X R : numlist) (T : Nat) :
    ∀ (ts : List Nat) (nR : numlist),
      ts.foldlM (fun st t => listsqmod_worker t T st) ⟨X, R, nR⟩ =
        (ts.foldlM (fun d t => for_loop X.len T (listsqmod_slot X R) X.len t d) nR).map
          (fun n => ⟨X, R, n⟩) := by
  intro ts
  induction ts with
  | nil =>
    intro nR
    rfl
  | cons t rest ih =>
    intro nR
    simp only [List.foldlM_cons, listsqmod_worker, sqmod_for_loop]
    cases for_loop X.len T (listsqmod_slot X R) X.len t nR with
    | none => rfl
    | some n1 => exact ih n1

/-- The square-and-reduce kernel succeeds when every `X[i]` is non-zero, returns `X` and `R`
as they were and stores `R[i / 2] mod X[i]^2` in slot `i` of `nR` for every `i < X.len`. -/
theorem threaded_listsqmod_writes {X R : numlist} {A L T : Nat} (hT : 1 ≤ T)
    (hX : X.len ≤ X.num.length) (hR : (X.len + 1) / 2 ≤ R.num.length) (hA : X.len ≤ A)
    (hx : ∀ k, k < X.len → X.num.getD k 0 ≠ 0) (nR : numlist) (hnA : nR.num.length = A)
    (hnL : nR.len = L) :
    ∃ n1, threaded_listsqmod X R nR T = some ⟨X, R, n1⟩ ∧ n1.len = L ∧ n1.alloc = nR.alloc ∧
      n1.num.length = A ∧ (∀ j, j < X.len → n1.num[j]? = some (sqmod_val X R j)) ∧
      (∀ j, ¬ j < X.len → n1.num[j]? = nR.num[j]?) := by
  have hw := workers_write (A := A) (L := L) (B := X.len) (T := T)
    (F := listsqmod_slot X R) (f := sqmod_val X R)
    (fun d t => for_loop X.len T (listsqmod_slot X R) X.len t d) hT hA
    (fun k d hk => listsqmod_slot_wr (by omega) (by omega) (hx k hk) d)
    (fun _ _ _ => rfl)
  obtain ⟨n1, e1, r⟩ := hw nR hnA hnL
  refine ⟨n1, ?_, r⟩
  unfold threaded_listsqmod
  rw [if_neg (by omega), sqmod_workers]
  beta_reduce at e1
  rw [e1]
  rfl

/-! ### Divide-then-gcd -/

theorem listdivgcd_body_wr {R N : numlist} {k : Nat} (hR : k < R.num.length)
    (hN : k < N.num.length) (hn : N.num.getD k 0 ≠ 0)
    (hdvd : R.num.getD k 0 % N.num.getD k 0 = 0) (d : numlist) :
    listdivgcd_body R N k d = d.wr k (divgcd_val R N k) := by
  unfold listdivgcd_body divgcd_val
  rw [rd_eq_getD hR, rd_eq_getD hN]
  simp only [Option.some_bind, mpz_divexact, if_neg hn, if_pos hdvd]

/-- The divide-then-gcd kernel succeeds when every `N[i]` is non-zero and divides `R[i]`, and
stores `gcd(R[i] / N[i], N[i])` in slot `i` of `G` for every `i < G.len`. -/
theorem threaded_listdivgcd_writes {R N : numlist} {A L T : Nat} (hT : 1 ≤ T)
    (hR : L ≤ R.num.length) (hN : L ≤ N.num.length) (hA : L ≤ A)
    (hn : ∀ k, k < L → N.num.getD k 0 ≠ 0)
    (hdvd : ∀ k, k < L → R.num.getD k 0 % N.num.getD k 0 = 0) :
    WritesSlots A L (divgcd_val R N) (fun j => j < L)
      (fun G => threaded_listdivgcd G R N T) := by
  have hw := workers_write (A := A) (L := L) (B := L) (T := T)
    (F := listdivgcd_body R N) (f := divgcd_val R N)
    (fun g t => listdivgcd_worker R N t T g) hT hA
    (fun k d hk => listdivgcd_body_wr (by omega) (by omega) (hn k hk) (hdvd k hk) d)
    (fun d t hd => by
      show listdivgcd_worker R N t T d = _
      unfold listdivgcd_worker
      rw [hd])
  intro G hGA hGL
  obtain ⟨g1, e1, r⟩ := hw G hGA hGL
  refine ⟨g1, ?_, r⟩
  show threaded_listdivgcd G R N T = some g1
  unfold threaded_listdivgcd
  rw [if_neg (by omega)]
  exact e1

end BatchGcd

namespace BatchGcd

/-! ## `intlog2` -/

theorem intlog2_loop_eq {num : Nat} (hnum : num ≤ 2 ^ 63) :
    ∀ (fuel k : Nat), k ≤ 63 → 64 < fuel + k → (∀ j, j < k → 2 ^ j < num) →
      intlog2_loop num fuel (2 ^ k) k = some (Nat.clog 2 num) := by
  intro fuel
  induction fuel with
  | zero =>
    intro k hk hf _
    omega
  | succ fuel ih =>
    intro k hk hf hlow
    simp only [intlog2_loop]
    by_cases hlt : 2 ^ k < num
    · rw [if_pos hlt]
      have hk63 : k < 63 := by
        by_contra hc
        have h63 : k = 63 := by omega
        rw [h63] at hlt
        omega
      have hpow : 2 ^ k * 2 % SIZE_MOD = 2 ^ (k + 1) := by
        have h1 : (2 : Nat) ^ (k + 1) ≤ 2 ^ 63 := Nat.pow_le_pow_right (by norm_num) (by omega)
        rw [← pow_succ]
        unfold SIZE_MOD
        exact Nat.mod_eq_of_lt (by omega)
      rw [hpow]
      apply ih (k + 1) (by omega) (by omega)
      intro j hj
      by_cases hjk : j = k
      · rw [hjk]
        exact hlt
      · exact hlow j (by omega)
    · rw [if_neg hlt]
      congr 1
      apply le_antisymm
      · by_contra hc
        have h1 := hlow (Nat.clog 2 num) (by omega)
        have h2 := Nat.le_pow_clog (by norm_num : 1 < 2) num
        omega
      · exact (Nat.le_pow_iff_clog_le (by norm_num : 1 < 2)).mp (by omega)

/-- Function `intlog2` terminates on every `num ≤ 2^63` and returns the base-2 logarithm of
`num` rounded up. -/
theorem intlog2_eq {num : Nat} (hnum : num ≤ 2 ^ 63) : intlog2 num = some (Nat.clog 2 num) := by
  unfold intlog2
  have h := intlog2_loop_eq hnum 65 0 (by omega) (by omega) (fun j hj => by omega)
  simpa using h

/-! ## Iterated halving -/

theorem halve_iterate_pos {n : Nat} (hn : 1 ≤ n) (k : Nat) : 1 ≤ halve^[k] n := by
  induction k with
  | zero => simpa using hn
  | succ k ih =>
    rw [Function.iterate_succ_apply']
    show 1 ≤ (halve^[k] n + 1) / 2
    omega

theorem halve_iterate_le (n k : Nat) : halve^[k] n ≤ n := by
  induction k with
  | zero => simp
  | succ k ih =>
    rw [Function.iterate_succ_apply']
    show (halve^[k] n + 1) / 2 ≤ n
    omega

theorem halve_iterate_le_iff (n m k : Nat) : halve^[k] n ≤ m ↔ n ≤ m * 2 ^ k := by
  induction k generalizing n with
  | zero => simp
  | succ k ih =>
    rw [Function.iterate_succ_apply, ih]
    unfold halve
    rw [pow_succ]
    constructor
    · intro h
      have : n + 1 < (m * 2 ^ k + 1) * 2 := by
        have := Nat.lt_succ_of_le h
        exact (Nat.div_lt_iff_lt_mul (by norm_num)).mp this
      nlinarith
    · intro h
      apply Nat.le_of_lt_succ
      apply (Nat.div_lt_iff_lt_mul (by norm_num)).mpr
      nlinarith

theorem halve_iterate_clog {n : Nat} (hn : 1 ≤ n) : halve^[Nat.clog 2 n] n = 1 := by
  apply le_antisymm
  · rw [halve_iterate_le_iff, one_mul]
    exact Nat.le_pow_clog (by norm_num) n
  · exact halve_iterate_pos hn _

theorem pair_products_iterate_length (l : List Int) (k : Nat) :
    (pair_products^[k] l).length = halve^[k] l.length := by
  induction k with
  | zero => rfl
  | succ k ih =>
    rw [Function.iterate_succ_apply', Function.iterate_succ_apply', pair_products_length, ih]
    rfl

theorem pair_products_iterate_prod (l : List Int) (k : Nat) :
    (pair_products^[k] l).prod = l.prod := by
  induction k with
  | zero => rfl
  | succ k ih =>
    rw [Function.iterate_succ_apply', pair_products_prod, ih]

/-! ## The generic counting loop with an invariant -/

theorem for_loop_inv {σ : Type} (I : Nat → σ → Prop) {B : Nat}
    {F : Nat → σ → Option σ}
    (hbody : ∀ i st, i < B → I i st → ∃ st1, F i st = some st1 ∧ I (i + 1) st1) :
    ∀ (fuel i : Nat) (st : σ), B ≤ i + fuel → i ≤ B → I i st →
      ∃ st1, for_loop B 1 F fuel i st = some st1 ∧ I B st1 := by
  intro fuel
  induction fuel with
  | zero =>
    intro i st hf hi hI
    have : i = B := by omega
    subst this
    refine ⟨st, ?_, hI⟩
    simp [for_loop]
  | succ fuel ih =>
    intro i st hf hi hI
    simp only [for_loop]
    by_cases hlt : i < B
    · rw [if_pos hlt]
      obtain ⟨st1, e1, hI1⟩ := hbody i st hlt hI
      rw [e1]
      exact ih (i + 1) st1 (by omega) (by omega) hI1
    · rw [if_neg hlt]
      have : i = B := by omega
      subst this
      exact ⟨st, rfl, hI⟩

/-! ## The product tree -/

/-- What `threaded_listmul` returns on a fresh destination of the right length. -/
theorem threaded_listmul_fresh {s : numlist} (hs : s.valid) (hs1 : 1 ≤ s.len) (T : Nat)
    (hT : 1 ≤ T) :
    ∃ d1, threaded_listmul (makenumlist ((s.len + 1) / 2)) s T = some d1 ∧ d1.valid ∧
      d1.len = (s.len + 1) / 2 ∧ d1.toList = pair_products s.toList := by
  have hL1 : 1 ≤ (s.len + 1) / 2 := by omega
  obtain ⟨m1, m2, m3⟩ := makenumlist_shape _ hL1
  have hw := threaded_listmul_sched_writes (A := (s.len + 1) / 2) hT rfl hL1 hs (le_refl _)
    (List.Perm.refl (mul_tasks T))
  obtain ⟨d1, e1, l1, a1, n1, w1, _⟩ := hw (makenumlist ((s.len + 1) / 2)) m3 m1
  have hlt := valid_len_lt hs
  refine ⟨d1, e1, ?_, l1, mul_val_toList rfl (valid_len_le hs) l1 w1⟩
  unfold numlist.valid sizeof_mpz_t SIZE_MOD
  omega

/-- The loop invariant of `producttree`: `l` levels have been built, level `k` holds the
`k`-fold pairwise products of the input. -/
theorem producttree_body_inv (N : numlist) (hv : N.valid) (l : Nat) (level : List numlist)
    (hl : 1 ≤ l) (hlen : level.length = l)
    (hlev : ∀ k, k < l → ∃ lv, level[k]? = some lv ∧ lv.valid ∧
      lv.toList = pair_products^[k] N.toList ∧ (k = 0 → lv = N))
    (hN : 2 ≤ N.len) :
    ∃ level1, producttree_body l level = some level1 ∧ level1.length = l + 1 ∧
      ∀ k, k < l + 1 → ∃ lv, level1[k]? = some lv ∧ lv.valid ∧
        lv.toList = pair_products^[k] N.toList ∧ (k = 0 → lv = N) := by
  obtain ⟨prev, hp, hpv, hpl, _⟩ := hlev (l - 1) (by omega)
  have hplen : prev.len = halve^[l - 1] N.len := by
    rw [← toList_length (valid_len_le hpv), hpl, pair_products_iterate_length,
      toList_length (valid_len_le hv)]
  have hp1 : 1 ≤ prev.len := by
    rw [hplen]
    exact halve_iterate_pos (by omega) _
  obtain ⟨d1, e1, v1, _, t1⟩ := threaded_listmul_fresh hpv hp1 4 (by norm_num)
  refine ⟨level ++ [d1], ?_, by simp [hlen], ?_⟩
  · unfold producttree_body
    rw [hp]
    simp only [Option.some_bind, e1, Option.map_some']
  · intro k hk
    by_cases hkl : k < l
    · obtain ⟨lv, h1, h2⟩ := hlev k hkl
      refine ⟨lv, ?_, h2⟩
      rw [List.getElem?_append_left (by omega)]
      exact h1
    · have hkeq : k = l := by omega
      subst hkeq
      refine ⟨d1, ?_, v1, ?_, by omega⟩
      · rw [List.getElem?_append_right (by omega)]
        simp [hlen]
      · rw [t1, hpl]
        conv_rhs => rw [show k = (k - 1) + 1 by omega, Function.iterate_succ_apply']

/-- Function `producttree` returns a tree of `⌈log2 n⌉ + 1` levels; level `0` is the input
and level `k` holds its `k`-fold pairwise products. -/
theorem producttree_levels (N : numlist) (hv : N.valid) :
    ∃ T, producttree N = some T ∧ T.height = Nat.clog 2 N.len + 1 ∧
      T.level.length = T.height ∧
      ∀ k, k < T.height → ∃ lv, T.level[k]? = some lv ∧ lv.valid ∧
        lv.toList = pair_products^[k] N.toList ∧ (k = 0 → lv = N) := by
  have hlt := valid_len_lt hv
  have hlog : intlog2 N.len = some (Nat.clog 2 N.len) := intlog2_eq (by omega)
  have hloop := for_loop_inv
    (fun l (level : List numlist) => 1 ≤ l ∧ level.length = l ∧
      ∀ k, k < l → ∃ lv, level[k]? = some lv ∧ lv.valid ∧
        lv.toList = pair_products^[k] N.toList ∧ (k = 0 → lv = N))
    (B := Nat.clog 2 N.len + 1) (F := producttree_body)
    (fun i st hi hI => by
      obtain ⟨h1, h2, h3⟩ := hI
      have hN : 2 ≤ N.len := by
        by_contra hc
        have := Nat.clog_of_right_le_one (show N.len ≤ 1 by omega) 2
        omega
      obtain ⟨level1, e1, l1, r1⟩ := producttree_body_inv N hv i st h1 h2 h3 hN
      exact ⟨level1, e1, by omega, l1, r1⟩)
    (Nat.clog 2 N.len + 1) 1 [N] (by omega) (by omega)
    ⟨le_refl 1, rfl, fun k hk => by
      have hk0 : k = 0 := by omega
      subst hk0
      exact ⟨N, rfl, hv, rfl, fun _ => rfl⟩⟩
  obtain ⟨level, e, _, hl, hlev⟩ := hloop
  refine ⟨⟨Nat.clog 2 N.len + 1, level⟩, ?_, rfl, hl, hlev⟩
  unfold producttree
  rw [hlog]
  simp only [Option.some_bind, e, Option.map_some']

end BatchGcd

namespace BatchGcd

/-! ## Integer arithmetic behind the remainder tree -/

theorem prod_eraseIdx (l : List Int) (i : Nat) (hi : i < l.length) :
    l.getD i 0 * (l.eraseIdx i).prod = l.prod := by
  induction l generalizing i with
  | nil => simp at hi
  | cons a rest ih =>
    cases i with
    | zero => simp
    | succ i =>
      simp only [List.length_cons, Nat.add_lt_add_iff_right] at hi
      simp only [List.getD_cons_succ, List.eraseIdx_cons_succ, List.prod_cons]
      rw [← ih i hi]
      ring

theorem gcd_sub_mul_self (x y k : Int) : Int.gcd x (y - x * k) = Int.gcd x y := by
  have key : ∀ y k : Int,
      ((Int.gcd x (y - x * k) : Nat) : Int) ∣ ((Int.gcd x y : Nat) : Int) := by
    intro y k
    apply Int.dvd_gcd Int.gcd_dvd_left
    have h : y = (y - x * k) + x * k := by ring
    rw [h]
    exact dvd_add (by rw [← h]; exact Int.gcd_dvd_right) (Dvd.dvd.mul_right Int.gcd_dvd_left k)
  apply Nat.dvd_antisymm
  · exact Int.natCast_dvd_natCast.mp (key y k)
  · have h2 := key (y - x * k) (-k)
    have e : y - x * k - x * -k = y := by ring
    rw [e] at h2
    exact Int.natCast_dvd_natCast.mp h2

/-- Reducing `P` modulo `a^2` before the exact division by `a` does not change the gcd of
the quotient with `a`. -/
theorem gcd_sq_mod_div (P a : Int) (ha : a ≠ 0) (hdvd : a ∣ P) :
    Int.gcd (P % (a * a) / a) a = Int.gcd (P / a) a := by
  obtain ⟨c, rfl⟩ := hdvd
  have h1 : a * c % (a * a) = a * c - a * a * (a * c / (a * a)) := by
    rw [Int.emod_def]
  have h2 : (a * c - a * a * (a * c / (a * a))) / a = c - a * (a * c / (a * a)) := by
    have : a * c - a * a * (a * c / (a * a)) = a * (c - a * (a * c / (a * a))) := by ring
    rw [this, Int.mul_ediv_cancel_left _ ha]
  rw [h1, h2, Int.mul_ediv_cancel_left _ ha]
  rw [Int.gcd_comm, Int.gcd_comm c a]
  exact gcd_sub_mul_self a c _

theorem getD_mem {l : List Int} {i : Nat} (hi : i < l.length) : l.getD i 0 ∈ l := by
  rw [List.getD_eq_getElem _ _ hi]
  exact List.getElem_mem hi

theorem getD_dvd_prod {l : List Int} {i : Nat} (hi : i < l.length) : l.getD i 0 ∣ l.prod :=
  List.dvd_prod (getD_mem hi)

theorem pair_products_ne_zero (l : List Int) (h : ∀ x ∈ l, x ≠ 0) :
    ∀ x ∈ pair_products l, x ≠ 0 := by
  induction l using pair_products.induct with
  | case1 a b rest ih =>
    intro x hx
    simp only [pair_products, List.mem_cons] at hx
    rcases hx with rfl | hx
    · exact mul_ne_zero (h a (by simp)) (h b (by simp))
    · exact ih (fun y hy => h y (by simp [hy])) x hx
  | case2 a => simpa [pair_products] using h
  | case3 => simp [pair_products]

theorem pair_products_iterate_ne_zero (l : List Int) (h : ∀ x ∈ l, x ≠ 0) (k : Nat) :
    ∀ x ∈ pair_products^[k] l, x ≠ 0 := by
  induction k with
  | zero => simpa using h
  | succ k ih =>
    rw [Function.iterate_succ_apply']
    exact pair_products_ne_zero _ ih

theorem getD_of_getElem? {l : List Int} {i : Nat} {v : Int} (h : l[i]? = some v) :
    l.getD i 0 = v := by
  rw [List.getD_eq_getElem?_getD, h]
  rfl

/-- Every element of a level divides its parent in the level above. -/
theorem pair_products_dvd (l : List Int) (j : Nat) (hj : j < l.length) :
    l.getD j 0 ∣ (pair_products l).getD (j / 2) 0 := by
  have h := pair_products_getElem? l (j / 2)
  by_cases h1 : j / 2 * 2 + 1 < l.length
  · rw [if_pos h1] at h
    rw [getD_of_getElem? h]
    rcases Nat.mod_two_eq_zero_or_one j with hm | hm
    · have e : j / 2 * 2 = j := by omega
      rw [e]
      exact dvd_mul_right _ _
    · have e : j / 2 * 2 + 1 = j := by omega
      rw [e]
      exact dvd_mul_left _ _
  · rw [if_neg h1, if_pos (by omega)] at h
    rw [getD_of_getElem? h]
    have e : j / 2 * 2 = j := by omega
    rw [e]

theorem CongSq_self (P : Int) : CongSq P [P] [P] := by
  refine ⟨rfl, ?_⟩
  intro i hi
  have h0 : i = 0 := by simpa using hi
  subst h0
  rfl

theorem CongSq_map (P : Int) (Ys : List Int) :
    CongSq P Ys (Ys.map fun x => P % (x * x)) := by
  refine ⟨by simp, ?_⟩
  intro i hi
  have h : (Ys.map fun x => P % (x * x))[i]? = some (P % (Ys.getD i 0 * Ys.getD i 0)) := by
    rw [List.getElem?_map, getElem?_eq_some_getD hi]
    rfl
  rw [getD_of_getElem? h]
  exact Int.emod_emod_of_dvd P (dvd_refl _)

/-- The remainder-tree step on values: a remainder of the parent, reduced modulo the square
of a child, is the remainder of `P` modulo that square. -/
theorem CongSq_step {P : Int} {Xs Rs : List Int} (h : CongSq P (pair_products Xs) Rs)
    (j : Nat) (hj : j < Xs.length) :
    Rs.getD (j / 2) 0 % (Xs.getD j 0 * Xs.getD j 0) = P % (Xs.getD j 0 * Xs.getD j 0) := by
  have hlen : j / 2 < (pair_products Xs).length := by
    rw [pair_products_length]
    omega
  have hc := h.2 (j / 2) hlen
  have hd : Xs.getD j 0 * Xs.getD j 0 ∣
      (pair_products Xs).getD (j / 2) 0 * (pair_products Xs).getD (j / 2) 0 :=
    mul_dvd_mul (pair_products_dvd Xs j hj) (pair_products_dvd Xs j hj)
  rw [← Int.emod_emod_of_dvd (Rs.getD (j / 2) 0) hd, hc, Int.emod_emod_of_dvd P hd]

/-! ## One round of the descent -/

theorem makenumlist_len (n : Nat) : (makenumlist n).len = n := rfl

theorem makenumlist_valid {n : Nat} (hn : n < 2 ^ 60) : (makenumlist n).valid := by
  unfold numlist.valid makenumlist sizeof_mpz_t SIZE_MOD
  by_cases h : n = 0
  · simp [h]
  · simp only [if_neg h, List.length_replicate, le_refl, true_and]
    omega

/-- The square-and-reduce kernel on a fresh destination turns remainders for the level above
into the remainders `P mod X[i]^2` for the level `X`. -/
theorem threaded_listsqmod_fresh {X R : numlist} {P : Int} (hX : X.valid) (hR : R.valid)
    (hnz : ∀ x ∈ X.toList, x ≠ 0) (hc : CongSq P (pair_products X.toList) R.toList) :
    ∃ n1, threaded_listsqmod X R (makenumlist X.len) 4 = some ⟨X, R, n1⟩ ∧ n1.valid ∧
      n1.toList = X.toList.map fun x => P % (x * x) := by
  have hXl := valid_len_le hX
  have hRl := valid_len_le hR
  have hXlt := valid_len_lt hX
  have hRlen : R.len = (X.len + 1) / 2 := by
    have := hc.1
    rw [pair_products_length, toList_length hXl, toList_length hRl] at this
    exact this
  have hmv := makenumlist_valid hXlt
  have hml := valid_len_le hmv
  rw [makenumlist_len] at hml
  have hx : ∀ k, k < X.len → X.num.getD k 0 ≠ 0 := by
    intro k hk
    rw [← toList_getD hk]
    exact hnz _ (getD_mem (by rw [toList_length hXl]; exact hk))
  obtain ⟨n1, e1, l1, a1, s1, w1, _⟩ :=
    threaded_listsqmod_writes (X := X) (R := R) (A := (makenumlist X.len).num.length)
      (L := X.len) (T := 4) (by norm_num) hXl (by omega) hml hx (makenumlist X.len) rfl rfl
  refine ⟨n1, e1, ?_, ?_⟩
  · obtain ⟨_, v2, v3⟩ := hmv
    refine ⟨?_, ?_, ?_⟩
    · rw [l1, a1, ← v2]
      exact hml
    · rw [s1, a1]
      exact v2
    · rw [a1]
      exact v3
  · apply List.ext_getElem?
    intro j
    rw [toList_getElem?, l1, List.getElem?_map]
    by_cases hj : j < X.len
    · rw [if_pos hj, w1 j hj, getElem?_eq_some_getD (by rw [toList_length hXl]; exact hj)]
      simp only [Option.map_some', Option.some.injEq]
      unfold sqmod_val
      rw [← toList_getD hj, ← toList_getD (show j / 2 < R.len by omega)]
      exact CongSq_step hc j (by rw [toList_length hXl]; exact hj)
    · rw [if_neg hj, List.getElem?_eq_none (by rw [toList_length hXl]; omega)]
      rfl

end BatchGcd

namespace BatchGcd

/-! ## The descent loop of `fast_batchgcd` -/

/-- The top level of the product tree is the one-element list holding the product of the
inputs. -/
theorem pair_products_top (l : List Int) (hl : 1 ≤ l.length) :
    pair_products^[Nat.clog 2 l.length] l = [l.prod] := by
  have h1 : (pair_products^[Nat.clog 2 l.length] l).length = 1 := by
    rw [pair_products_iterate_length]
    exact halve_iterate_clog hl
  obtain ⟨a, ha⟩ := List.length_eq_one.mp h1
  have h2 := pair_products_iterate_prod l (Nat.clog 2 l.length)
  rw [ha] at h2 ⊢
  simp only [List.prod_cons, List.prod_nil, mul_one] at h2
  rw [h2]

theorem clog_two_pos_iff (n : Nat) : 1 ≤ Nat.clog 2 n ↔ 2 ≤ n := by
  constructor
  · intro h
    by_contra hc
    have := Nat.clog_of_right_le_one (show n ≤ 1 by omega) 2
    omega
  · intro h
    exact Nat.clog_pos (by norm_num) h

/-- Function `fast_batchgcd` up to the end of its descent loop: on non-zero inputs the tree is
built, the loop terminates, and the final remainder list is the input itself when there is
at most one input and `P mod N[i]^2` otherwise. -/
theorem fast_batchgcd_remainders (N : numlist) (hv : N.valid)
    (hnz : ∀ x ∈ N.toList, x ≠ 0) :
    ∃ T R0 R, producttree N = some T ∧ T.level[size_sub T.height 1]? = some R0 ∧
      for_loop (T.height + 1) 1 (fast_batchgcd_body T) (T.height + 1) 2 R0 = some R ∧
      R.valid ∧
      ((N.len ≤ 1 ∧ R = N) ∨
        (2 ≤ N.len ∧ R.toList = N.toList.map fun x => N.toList.prod % (x * x))) := by
  obtain ⟨T, hT, hh, hlen, hlev⟩ := producttree_levels N hv
  have hNl := toList_length (valid_len_le hv)
  have hlt := valid_len_lt hv
  have hclog : Nat.clog 2 N.len ≤ N.len := by
    have h1 : N.len ≤ 2 ^ N.len := Nat.le_of_lt (Nat.lt_two_pow N.len)
    exact (Nat.le_pow_iff_clog_le (by norm_num)).mp h1
  have hs1 : size_sub T.height 1 = T.height - 1 := size_sub_eq (by omega) (by omega)
  obtain ⟨R0, hR0, hR0v, hR0l, hR0N⟩ := hlev (T.height - 1) (by omega)
  have hloop := for_loop_inv
    (fun up (R : numlist) => 2 ≤ up ∧ R.valid ∧
      ((up = 2 ∧ R = R0) ∨
        (2 < up ∧ R.toList =
          (pair_products^[T.height + 1 - up] N.toList).map fun x => N.toList.prod % (x * x))))
    (B := T.height + 1) (F := fast_batchgcd_body T)
    (fun up R hup hI => by
      obtain ⟨h2, hRv, hcase⟩ := hI
      have hN2 : 2 ≤ N.len := (clog_two_pos_iff N.len).mp (by omega)
      have hsub : size_sub T.height up = T.height - up := size_sub_eq (by omega) (by omega)
      obtain ⟨X, hX, hXv, hXl, _⟩ := hlev (T.height - up) (by omega)
      have hXnz : ∀ x ∈ X.toList, x ≠ 0 := by
        rw [hXl]
        exact pair_products_iterate_ne_zero _ hnz _
      have hpp : pair_products X.toList = pair_products^[T.height + 1 - up] N.toList := by
        rw [hXl, show T.height + 1 - up = (T.height - up) + 1 by omega,
          Function.iterate_succ_apply']
      have hc : CongSq N.toList.prod (pair_products X.toList) R.toList := by
        rcases hcase with ⟨hup2, hR⟩ | ⟨_, hR⟩
        · have htop : R0.toList = [N.toList.prod] := by
            rw [hR0l, hh]
            have := pair_products_top N.toList (by omega)
            rw [hNl] at this
            simpa using this
          have hpp2 : pair_products X.toList = [N.toList.prod] := by
            have e : T.height + 1 - up = T.height - 1 := by omega
            rw [hpp, ← htop, hR0l, e]
          rw [hpp2, hR, htop]
          exact CongSq_self _
        · rw [hpp, hR]
          exact CongSq_map _ _
      obtain ⟨n1, e1, v1, t1⟩ := threaded_listsqmod_fresh hXv hRv hXnz hc
      refine ⟨n1, ?_, by omega, v1, Or.inr ⟨by omega, ?_⟩⟩
      · unfold fast_batchgcd_body
        rw [hsub, hX]
        simp only [Option.some_bind, e1, Option.map_some']
      · have e : T.height + 1 - (up + 1) = T.height - up := by omega
        rw [t1, hXl, e])
    (T.height + 1) 2 R0 (by omega) (by omega) ⟨le_refl 2, hR0v, Or.inl ⟨rfl, rfl⟩⟩
  obtain ⟨R, eR, _, hRv, hcase⟩ := hloop
  refine ⟨T, R0, R, hT, by rw [hs1]; exact hR0, eR, hRv, ?_⟩
  rcases hcase with ⟨hup2, hR⟩ | ⟨hup, hR⟩
  · left
    have h0 : T.height - 1 = 0 := by omega
    have hc0 : Nat.clog 2 N.len = 0 := by omega
    refine ⟨?_, ?_⟩
    · by_contra hc
      have := (clog_two_pos_iff N.len).mpr (by omega)
      omega
    · rw [hR]
      exact hR0N h0
  · right
    refine ⟨(clog_two_pos_iff N.len).mp (by omega), ?_⟩
    rw [hR]
    have : T.height + 1 - (T.height + 1) = 0 := by omega
    rw [this]
    rfl

/-! ## The divide-then-gcd kernel on a fresh destination -/

theorem threaded_listdivgcd_fresh {R N : numlist} (hN : N.valid) (hR : R.valid)
    (hRl : R.len = N.len) (hn : ∀ k, k < N.len → N.num.getD k 0 ≠ 0)
    (hdvd : ∀ k, k < N.len → R.num.getD k 0 % N.num.getD k 0 = 0) :
    ∃ G, threaded_listdivgcd (makenumlist N.len) R N 4 = some G ∧ G.valid ∧ G.len = N.len ∧
      ∀ j, j < N.len → G.toList[j]? = some (divgcd_val R N j) := by
  have hmv := makenumlist_valid (valid_len_lt hN)
  have hml := valid_len_le hmv
  rw [makenumlist_len] at hml
  have hRle := valid_len_le hR
  obtain ⟨G, e1, l1, a1, s1, w1, _⟩ :=
    threaded_listdivgcd_writes (R := R) (N := N) (A := (makenumlist N.len).num.length)
      (L := N.len) (T := 4) (by norm_num) (by omega) (valid_len_le hN) hml hn hdvd
      (makenumlist N.len) rfl rfl
  refine ⟨G, e1, ?_, l1, ?_⟩
  · obtain ⟨_, v2, v3⟩ := hmv
    refine ⟨?_, ?_, ?_⟩
    · rw [l1, a1, ← v2]
      exact hml
    · rw [s1, a1]
      exact v2
    · rw [a1]
      exact v3
  · intro j hj
    rw [toList_getElem?, l1, if_pos hj]
    exact w1 j hj

/-! ## Batch GCD -/

/-- Function `fast_batchgcd` on non-zero inputs returns a list of the length of the input
whose entry `i` is the gcd of `N[i]` with the product of the other inputs. -/
theorem fast_batchgcd_gcd (N : numlist) (hv : N.valid) (hnz : ∀ x ∈ N.toList, x ≠ 0) :
    ∃ G, fast_batchgcd N = some G ∧ G.valid ∧ G.len = N.len ∧
      ∀ i, i < N.len → G.toList[i]? =
        some ((Int.gcd (N.toList.eraseIdx i).prod (N.toList.getD i 0) : Nat) : Int) := by
  obtain ⟨T, R0, R, hT, hR0, hloop, hRv, hcase⟩ := fast_batchgcd_remainders N hv hnz
  have hNl := toList_length (valid_len_le hv)
  have hRl := toList_length (valid_len_le hRv)
  have hlen : R.len = N.len := by
    rcases hcase with ⟨_, hR⟩ | ⟨_, hR⟩
    · rw [hR]
    · rw [← hRl, hR, List.length_map, hNl]
  have hn : ∀ k, k < N.len → N.num.getD k 0 ≠ 0 := by
    intro k hk
    rw [← toList_getD hk]
    exact hnz _ (getD_mem (by rw [hNl]; exact hk))
  -- the value of the remainder at index `k`, up to the gcd taken after the division
  have hval : ∀ k, k < N.len →
      R.num.getD k 0 % N.num.getD k 0 = 0 ∧
      Int.gcd (R.num.getD k 0 / N.num.getD k 0) (N.num.getD k 0) =
        Int.gcd (N.toList.eraseIdx k).prod (N.toList.getD k 0) := by
    intro k hk
    have hk2 : k < N.toList.length := by rw [hNl]; exact hk
    have hprod := prod_eraseIdx N.toList k hk2
    have hquot : N.toList.prod / N.toList.getD k 0 = (N.toList.eraseIdx k).prod := by
      rw [← hprod, Int.mul_ediv_cancel_left _ (by rw [toList_getD hk]; exact hn k hk)]
    rw [← toList_getD hk]
    have ha : N.toList.getD k 0 ≠ 0 := by rw [toList_getD hk]; exact hn k hk
    have hdvd : N.toList.getD k 0 ∣ N.toList.prod := getD_dvd_prod hk2
    rcases hcase with ⟨h1, hR⟩ | ⟨_, hR⟩
    · have hlen1 : N.toList.length = 1 := by omega
      obtain ⟨a, hNa⟩ := List.length_eq_one.mp hlen1
      have hk0 : k = 0 := by omega
      subst hk0
      rw [hR, ← toList_getD hk, hNa]
      simp only [List.getD_cons_zero, List.eraseIdx_cons_zero, List.prod_nil]
      have ha0 : a ≠ 0 := by
        rw [hNa] at ha
        simpa using ha
      exact ⟨Int.emod_self, by rw [Int.ediv_self ha0]⟩
    · have hRk : R.num.getD k 0 =
          N.toList.prod % (N.toList.getD k 0 * N.toList.getD k 0) := by
        rw [← toList_getD (show k < R.len by omega), hR]
        apply getD_of_getElem?
        rw [List.getElem?_map, getElem?_eq_some_getD hk2]
        rfl
      rw [hRk]
      refine ⟨?_, ?_⟩
      · rw [Int.emod_emod_of_dvd _ (dvd_mul_right _ _)]
        exact Int.emod_eq_zero_of_dvd hdvd
      · rw [gcd_sq_mod_div _ _ ha hdvd, hquot]
  obtain ⟨G, e1, v1, l1, w1⟩ := threaded_listdivgcd_fresh hv hRv hlen hn
    (fun k hk => (hval k hk).1)
  refine ⟨G, ?_, v1, l1, ?_⟩
  · unfold fast_batchgcd
    rw [hT]
    simp only [Option.some_bind, hR0, hloop, e1]
  · intro i hi
    rw [w1 i hi]
    unfold divgcd_val mpz_gcd
    rw [(hval i hi).2]

end BatchGcd

namespace BatchGcd

/-! ## The first loop of `factor_coprimes` -/

theorem filter_range_succ (p : Nat → Bool) (i : Nat) :
    (List.range (i + 1)).filter p = (List.range i).filter p ++ (if p i then [i] else []) := by
  rw [List.range_succ, List.filter_append]
  congr 1
  by_cases h : p i <;> simp [h]

theorem take_set_succ (l : List Nat) (k v : Nat) (h : k < l.length) :
    (l.set k v).take (k + 1) = l.take k ++ [v] := by
  rw [List.take_succ]
  congr 1
  · apply List.ext_getElem?
    intro j
    rw [List.getElem?_take, List.getElem?_take]
    by_cases hj : j < k
    · rw [if_pos hj, if_pos hj, List.getElem?_set_ne (by omega)]
    · rw [if_neg hj, if_neg hj]
  · rw [List.getElem?_set_self h]
    rfl

theorem take_set_ge (l : List Nat) (k m v : Nat) (h : m ≤ k) :
    (l.set k v).take m = l.take m := by
  apply List.ext_getElem?
  intro j
  rw [List.getElem?_take, List.getElem?_take]
  by_cases hj : j < m
  · rw [if_pos hj, if_pos hj, List.getElem?_set_ne (by omega)]
  · rw [if_neg hj, if_neg hj]

theorem idx_store_eq {a : List Nat} {k v : Nat} (h : k < a.length) :
    idx_store a k v = some (a.set k v) := by
  unfold idx_store
  rw [if_pos h]

theorem wr_eq {d : numlist} {i : Nat} (v : Int) (h : i < d.num.length) :
    d.wr i v = some ⟨d.len, d.alloc, d.num.set i v⟩ := by
  unfold numlist.wr
  rw [if_pos h]

theorem makenumlist_num_length (n : Nat) : n ≤ (makenumlist n).num.length := by
  unfold makenumlist
  by_cases h : n = 0 <;> simp [h]

theorem makenumlist_getElem? {n j : Nat} (h : j < n) : (makenumlist n).num[j]? = some 0 := by
  unfold makenumlist
  have : n ≠ 0 := by omega
  simp [this, h]

theorem makenumlist_toList (n : Nat) : (makenumlist n).toList = List.replicate n 0 := by
  unfold makenumlist numlist.toList
  by_cases h : n = 0 <;> simp [h]

theorem is_weak_of_ne {G : numlist} {i : Nat} (h : G.num.getD i 0 ≠ 1) :
    is_weak G i = true := by
  unfold is_weak
  exact decide_eq_true h

theorem is_weak_of_eq {G : numlist} {i : Nat} (h : G.num.getD i 0 = 1) :
    is_weak G i = false := by
  unfold is_weak
  exact decide_eq_false (fun c => c h)

theorem is_case2_of {N G : numlist} {i : Nat} (h1 : G.num.getD i 0 ≠ 1)
    (h2 : G.num.getD i 0 = N.num.getD i 0) : is_case2 N G i = true := by
  unfold is_case2
  exact decide_eq_true ⟨h1, h2⟩

theorem is_case2_of_eq_one {N G : numlist} {i : Nat} (h : G.num.getD i 0 = 1) :
    is_case2 N G i = false := by
  unfold is_case2
  exact decide_eq_false (fun c => c.1 h)

theorem is_case2_of_ne {N G : numlist} {i : Nat} (h : G.num.getD i 0 ≠ N.num.getD i 0) :
    is_case2 N G i = false := by
  unfold is_case2
  exact decide_eq_false (fun c => h c.2)

theorem classify_init (N G : numlist) :
    ClassifyInv N G 0
      ⟨makenumlist N.len, 0, List.replicate N.len 0, 0, List.replicate N.len 0, 0⟩ := by
  refine ⟨rfl, rfl, rfl, by simp, by simp, le_refl _, le_refl _, by simp, by simp, rfl, ?_⟩
  intro j
  rw [if_neg (by omega)]

/-- One round of the first loop of `factor_coprimes` keeps the invariant, provided a gcd
entry that is a proper weak one is not zero. -/
theorem classify_body_inv (N G : numlist) (hN : N.len ≤ N.num.length)
    (hG : N.len ≤ G.num.length)
    (hG0 : ∀ i, i < N.len → G.num.getD i 0 ≠ 1 → G.num.getD i 0 ≠ N.num.getD i 0 →
      G.num.getD i 0 ≠ 0)
    (i : Nat) (st : factor_state) (hi : i < N.len) (hI : ClassifyInv N G i st) :
    ∃ st1, classify_body N G i st = some st1 ∧ ClassifyInv N G (i + 1) st1 := by
  obtain ⟨c1, c2, c3, c4, c5, c6, c7, c8, c9, c10, c11⟩ := hI
  have hA := makenumlist_num_length N.len
  have hslot : ∀ (v : Int) (j : Nat), v = classify_val N G i →
      (st.cplist.num.set i v)[j]? =
        if j < i + 1 then some (classify_val N G j) else (makenumlist N.len).num[j]? := by
    intro v j hv
    by_cases hji : j = i
    · subst hji
      rw [List.getElem?_set_self (by omega), if_pos (by omega), hv]
    · rw [List.getElem?_set_ne (by omega), c11 j]
      by_cases hlt : j < i
      · rw [if_pos hlt, if_pos (by omega)]
      · rw [if_neg hlt, if_neg (by omega)]
  unfold classify_body
  rw [rd_eq_getD (show i < G.num.length by omega), rd_eq_getD (show i < N.num.length by omega)]
  simp only [Option.some_bind]
  by_cases hg1 : G.num.getD i 0 = 1
  · -- not weak: the modulus itself is stored
    rw [if_neg (by simpa using hg1), wr_eq _ (by omega)]
    simp only [Option.map_some']
    refine ⟨_, rfl, c1, c2, by simpa using c3, c4, c5, by dsimp only; omega,
      by dsimp only; omega, ?_, ?_, c10, ?_⟩
    · rw [filter_range_succ, c8, is_weak_of_eq hg1]
      simp
    · rw [filter_range_succ, c9, is_case2_of_eq_one hg1]
      simp
    · intro j
      exact hslot _ j (by unfold classify_val; rw [if_pos hg1])
  · rw [if_pos hg1]
    by_cases hgn : G.num.getD i 0 = N.num.getD i 0
    · -- case 2: both index arrays grow, the co-factor stays zero
      rw [if_neg (by simpa using hgn), idx_store_eq (by omega), idx_store_eq (by omega)]
      simp only [Option.some_bind, Option.map_some']
      refine ⟨_, rfl, c1, c2, c3, by simpa using c4, by simpa using c5, by dsimp only; omega,
        by dsimp only; omega, ?_, ?_, c10, ?_⟩
      · simp only [take_set_succ _ _ _ (show st.weak_count < st.weakidx.length by omega)]
        rw [filter_range_succ, c8, is_weak_of_ne hg1]
        simp
      · simp only [take_set_succ _ _ _
          (show st.weak_gcd_count < st.weakidx_gcd.length by omega)]
        rw [filter_range_succ, c9, is_case2_of hg1 hgn]
        simp
      · intro j
        simp only
        rw [c11 j]
        by_cases hji : j = i
        · subst hji
          rw [if_neg (by omega), if_pos (by omega), makenumlist_getElem? hi]
          unfold classify_val
          rw [if_neg hg1, if_pos hgn]
        · by_cases hlt : j < i
          · rw [if_pos hlt, if_pos (by omega)]
          · rw [if_neg hlt, if_neg (by omega)]
    · -- case 1: the smaller of the gcd and its quotient is stored
      have hg0 := hG0 i hi hg1 hgn
      rw [if_pos hgn, idx_store_eq (by omega)]
      simp only [Option.some_bind, mpz_div, if_neg hg0]
      rw [wr_eq _ (by omega)]
      simp only [Option.map_some']
      refine ⟨_, rfl, c1, c2, by simpa using c3, by simpa using c4, c5, by dsimp only; omega,
        by dsimp only; omega, ?_, ?_, c10, ?_⟩
      · simp only [take_set_succ _ _ _ (show st.weak_count < st.weakidx.length by omega)]
        rw [filter_range_succ, c8, is_weak_of_ne hg1]
        simp
      · rw [filter_range_succ, c9, is_case2_of_ne hgn]
        simp
      · intro j
        exact hslot _ j (by unfold classify_val; rw [if_neg hg1, if_neg hgn])

/-- The first loop of `factor_coprimes` terminates with its invariant at `N.len`. -/
theorem classify_loop (N G : numlist) (hN : N.len ≤ N.num.length) (hG : N.len ≤ G.num.length)
    (hG0 : ∀ i, i < N.len → G.num.getD i 0 ≠ 1 → G.num.getD i 0 ≠ N.num.getD i 0 →
      G.num.getD i 0 ≠ 0) :
    ∃ st, for_loop N.len 1 (classify_body N G) N.len 0
        ⟨makenumlist N.len, 0, List.replicate N.len 0, 0, List.replicate N.len 0, 0⟩ =
          some st ∧ ClassifyInv N G N.len st :=
  for_loop_inv (ClassifyInv N G) (classify_body_inv N G hN hG hG0) N.len 0 _ (by omega)
    (by omega) (classify_init N G)

/-! ## The pairwise pass of `factor_coprimes` -/

theorem to_int_eq {x : Nat} (h : x < 2 ^ 31) : to_int x = (x : Int) := by
  unfold to_int
  have h1 : x % 2 ^ 32 = x := Nat.mod_eq_of_lt (by omega)
  rw [h1, if_pos h]

theorem rd_int_eq {N : numlist} {w : Nat} (h : w < N.num.length) :
    N.rd_int (w : Int) = some (N.num.getD w 0) := by
  unfold numlist.rd_int
  rw [if_neg (by omega), Int.toNat_ofNat]
  exact rd_eq_getD h

theorem wr_int_eq {d : numlist} {i : Nat} (v : Int) (h : i < d.num.length) :
    d.wr_int (i : Int) v = some ⟨d.len, d.alloc, d.num.set i v⟩ := by
  unfold numlist.wr_int
  rw [if_neg (by omega), Int.toNat_ofNat]
  exact wr_eq v h

theorem pairwise_inner_eq (N : numlist) (wgi ig : Nat) (st : factor_state) (n : Nat)
    (hn31 : n ≤ 2 ^ 31) (hNn : n ≤ N.num.length) (hig : ig < n)
    (hgi : st.weakidx_gcd[wgi]? = some ig) (hwl : st.weak_count ≤ st.weakidx.length)
    (hweak : ∀ w ∈ st.weakidx.take st.weak_count, w < n)
    (hcp : ig < st.cplist.num.length) :
    ∀ fuel wi, st.weak_count ≤ wi + fuel →
      pairwise_inner N wgi fuel wi st =
        some (match find_split N ig ((st.weakidx.take st.weak_count).drop wi) with
          | some v => ⟨⟨st.cplist.len, st.cplist.alloc, st.cplist.num.set ig v⟩, st.weak_count,
              st.weakidx, st.weak_gcd_count, st.weakidx_gcd, st.weak_gcd_success + 1⟩
          | none => st) := by
  intro fuel
  induction fuel with
  | zero =>
    intro wi hf
    simp only [pairwise_inner]
    rw [if_neg (by omega), List.drop_eq_nil_of_le (by simp; omega)]
    rfl
  | succ fuel ih =>
    intro wi hf
    simp only [pairwise_inner]
    by_cases hwi : wi < st.weak_count
    · rw [if_pos hwi]
      have hlen : wi < (st.weakidx.take st.weak_count).length := by simp; omega
      have hdrop := List.drop_eq_getElem_cons hlen
      have hw : st.weakidx[wi]? = some ((st.weakidx.take st.weak_count)[wi]) := by
        rw [List.getElem_take]
        exact List.getElem?_eq_getElem (by omega)
      have hwn : (st.weakidx.take st.weak_count)[wi] < n :=
        hweak _ (List.getElem_mem hlen)
      generalize (st.weakidx.take st.weak_count)[wi] = w at hdrop hw hwn
      rw [hw, hgi, hdrop]
      simp only [Option.some_bind, to_int_eq (show w < 2 ^ 31 by omega),
        to_int_eq (show ig < 2 ^ 31 by omega), find_split]
      by_cases hwg : w = ig
      · rw [if_pos (by exact_mod_cast hwg), if_pos hwg]
        exact ih (wi + 1) (by omega)
      · rw [if_neg (by exact_mod_cast hwg), if_neg hwg]
        rw [rd_int_eq (show w < N.num.length by omega),
          rd_int_eq (show ig < N.num.length by omega)]
        simp only [Option.some_bind]
        by_cases h1 : mpz_gcd (N.num.getD w 0) (N.num.getD ig 0) = 1
        · rw [if_neg (by simpa using h1), if_neg (fun c => c.1 h1)]
          exact ih (wi + 1) (by omega)
        · rw [if_pos h1]
          by_cases h2 : mpz_gcd (N.num.getD w 0) (N.num.getD ig 0) = N.num.getD ig 0
          · rw [if_neg (by simpa using h2), if_neg (fun c => c.2 h2)]
            exact ih (wi + 1) (by omega)
          · have h0 : mpz_gcd (N.num.getD w 0) (N.num.getD ig 0) ≠ 0 := by
              intro c
              apply h2
              rw [c]
              unfold mpz_gcd at c
              have c2 : Int.gcd (N.num.getD w 0) (N.num.getD ig 0) = 0 := by exact_mod_cast c
              exact (Int.gcd_eq_zero_iff.mp c2).2.symm
            rw [if_pos h2, if_pos ⟨h1, h2⟩]
            simp only [mpz_div, if_neg h0, Option.some_bind, wr_int_eq _ hcp, Option.map_some']
    · rw [if_neg hwi, List.drop_eq_nil_of_le (by simp; omega)]
      rfl

theorem mem_weak_list_lt {N G : numlist} {w : Nat} (h : w ∈ weak_list N G) : w < N.len := by
  unfold weak_list at h
  exact List.mem_range.mp (List.mem_filter.mp h).1

theorem mem_case2_list {N G : numlist} {j : Nat} :
    j ∈ case2_list N G ↔ j < N.len ∧ is_case2 N G j = true := by
  unfold case2_list
  rw [List.mem_filter, List.mem_range]

theorem case2_list_nodup (N G : numlist) : (case2_list N G).Nodup :=
  List.Nodup.filter _ (List.nodup_range _)

theorem take_succ_getElem {l : List Nat} {k : Nat} (h : k < l.length) :
    l.take (k + 1) = l.take k ++ [l[k]] := by
  rw [List.take_succ, List.getElem?_eq_getElem h]
  rfl

theorem not_mem_take_of_nodup {l : List Nat} (hl : l.Nodup) {k : Nat} (h : k < l.length) :
    l[k] ∉ l.take k := by
  intro hm
  obtain ⟨i, hi, he⟩ := List.getElem_of_mem hm
  have hik : i < k := by
    have := hi
    simp only [List.length_take] at this
    omega
  rw [List.getElem_take] at he
  have := (List.Nodup.getElem_inj_iff hl).mp he
  omega

/-- One round of the pairwise pass keeps its invariant. -/
theorem pairwise_body_inv (N G : numlist) (hN : N.len ≤ N.num.length) (h31 : N.len ≤ 2 ^ 31)
    (st0 : factor_state) (h0 : ClassifyInv N G N.len st0) (wgi : Nat) (st : factor_state)
    (hw : wgi < st0.weak_gcd_count) (hI : PairInv N G st0 wgi st) :
    ∃ st1, pairwise_body N wgi st = some st1 ∧ PairInv N G st0 (wgi + 1) st1 := by
  obtain ⟨c1, c2, c3, c4, c5, c6, c7, c8, c9, c10, c11⟩ := h0
  obtain ⟨p1, p2, p3, p4, p5, p6, p7, p8, p9⟩ := hI
  have hA := makenumlist_num_length N.len
  have hwk : st0.weakidx.take st0.weak_count = weak_list N G := c8
  have hcs : st0.weakidx_gcd.take st0.weak_gcd_count = case2_list N G := c9
  have hclen : (case2_list N G).length = st0.weak_gcd_count := by
    rw [← hcs, List.length_take]
    omega
  have hk : wgi < (case2_list N G).length := by omega
  have higmem : (case2_list N G)[wgi] ∈ case2_list N G := List.getElem_mem hk
  have hig : (case2_list N G)[wgi] < N.len := (mem_case2_list.mp higmem).1
  have hgi : st.weakidx_gcd[wgi]? = some (case2_list N G)[wgi] := by
    have h1 : (st0.weakidx_gcd.take st0.weak_gcd_count)[wgi]? = some (case2_list N G)[wgi] := by
      rw [hcs]
      exact List.getElem?_eq_getElem hk
    rw [List.getElem?_take, if_pos hw] at h1
    rw [p4]
    exact h1
  have hnot := not_mem_take_of_nodup (case2_list_nodup N G) hk
  have htake := take_succ_getElem hk
  generalize (case2_list N G)[wgi] = ig at higmem hig hgi hnot htake
  have hinner := pairwise_inner_eq N wgi ig st N.len h31 hN hig hgi (by rw [p1, p2]; omega)
    (by
      intro w hw
      rw [p1, p2, hwk] at hw
      exact mem_weak_list_lt hw)
    (by omega) st.weak_count 0 (by omega)
  rw [List.drop_zero, p1, p2, hwk] at hinner
  unfold pairwise_body
  rw [p1, hinner]
  have hfilter : ((case2_list N G).take (wgi + 1)).filter
      (fun ig => (find_split N ig (weak_list N G)).isSome) =
      ((case2_list N G).take wgi).filter
        (fun ig => (find_split N ig (weak_list N G)).isSome) ++
        (if (find_split N ig (weak_list N G)).isSome then [ig] else []) := by
    rw [htake, List.filter_append]
    congr 1
    by_cases h : (find_split N ig (weak_list N G)).isSome <;> simp [h]
  have hmem : ∀ j, j ≠ ig → (j ∈ (case2_list N G).take (wgi + 1) ↔
      j ∈ (case2_list N G).take wgi) := by
    intro j hj
    rw [htake, List.mem_append, List.mem_singleton]
    exact ⟨fun h => h.resolve_right hj, Or.inl⟩
  have higin : ig ∈ (case2_list N G).take (wgi + 1) := by
    rw [htake]
    simp
  cases hfs : find_split N ig (weak_list N G) with
  | none =>
    refine ⟨st, rfl, p1, p2, p3, p4, p5, p6, p7, ?_, ?_⟩
    · rw [hfilter, hfs, p8]
      simp
    · intro j
      rw [p9 j]
      by_cases hj : j = ig
      · subst hj
        rw [if_neg hnot, if_pos higin]
        unfold pair_slot
        rw [hfs]
      · by_cases hm : j ∈ (case2_list N G).take wgi
        · rw [if_pos hm, if_pos ((hmem j hj).mpr hm)]
        · rw [if_neg hm, if_neg (fun c => hm ((hmem j hj).mp c))]
  | some v =>
    refine ⟨_, rfl, rfl, rfl, p3, p4, p5, p6, by simpa using p7, ?_, ?_⟩
    · rw [hfilter, hfs]
      simp only [Option.isSome_some, if_true, List.length_append, List.length_singleton]
      rw [← p8]
    · intro j
      by_cases hj : j = ig
      · subst hj
        rw [if_pos higin]
        simp only
        rw [List.getElem?_set_self (by omega)]
        unfold pair_slot
        rw [hfs]
      · simp only
        rw [List.getElem?_set_ne (fun c => hj c.symm), p9 j]
        by_cases hm : j ∈ (case2_list N G).take wgi
        · rw [if_pos hm, if_pos ((hmem j hj).mpr hm)]
        · rw [if_neg hm, if_neg (fun c => hm ((hmem j hj).mp c))]

theorem classify_val_case2 {N G : numlist} {j : Nat} (h : is_case2 N G j = true) :
    classify_val N G j = 0 := by
  unfold is_case2 at h
  have h2 := of_decide_eq_true h
  unfold classify_val
  rw [if_neg h2.1, if_pos h2.2]

/-- Function `factor_coprimes`: it terminates, its index arrays hold the weak and the "case 2"
indices in increasing order, and slot `j` of the co-factor list holds the split found by the
pairwise pass (or `0`) for a "case 2" index and the value stored by the first loop otherwise.
The pairwise pass, which reads its indices through C `int`s, needs `N.len ≤ 2^31` when it has
work to do. -/
theorem factor_coprimes_spec (N G : numlist) (hN : N.len ≤ N.num.length)
    (hG : N.len ≤ G.num.length)
    (hG0 : ∀ i, i < N.len → G.num.getD i 0 ≠ 1 → G.num.getD i 0 ≠ N.num.getD i 0 →
      G.num.getD i 0 ≠ 0)
    (h31 : case2_list N G ≠ [] → N.len ≤ 2 ^ 31) :
    ∃ st, factor_coprimes N G = some st ∧
      st.weakidx.take st.weak_count = weak_list N G ∧
      st.weak_count = (weak_list N G).length ∧
      st.weakidx_gcd.take st.weak_gcd_count = case2_list N G ∧
      st.weak_gcd_count = (case2_list N G).length ∧
      st.weak_gcd_success =
        ((case2_list N G).filter fun ig => (find_split N ig (weak_list N G)).isSome).length ∧
      st.cplist.len = N.len ∧
      ∀ j, j < N.len → st.cplist.toList[j]? =
        some (if is_case2 N G j then (find_split N j (weak_list N G)).getD 0
          else classify_val N G j) := by
  obtain ⟨st0, e0, h0⟩ := classify_loop N G hN hG hG0
  have h0' := h0
  obtain ⟨c1, c2, c3, c4, c5, c6, c7, c8, c9, c10, c11⟩ := h0'
  have hclen : (case2_list N G).length = st0.weak_gcd_count := by
    unfold case2_list
    rw [← c9, List.length_take]
    omega
  have hwlen : (weak_list N G).length = st0.weak_count := by
    unfold weak_list
    rw [← c8, List.length_take]
    omega
  obtain ⟨st, e1, p1, p2, p3, p4, p5, p6, p7, p8, p9⟩ :=
    for_loop_inv (PairInv N G st0) (B := st0.weak_gcd_count)
      (F := pairwise_body N)
      (fun wgi st hw hI => pairwise_body_inv N G hN
        (h31 (by
          intro hnil
          rw [hnil] at hclen
          simp at hclen
          omega)) st0 h0 wgi st hw hI)
      st0.weak_gcd_count 0 st0 (by omega) (by omega)
      ⟨rfl, rfl, rfl, rfl, rfl, rfl, rfl, by simpa using c10, fun j => by simp⟩
  have htake : (case2_list N G).take st0.weak_gcd_count = case2_list N G := by
    rw [← hclen]
    exact List.take_length _
  rw [htake] at p8 p9
  refine ⟨st, ?_, ?_, ?_, ?_, ?_, p8, by rw [p5, c1], ?_⟩
  · unfold factor_coprimes
    rw [e0]
    exact e1
  · rw [p1, p2]
    exact c8
  · rw [p1, hwlen]
  · rw [p3, p4]
    exact c9
  · rw [p3, hclen]
  · intro j hj
    rw [toList_getElem?, p5, c1, if_pos hj, p9 j, c11 j, if_pos hj]
    by_cases hc : is_case2 N G j = true
    · rw [if_pos (mem_case2_list.mpr ⟨hj, hc⟩), if_pos hc, classify_val_case2 hc]
      unfold pair_slot
      cases find_split N j (weak_list N G) <;> rfl
    · rw [if_neg (fun c => hc (mem_case2_list.mp c).2), if_neg hc]

end BatchGcd

namespace BatchGcd

/-! ## Auxiliary facts for the statements about whole runs -/

theorem gcd_prod_eq_one_iff (l : List Int) (x : Int) :
    Int.gcd l.prod x = 1 ↔ ∀ y ∈ l, Int.gcd y x = 1 := by
  induction l with
  | nil => simp
  | cons a rest ih =>
    rw [List.prod_cons, ← Int.isCoprime_iff_gcd_eq_one, IsCoprime.mul_left_iff,
      Int.isCoprime_iff_gcd_eq_one, Int.isCoprime_iff_gcd_eq_one, ih]
    simp

/-- The postcondition of the product kernel, read off the list of pairwise products. -/
theorem pairMulPost_of_toList {s d : numlist} (hs : s.len ≤ s.num.length)
    (hl : d.len = (s.len + 1) / 2) (hd1 : 1 ≤ d.len) (hd : d.toList = pair_products s.toList) :
    PairMulPost s d := by
  have hsl := toList_length hs
  have key : ∀ j, d.toList[j]? =
      if j * 2 + 1 < s.len then some (s.toList.getD (j * 2) 0 * s.toList.getD (j * 2 + 1) 0)
      else if j * 2 < s.len then some (s.toList.getD (j * 2) 0) else none := by
    intro j
    rw [hd, pair_products_getElem?, hsl]
  have hget : ∀ k, k < s.len → s.toList[k]? = some (s.toList.getD k 0) := fun k hk =>
    getElem?_eq_some_getD (by rw [hsl]; exact hk)
  refine ⟨?_, ?_, ?_⟩
  · intro i hi
    refine ⟨_, _, hget (2 * i) (by omega), hget (2 * i + 1) (by omega), ?_⟩
    rw [key i, if_pos (by omega), Nat.mul_comm i 2]
  · intro hev
    refine ⟨_, _, hget (s.len - 1) (by omega), hget (s.len - 2) (by omega), ?_⟩
    rw [key (d.len - 1), if_pos (by omega)]
    have e1 : (d.len - 1) * 2 = s.len - 2 := by omega
    have e2 : s.len - 2 + 1 = s.len - 1 := by omega
    rw [e1, e2, mul_comm]
  · intro hodd
    refine ⟨_, hget (s.len - 1) (by omega), ?_⟩
    rw [key (d.len - 1), if_neg (by omega), if_pos (by omega)]
    have e1 : (d.len - 1) * 2 = s.len - 1 := by omega
    rw [e1]

/-- The product kernel run under any complete schedule establishes its postcondition. -/
theorem sched_post {d s : numlist} (hd : d.valid) (hs : s.valid)
    (hlen : d.len = (s.len + 1) / 2) (hpos : 1 ≤ d.len) {T : Nat} (hT : 1 ≤ T)
    {order : List mul_task} (hperm : order.Perm (mul_tasks T)) :
    ∃ d1, threaded_listmul_sched order d s T = some d1 ∧ d1.len = d.len ∧
      PairMulPost s d1 := by
  obtain ⟨d1, e1, l1, _, _, w1, _⟩ :=
    threaded_listmul_sched_writes (A := d.num.length) hT hlen hpos hs (valid_len_le hd)
      hperm d rfl rfl
  refine ⟨d1, e1, l1, ?_⟩
  exact pairMulPost_of_toList (valid_len_le hs) (by omega) (by omega)
    (mul_val_toList hlen (valid_len_le hs) l1 w1)

/-- A weak split found by the pairwise pass comes from a gcd that is neither `1` nor the
modulus. -/
theorem find_split_some {N : numlist} {ig : Nat} {l : List Nat} {v : Int}
    (h : find_split N ig l = some v) :
    ∃ iw, iw ≠ ig ∧ iw ∈ l ∧ mpz_gcd (N.num.getD iw 0) (N.num.getD ig 0) ≠ 1 ∧
      mpz_gcd (N.num.getD iw 0) (N.num.getD ig 0) ≠ N.num.getD ig 0 ∧
      v = lesser (mpz_gcd (N.num.getD iw 0) (N.num.getD ig 0))
        (Int.fdiv (N.num.getD ig 0) (mpz_gcd (N.num.getD iw 0) (N.num.getD ig 0))) := by
  induction l with
  | nil => simp [find_split] at h
  | cons iw rest ih =>
    simp only [find_split] at h
    by_cases h1 : iw = ig
    · rw [if_pos h1] at h
      obtain ⟨w, a, b, c⟩ := ih h
      exact ⟨w, a, List.mem_cons_of_mem _ b, c⟩
    · rw [if_neg h1] at h
      by_cases h2 : mpz_gcd (N.num.getD iw 0) (N.num.getD ig 0) ≠ 1 ∧
          mpz_gcd (N.num.getD iw 0) (N.num.getD ig 0) ≠ N.num.getD ig 0
      · rw [if_pos h2] at h
        exact ⟨iw, h1, List.mem_cons_self _ _, h2.1, h2.2, (Option.some.inj h).symm⟩
      · rw [if_neg h2] at h
        obtain ⟨w, a, b, c⟩ := ih h
        exact ⟨w, a, List.mem_cons_of_mem _ b, c⟩

/-- A divisor of a product of two primes other than `1` and the product is one of the
primes, and the smaller of it and its co-factor is the smaller prime. -/
theorem lesser_of_semiprime {p q d : Nat} (hp : p.Prime) (hq : q.Prime) (hd : d ∣ p * q)
    (h1 : d ≠ 1) (h2 : d ≠ p * q) :
    lesser (d : Int) (Int.fdiv ((p * q : Nat) : Int) (d : Int)) = ((min p q : Nat) : Int) := by
  obtain ⟨y, z, hy, hz, hyz⟩ := Nat.dvd_mul.mp hd
  have hp0 := hp.pos
  have hq0 := hq.pos
  rw [Int.fdiv_eq_ediv _ (Int.natCast_nonneg d), ← Int.natCast_div]
  unfold lesser
  rcases hp.eq_one_or_self_of_dvd y hy with rfl | rfl <;>
    rcases hq.eq_one_or_self_of_dvd z hz with rfl | rfl
  · exact absurd hyz.symm (by simpa using h1)
  · have hd' : d = z := by omega
    subst hd'
    rw [Nat.mul_div_cancel _ hq0]
    split_ifs with hlt
    · have : d < p := by exact_mod_cast hlt
      rw [min_eq_right (le_of_lt this)]
    · have : ¬ d < p := by exact_mod_cast hlt
      rw [min_eq_left (by omega)]
  · have hd' : d = y := by omega
    subst hd'
    rw [Nat.mul_div_cancel_left _ hp0]
    split_ifs with hlt
    · have : d < q := by exact_mod_cast hlt
      rw [min_eq_left (le_of_lt this)]
    · have : ¬ d < q := by exact_mod_cast hlt
      rw [min_eq_right (by omega)]
  · exact absurd hyz.symm h2

theorem gcd_others_eq_one_iff (l : List Int) (i : Nat) (x : Int) :
    Int.gcd (l.eraseIdx i).prod x = 1 ↔
      ∀ (j : Nat) (y : Int), j ≠ i → l[j]? = some y → Int.gcd x y = 1 := by
  rw [gcd_prod_eq_one_iff]
  constructor
  · intro h j y hj hy
    rw [Int.gcd_comm]
    exact h y (List.mem_eraseIdx_iff_getElem?.mpr ⟨j, hj, hy⟩)
  · intro h y hy
    obtain ⟨j, hj, hjy⟩ := List.mem_eraseIdx_iff_getElem?.mp hy
    rw [Int.gcd_comm]
    exact h j y hj hjy

theorem ne_zero_of_pos {l : List Int} (h : ∀ x ∈ l, 0 < x) : ∀ x ∈ l, x ≠ 0 :=
  fun x hx => ne_of_gt (h x hx)

theorem num_getD_of_toList {G : numlist} {i : Nat} {v : Int} (h : G.toList[i]? = some v) :
    G.num.getD i 0 = v := by
  rw [toList_getElem?] at h
  by_cases hi : i < G.len
  · rw [if_pos hi] at h
    exact getD_of_getElem? h
  · rw [if_neg hi] at h
    exact absurd h (by simp)

/-- When every gcd is `1`, `factor_coprimes` records no weak index, skips the pairwise pass
and returns the moduli themselves. -/
theorem factor_all_one (N G : numlist) (hN : N.len ≤ N.num.length) (hG : N.len ≤ G.num.length)
    (hone : ∀ i, i < N.len → G.num.getD i 0 = 1) :
    ∃ st, factor_coprimes N G = some st ∧ st.weak_count = 0 ∧ st.weak_gcd_count = 0 ∧
      st.weak_gcd_success = 0 ∧ st.cplist.toList = N.toList := by
  have hweak : weak_list N G = [] := by
    unfold weak_list
    rw [List.filter_eq_nil_iff]
    intro a ha
    rw [is_weak_of_eq (hone a (List.mem_range.mp ha))]
    simp
  have hcase : case2_list N G = [] := by
    unfold case2_list
    rw [List.filter_eq_nil_iff]
    intro a ha
    rw [is_case2_of_eq_one (hone a (List.mem_range.mp ha))]
    simp
  obtain ⟨st, e, _, w2, _, g2, s2, l2, hslot⟩ := factor_coprimes_spec N G hN hG
    (fun i hi h1 _ => absurd (hone i hi) h1) (fun h => absurd hcase h)
  refine ⟨st, e, by rw [w2, hweak]; rfl, by rw [g2, hcase]; rfl, by rw [s2, hcase]; rfl, ?_⟩
  apply List.ext_getElem?
  intro j
  by_cases hj : j < N.len
  · rw [hslot j hj, toList_getElem?_lt hj, is_case2_of_eq_one (hone j hj)]
    simp only [Bool.false_eq_true, if_false]
    unfold classify_val
    rw [if_pos (hone j hj)]
    exact (getElem?_eq_some_getD (by omega)).symm
  · rw [toList_getElem?, toList_getElem?, l2, if_neg hj, if_neg hj]

theorem lt_len_of_toList {l : numlist} {i : Nat} {x : Int} (h : l.toList[i]? = some x) :
    i < l.len := by
  rw [toList_getElem?] at h
  by_contra hc
  rw [if_neg hc] at h
  exact absurd h (by simp)

/-- A whole run on pairwise coprime positive moduli: every gcd is `1`, no index is weak and
the co-factor list is the input. -/
theorem coprime_run (N : numlist) (hv : N.valid) (hpos : ∀ x ∈ N.toList, 0 < x)
    (hcop : N.toList.Pairwise fun x y => Int.gcd x y = 1) :
    ∃ G st, fast_batchgcd N = some G ∧ G.toList = List.replicate N.len 1 ∧
      factor_coprimes N G = some st ∧ st.weak_count = 0 ∧ st.weak_gcd_count = 0 ∧
      st.weak_gcd_success = 0 ∧ st.cplist.toList = N.toList := by
  obtain ⟨G, e, gv, gl, hg⟩ := fast_batchgcd_gcd N hv (ne_zero_of_pos hpos)
  have hNl := toList_length (valid_len_le hv)
  have hpair := List.pairwise_iff_getElem.mp hcop
  have hone : ∀ i, i < N.len → G.toList[i]? = some 1 := by
    intro i hi
    rw [hg i hi]
    have h1 : Int.gcd (N.toList.eraseIdx i).prod (N.toList.getD i 0) = 1 := by
      rw [gcd_others_eq_one_iff]
      intro j y hj hy
      obtain ⟨hjl, hjy⟩ := List.getElem?_eq_some.mp hy
      have hil : i < N.toList.length := by omega
      rw [List.getD_eq_getElem _ _ hil, ← hjy]
      rcases Nat.lt_or_gt_of_ne hj with hlt | hgt
      · rw [Int.gcd_comm]
        exact hpair j i hjl hil hlt
      · exact hpair i j hil hjl hgt
    rw [h1]
    rfl
  have hGl : G.toList = List.replicate N.len 1 := by
    apply List.ext_getElem?
    intro j
    by_cases hj : j < N.len
    · rw [hone j hj, List.getElem?_replicate, if_pos hj]
    · rw [toList_getElem?, gl, if_neg hj, List.getElem?_replicate, if_neg hj]
  obtain ⟨st, e2, r⟩ := factor_all_one N G (valid_len_le hv)
    (by have := valid_len_le gv; omega)
    (fun i hi => num_getD_of_toList (hone i hi))
  exact ⟨G, st, e, hGl, e2, r⟩

/-- Two adjacent levels of the product tree: the upper one is the list of pairwise products
of the lower one, and it is not empty. -/
theorem producttree_adjacent (N : numlist) (hv : N.valid) :
    ∃ T, producttree N = some T ∧ T.height = Nat.clog 2 N.len + 1 ∧
      T.level.length = T.height ∧ T.level[0]? = some N ∧
      ∀ l, 1 ≤ l → l < T.height → ∃ prev cur, T.level[l - 1]? = some prev ∧
        T.level[l]? = some cur ∧ prev.valid ∧ cur.valid ∧ cur.len = (prev.len + 1) / 2 ∧
        1 ≤ cur.len ∧ cur.toList = pair_products prev.toList := by
  obtain ⟨T, e, hh, hlen, hlev⟩ := producttree_levels N hv
  have hNl := toList_length (valid_len_le hv)
  refine ⟨T, e, hh, hlen, ?_, ?_⟩
  · obtain ⟨lv, h1, _, _, h4⟩ := hlev 0 (by omega)
    rw [h1, h4 rfl]
  · intro l hl1 hl2
    obtain ⟨prev, p1, pv, pl, _⟩ := hlev (l - 1) (by omega)
    obtain ⟨cur, c1, cv, cl, _⟩ := hlev l hl2
    have hN2 : 2 ≤ N.len := (clog_two_pos_iff N.len).mp (by omega)
    have hstep : cur.toList = pair_products prev.toList := by
      rw [cl, pl]
      conv_lhs => rw [show l = (l - 1) + 1 by omega, Function.iterate_succ_apply']
    have hclen : cur.len = halve^[l] N.len := by
      rw [← toList_length (valid_len_le cv), cl, pair_products_iterate_length, hNl]
    refine ⟨prev, cur, p1, c1, pv, cv, ?_, ?_, hstep⟩
    · rw [← toList_length (valid_len_le cv), hstep, pair_products_length,
        toList_length (valid_len_le pv)]
    · rw [hclen]
      exact halve_iterate_pos (by omega) l

/-- A list whose first `n` slots are all present has exactly `n` logical entries. -/
theorem toList_length_of_slots {l : numlist} {n : Nat} (hl : l.len = n)
    (h : ∀ j, j < n → ∃ v, l.toList[j]? = some v) : l.toList.length = n := by
  have h1 : l.toList.length ≤ n := by
    unfold numlist.toList
    rw [List.length_take]
    omega
  by_cases hn : n = 0
  · omega
  · obtain ⟨v, hv⟩ := h (n - 1) (by omega)
    have := (List.getElem?_eq_some_iff.mp hv).1
    omega

end BatchGcd

namespace BatchGcd

/-! ## The batch GCD contract -/

/-- C1. For every list `N` of positive integers that is well formed in memory (`N.valid`), of
any length `n` and in particular of length `n ≥ 2`,
`fast_batchgcd N` returns a list `G` of length `n` and, for every index `i < n`,
`G[i] = gcd(∏_{j ≠ i} N[j], N[i])`. -/
theorem fast_batchgcd_gcd_others (N : numlist) (hv : N.valid)
    (hpos : ∀ x ∈ N.toList, 0 < x) :
    ∃ G, fast_batchgcd N = some G ∧ G.len = N.len ∧ G.toList.length = N.len ∧
      ∀ i x, N.toList[i]? = some x →
        G.toList[i]? = some ((Int.gcd (N.toList.eraseIdx i).prod x : Nat) : Int) := by
  obtain ⟨G, e, gv, gl, hg⟩ := fast_batchgcd_gcd N hv (ne_zero_of_pos hpos)
  refine ⟨G, e, gl, by rw [toList_length (valid_len_le gv), gl], ?_⟩
  intro i x hx
  have hi : i < N.len := by
    rw [toList_getElem?] at hx
    by_contra hc
    rw [if_neg hc] at hx
    exact absurd hx (by simp)
  rw [hg i hi, getD_of_getElem? hx]

theorem fast_batchgcd_gcd_others_witness :
    (⟨3, 4, [15, 77, 143, 0]⟩ : numlist).valid ∧
    (∀ x ∈ (⟨3, 4, [15, 77, 143, 0]⟩ : numlist).toList, 0 < x) ∧
    ∃ G, fast_batchgcd ⟨3, 4, [15, 77, 143, 0]⟩ = some G ∧
      G.len = (⟨3, 4, [15, 77, 143, 0]⟩ : numlist).len ∧
      G.toList.length = (⟨3, 4, [15, 77, 143, 0]⟩ : numlist).len ∧
      ∀ i x, (⟨3, 4, [15, 77, 143, 0]⟩ : numlist).toList[i]? = some x →
        G.toList[i]? = some
          ((Int.gcd ((⟨3, 4, [15, 77, 143, 0]⟩ : numlist).toList.eraseIdx i).prod x : Nat) :
            Int) :=
  ⟨by decide, by decide,
    fast_batchgcd_gcd_others ⟨3, 4, [15, 77, 143, 0]⟩ (by decide) (by decide)⟩

/-- C2. For every well-formed list `N` of positive integers, `fast_batchgcd N` returns a list
`G` with one entry per input, and for every index `i`: `G[i] = 1` if and only if
`gcd(N[i], N[j]) = 1` for every `j ≠ i`. -/
theorem fast_batchgcd_one_iff_coprime (N : numlist) (hv : N.valid)
    (hpos : ∀ x ∈ N.toList, 0 < x) :
    ∃ G, fast_batchgcd N = some G ∧ G.len = N.len ∧ G.toList.length = N.len ∧
      ∀ (i : Nat) (x : Int), N.toList[i]? = some x → ∃ g, G.toList[i]? = some g ∧
        (g = 1 ↔ ∀ (j : Nat) (y : Int), j ≠ i → N.toList[j]? = some y → Int.gcd x y = 1) := by
  obtain ⟨G, e, gv, gl, hg⟩ := fast_batchgcd_gcd N hv (ne_zero_of_pos hpos)
  refine ⟨G, e, gl, by rw [toList_length (valid_len_le gv), gl], ?_⟩
  intro i x hx
  have hi : i < N.len := lt_len_of_toList hx
  refine ⟨_, by rw [hg i hi, getD_of_getElem? hx], ?_⟩
  rw [← gcd_others_eq_one_iff]
  exact_mod_cast Iff.rfl

theorem fast_batchgcd_one_iff_coprime_witness :
    (⟨3, 4, [15, 77, 143, 0]⟩ : numlist).valid ∧
    (∀ x ∈ (⟨3, 4, [15, 77, 143, 0]⟩ : numlist).toList, 0 < x) ∧
    ∃ G, fast_batchgcd ⟨3, 4, [15, 77, 143, 0]⟩ = some G ∧
      G.len = (⟨3, 4, [15, 77, 143, 0]⟩ : numlist).len ∧
      G.toList.length = (⟨3, 4, [15, 77, 143, 0]⟩ : numlist).len ∧
      ∀ (i : Nat) (x : Int), (⟨3, 4, [15, 77, 143, 0]⟩ : numlist).toList[i]? = some x →
        ∃ g, G.toList[i]? = some g ∧
          (g = 1 ↔ ∀ (j : Nat) (y : Int), j ≠ i →
            (⟨3, 4, [15, 77, 143, 0]⟩ : numlist).toList[j]? = some y → Int.gcd x y = 1) :=
  ⟨by decide, by decide,
    fast_batchgcd_one_iff_coprime ⟨3, 4, [15, 77, 143, 0]⟩ (by decide) (by decide)⟩

/-- C3. For every well-formed list `N` of pairwise coprime positive integers,
`fast_batchgcd N` returns a
list `G` whose entries are all `1`, and `factor_coprimes N G` then records no weak index and
returns the co-factor list `C = N`. -/
theorem coprime_input_no_weak (N : numlist) (hv : N.valid) (hpos : ∀ x ∈ N.toList, 0 < x)
    (hcop : N.toList.Pairwise fun x y => Int.gcd x y = 1) :
    ∃ G st, fast_batchgcd N = some G ∧ G.toList = List.replicate N.len 1 ∧
      factor_coprimes N G = some st ∧ st.weak_count = 0 ∧ st.cplist.toList = N.toList := by
  obtain ⟨G, st, e, hG, e2, w, _, _, hc⟩ := coprime_run N hv hpos hcop
  exact ⟨G, st, e, hG, e2, w, hc⟩

set_option maxRecDepth 100000 in
theorem coprime_input_no_weak_witness :
    odd_primes_100.valid ∧ (∀ x ∈ odd_primes_100.toList, 0 < x) ∧
    (odd_primes_100.toList.Pairwise fun x y => Int.gcd x y = 1) ∧
    ∃ G st, fast_batchgcd odd_primes_100 = some G ∧
      G.toList = List.replicate odd_primes_100.len 1 ∧
      factor_coprimes odd_primes_100 G = some st ∧ st.weak_count = 0 ∧
      st.cplist.toList = odd_primes_100.toList :=
  ⟨by decide, by decide, by decide,
    coprime_input_no_weak odd_primes_100 (by decide) (by decide) (by decide)⟩

/-- Within the range of the C `int` indices of the pairwise pass, that is for a well-formed
list of at most `2^31` moduli: if every input `N[i]` is a product `p i * q i` of two primes
then `fast_batchgcd N` returns a list `G` and `factor_coprimes N G` a list `C`, both with one
entry per input, and every weak index `i` (`G[i] ≠ 1`) whose co-factor `C[i]` is non-zero has
`C[i] = min (p i) (q i)`.  This is the statement of C4 where the code has no narrowing. -/
theorem semiprime_cofactor_is_min (N : numlist) (hv : N.valid) (h31 : N.len ≤ 2 ^ 31)
    (p q : Nat → Nat)
    (hpq : ∀ i, i < N.len → (p i).Prime ∧ (q i).Prime ∧
      N.toList[i]? = some ((p i * q i : Nat) : Int)) :
    ∃ G st, fast_batchgcd N = some G ∧ factor_coprimes N G = some st ∧
      G.toList.length = N.len ∧ st.cplist.toList.length = N.len ∧
      ∀ i g c, G.toList[i]? = some g → st.cplist.toList[i]? = some c → g ≠ 1 → c ≠ 0 →
        c = ((min (p i) (q i) : Nat) : Int) := by
  have hNl := toList_length (valid_len_le hv)
  have hnz : ∀ x ∈ N.toList, x ≠ 0 := by
    intro x hx
    obtain ⟨i, hi, hix⟩ := List.getElem_of_mem hx
    obtain ⟨hp, hq, he⟩ := hpq i (by omega)
    rw [List.getElem?_eq_getElem hi, hix] at he
    rw [Option.some.inj he]
    exact_mod_cast Nat.mul_ne_zero hp.pos.ne' hq.pos.ne'
  obtain ⟨G, e, gv, gl, hg⟩ := fast_batchgcd_gcd N hv hnz
  have hNval : ∀ i, i < N.len → N.num.getD i 0 = ((p i * q i : Nat) : Int) := fun i hi =>
    num_getD_of_toList (hpq i hi).2.2
  have hGval : ∀ i, i < N.len → G.num.getD i 0 =
      ((Int.gcd (N.toList.eraseIdx i).prod ((p i * q i : Nat) : Int) : Nat) : Int) := by
    intro i hi
    have h := hg i hi
    rw [getD_of_getElem? (hpq i hi).2.2] at h
    exact num_getD_of_toList h
  obtain ⟨st, e2, _, _, _, _, _, cl, hslot⟩ := factor_coprimes_spec N G (valid_len_le hv)
    (by have := valid_len_le gv; omega)
    (by
      intro i hi _ _
      rw [hGval i hi]
      intro hc
      have hc2 : Int.gcd (N.toList.eraseIdx i).prod ((p i * q i : Nat) : Int) = 0 := by
        exact_mod_cast hc
      have h0 := (Int.gcd_eq_zero_iff.mp hc2).2
      have : p i * q i = 0 := by exact_mod_cast h0
      exact Nat.mul_ne_zero (hpq i hi).1.pos.ne' (hpq i hi).2.1.pos.ne' this)
    (fun _ => h31)
  refine ⟨G, st, e, e2, by rw [toList_length (valid_len_le gv), gl],
    toList_length_of_slots cl (fun j hj => ⟨_, hslot j hj⟩), ?_⟩
  intro i g c hgi hci hg1 hc0
  have hi : i < N.len := by
    have := lt_len_of_toList hgi
    omega
  obtain ⟨hp, hq, _⟩ := hpq i hi
  have hgG : G.num.getD i 0 = g := num_getD_of_toList hgi
  rw [hslot i hi] at hci
  have hcv := Option.some.inj hci
  by_cases hcase : is_case2 N G i = true
  · rw [if_pos hcase] at hcv
    cases hfs : find_split N i (weak_list N G) with
    | none =>
      rw [hfs] at hcv
      exact absurd hcv.symm hc0
    | some v =>
      rw [hfs] at hcv
      obtain ⟨iw, _, _, h1, h2, hv2⟩ := find_split_some hfs
      rw [hNval i hi] at h1 h2 hv2
      unfold mpz_gcd at h1 h2 hv2
      have hd : Int.gcd (N.num.getD iw 0) ((p i * q i : Nat) : Int) ∣ p i * q i :=
        Int.natCast_dvd_natCast.mp Int.gcd_dvd_right
      rw [← hcv]
      show v = _
      rw [hv2]
      exact lesser_of_semiprime hp hq hd (by exact_mod_cast h1) (by exact_mod_cast h2)
  · rw [if_neg hcase] at hcv
    have hne : G.num.getD i 0 ≠ N.num.getD i 0 := by
      intro heq
      apply hcase
      exact is_case2_of (by rw [hgG]; exact hg1) heq
    unfold classify_val at hcv
    rw [if_neg (by rw [hgG]; exact hg1), if_neg hne, hNval i hi, hGval i hi] at hcv
    rw [hNval i hi, hGval i hi] at hne
    rw [hgG.symm, hGval i hi] at hg1
    have hd : Int.gcd (N.toList.eraseIdx i).prod ((p i * q i : Nat) : Int) ∣ p i * q i :=
      Int.natCast_dvd_natCast.mp Int.gcd_dvd_right
    rw [← hcv]
    exact lesser_of_semiprime hp hq hd (by exact_mod_cast hg1) (by exact_mod_cast hne)

theorem semiprime_cofactor_is_min_witness :
    semiprime_moduli.valid ∧ semiprime_moduli.len ≤ 2 ^ 31 ∧
    (∀ i, i < semiprime_moduli.len → (semiprime_p i).Prime ∧ (semiprime_q i).Prime ∧
      semiprime_moduli.toList[i]? = some ((semiprime_p i * semiprime_q i : Nat) : Int)) ∧
    ∃ G st, fast_batchgcd semiprime_moduli = some G ∧
      factor_coprimes semiprime_moduli G = some st ∧
      G.toList.length = semiprime_moduli.len ∧
      st.cplist.toList.length = semiprime_moduli.len ∧
      ∀ i g c, G.toList[i]? = some g → st.cplist.toList[i]? = some c → g ≠ 1 → c ≠ 0 →
        c = ((min (semiprime_p i) (semiprime_q i) : Nat) : Int) :=
  ⟨by decide, by decide, by decide,
    semiprime_cofactor_is_min semiprime_moduli (by decide) (by decide) semiprime_p semiprime_q
      (by decide)⟩

/-! ## The product tree -/

/-- C5. For every well-formed non-empty list `N`, the top level (index `height - 1`) of
`producttree N`
has length exactly `1` and its single element is the product of all `N[i]`. -/
theorem producttree_top_is_product (N : numlist) (hv : N.valid) (hne : 1 ≤ N.len) :
    ∃ T top, producttree N = some T ∧ T.level[T.height - 1]? = some top ∧ top.len = 1 ∧
      top.toList = [N.toList.prod] := by
  obtain ⟨T, e, hh, _, hlev⟩ := producttree_levels N hv
  obtain ⟨top, h1, tv, tl, _⟩ := hlev (T.height - 1) (by omega)
  have hNl := toList_length (valid_len_le hv)
  have htop : top.toList = [N.toList.prod] := by
    have h := pair_products_top N.toList (by omega)
    rw [hNl] at h
    rw [tl, hh]
    exact h
  refine ⟨T, top, e, h1, ?_, htop⟩
  rw [← toList_length (valid_len_le tv), htop]
  rfl

theorem producttree_top_is_product_witness :
    (⟨5, 8, [3, 5, 7, 11, 13, 0, 0, 0]⟩ : numlist).valid ∧
    1 ≤ (⟨5, 8, [3, 5, 7, 11, 13, 0, 0, 0]⟩ : numlist).len ∧
    ∃ T top, producttree ⟨5, 8, [3, 5, 7, 11, 13, 0, 0, 0]⟩ = some T ∧
      T.level[T.height - 1]? = some top ∧ top.len = 1 ∧
      top.toList = [(⟨5, 8, [3, 5, 7, 11, 13, 0, 0, 0]⟩ : numlist).toList.prod] :=
  ⟨by decide, by decide,
    producttree_top_is_product ⟨5, 8, [3, 5, 7, 11, 13, 0, 0, 0]⟩ (by decide) (by decide)⟩

/-- C6. For every well-formed list `N` of length `n`, `producttree N` has
`height = intlog2 n + 1 = ⌈log2 (max 1 n)⌉ + 1`, level `0` is `N` itself, and for every `l`
with `1 ≤ l < height` the length of level `l` is `⌈len(level[l-1]) / 2⌉` and is at least `1`,
which is the precondition of the pairwise product kernel. -/
theorem producttree_shape (N : numlist) (hv : N.valid) :
    ∃ T, producttree N = some T ∧ intlog2 N.len = some (T.height - 1) ∧
      T.height = Nat.clog 2 (max 1 N.len) + 1 ∧ T.level.length = T.height ∧
      T.level[0]? = some N ∧
      ∀ l, 1 ≤ l → l < T.height → ∃ prev cur, T.level[l - 1]? = some prev ∧
        T.level[l]? = some cur ∧ cur.len = (prev.len + 1) / 2 ∧ 1 ≤ cur.len := by
  obtain ⟨T, e, hh, hlen, h0, hadj⟩ := producttree_adjacent N hv
  have hlt := valid_len_lt hv
  have hmax : Nat.clog 2 (max 1 N.len) = Nat.clog 2 N.len := by
    by_cases h0 : N.len = 0
    · rw [h0, max_eq_left (by omega), Nat.clog_one_right, Nat.clog_zero_right]
    · rw [max_eq_right (by omega)]
  refine ⟨T, e, ?_, by rw [hmax, hh], hlen, h0, ?_⟩
  · rw [intlog2_eq (by omega), hh]
    rfl
  · intro l hl1 hl2
    obtain ⟨prev, cur, p1, c1, _, _, hl, hpos, _⟩ := hadj l hl1 hl2
    exact ⟨prev, cur, p1, c1, hl, hpos⟩

theorem producttree_shape_witness :
    (⟨5, 8, [3, 5, 7, 11, 13, 0, 0, 0]⟩ : numlist).valid ∧
    ∃ T, producttree ⟨5, 8, [3, 5, 7, 11, 13, 0, 0, 0]⟩ = some T ∧
      intlog2 (⟨5, 8, [3, 5, 7, 11, 13, 0, 0, 0]⟩ : numlist).len = some (T.height - 1) ∧
      T.height = Nat.clog 2 (max 1 (⟨5, 8, [3, 5, 7, 11, 13, 0, 0, 0]⟩ : numlist).len) + 1 ∧
      T.level.length = T.height ∧
      T.level[0]? = some ⟨5, 8, [3, 5, 7, 11, 13, 0, 0, 0]⟩ ∧
      ∀ l, 1 ≤ l → l < T.height → ∃ prev cur, T.level[l - 1]? = some prev ∧
        T.level[l]? = some cur ∧ cur.len = (prev.len + 1) / 2 ∧ 1 ≤ cur.len :=
  ⟨by decide, producttree_shape ⟨5, 8, [3, 5, 7, 11, 13, 0, 0, 0]⟩ (by decide)⟩

/-! ## The list kernels -/

/-- C7. For every pair of well-formed lists `d`, `s` with `d.len = ⌈s.len / 2⌉ ≥ 1`, after
`listmul d s`,
and likewise after `threaded_listmul d s T`: `d[i] = s[2i] * s[2i+1]` for every
`i < d.len - 1`; the last slot holds `s[s.len-1] * s[s.len-2]` when `s.len` is even and
`s[s.len-1]` when it is odd.  Consequently every level `l ≥ 1` of a product tree is related
in this way to level `l - 1`. -/
theorem pairwise_product_post (d s N : numlist) (T : Nat) (hd : d.valid) (hs : s.valid)
    (hlen : d.len = (s.len + 1) / 2) (hpos : 1 ≤ d.len) (hT : 1 ≤ T) (hN : N.valid) :
    (∃ d1, listmul d s = some d1 ∧ d1.len = d.len ∧ PairMulPost s d1) ∧
    (∃ d1, threaded_listmul d s T = some d1 ∧ d1.len = d.len ∧ PairMulPost s d1) ∧
    ∃ tree, producttree N = some tree ∧
      ∀ l, 1 ≤ l → l < tree.height → ∃ prev cur, tree.level[l - 1]? = some prev ∧
        tree.level[l]? = some cur ∧ PairMulPost prev cur := by
  refine ⟨?_, ?_, ?_⟩
  · rw [listmul_eq_sched]
    exact sched_post hd hs hlen hpos (le_refl 1) (List.Perm.refl _)
  · exact sched_post hd hs hlen hpos hT (List.Perm.refl _)
  · obtain ⟨tree, e, _, _, _, hadj⟩ := producttree_adjacent N hN
    refine ⟨tree, e, ?_⟩
    intro l hl1 hl2
    obtain ⟨prev, cur, p1, c1, pv, _, hl, hp, ht⟩ := hadj l hl1 hl2
    exact ⟨prev, cur, p1, c1, pairMulPost_of_toList (valid_len_le pv) hl hp ht⟩

theorem pairwise_product_post_witness :
    (makenumlist 3).valid ∧ (⟨5, 8, [3, 5, 7, 11, 13, 0, 0, 0]⟩ : numlist).valid ∧
    (makenumlist 3).len = ((⟨5, 8, [3, 5, 7, 11, 13, 0, 0, 0]⟩ : numlist).len + 1) / 2 ∧
    1 ≤ (makenumlist 3).len ∧ 1 ≤ 4 ∧
    ((∃ d1, listmul (makenumlist 3) ⟨5, 8, [3, 5, 7, 11, 13, 0, 0, 0]⟩ = some d1 ∧
        d1.len = (makenumlist 3).len ∧ PairMulPost ⟨5, 8, [3, 5, 7, 11, 13, 0, 0, 0]⟩ d1) ∧
      (∃ d1, threaded_listmul (makenumlist 3) ⟨5, 8, [3, 5, 7, 11, 13, 0, 0, 0]⟩ 4 = some d1 ∧
        d1.len = (makenumlist 3).len ∧ PairMulPost ⟨5, 8, [3, 5, 7, 11, 13, 0, 0, 0]⟩ d1) ∧
      ∃ tree, producttree ⟨5, 8, [3, 5, 7, 11, 13, 0, 0, 0]⟩ = some tree ∧
        ∀ l, 1 ≤ l → l < tree.height → ∃ prev cur, tree.level[l - 1]? = some prev ∧
          tree.level[l]? = some cur ∧ PairMulPost prev cur) :=
  ⟨by decide, by decide, by decide, by decide, by decide,
    pairwise_product_post (makenumlist 3) ⟨5, 8, [3, 5, 7, 11, 13, 0, 0, 0]⟩
      ⟨5, 8, [3, 5, 7, 11, 13, 0, 0, 0]⟩ 4 (by decide) (by decide) (by decide) (by decide)
      (by decide) (by decide)⟩

/-- C8. For every thread count `T ≥ 1` and all well-formed lists `d`, `s` with
`d.len = ⌈s.len / 2⌉ ≥ 1`,
`threaded_listmul d s T`, run as its `T` strided workers and the caller's last-slot
computation in any order, produces exactly the list that the sequential `listmul d s`
produces; the output does not depend on `T`. -/
theorem threaded_listmul_eq_listmul (d s : numlist) (T : Nat) (order : List mul_task)
    (hd : d.valid) (hs : s.valid) (hlen : d.len = (s.len + 1) / 2) (hpos : 1 ≤ d.len)
    (hT : 1 ≤ T) (hperm : order.Perm (mul_tasks T)) :
    ∃ d1, listmul d s = some d1 ∧ threaded_listmul_sched order d s T = some d1 ∧
      threaded_listmul d s T = some d1 := by
  have hA := valid_len_le hd
  have hseq := listmul_writes (A := d.num.length) hlen hpos hs hA
  obtain ⟨d1, e1, _⟩ := hseq d rfl rfl
  have hany := threaded_listmul_sched_writes (A := d.num.length) hT hlen hpos hs hA hperm
  have hprog := threaded_listmul_sched_writes (A := d.num.length) hT hlen hpos hs hA
    (List.Perm.refl (mul_tasks T))
  have h1 := writes_unique hany hseq (fun _ => Iff.rfl) d rfl rfl
  have h2 := writes_unique hprog hseq (fun _ => Iff.rfl) d rfl rfl
  beta_reduce at e1 h1 h2
  refine ⟨d1, e1, by rw [h1, e1], ?_⟩
  unfold threaded_listmul
  rw [h2, e1]

theorem threaded_listmul_eq_listmul_witness :
    (makenumlist 3).valid ∧ (⟨5, 8, [3, 5, 7, 11, 13, 0, 0, 0]⟩ : numlist).valid ∧
    (makenumlist 3).len = ((⟨5, 8, [3, 5, 7, 11, 13, 0, 0, 0]⟩ : numlist).len + 1) / 2 ∧
    1 ≤ (makenumlist 3).len ∧ 1 ≤ 4 ∧
    List.Perm [mul_task.worker 2, mul_task.tail, mul_task.worker 0, mul_task.worker 3,
      mul_task.worker 1] (mul_tasks 4) ∧
    ∃ d1, listmul (makenumlist 3) ⟨5, 8, [3, 5, 7, 11, 13, 0, 0, 0]⟩ = some d1 ∧
      threaded_listmul_sched [mul_task.worker 2, mul_task.tail, mul_task.worker 0,
        mul_task.worker 3, mul_task.worker 1] (makenumlist 3)
        ⟨5, 8, [3, 5, 7, 11, 13, 0, 0, 0]⟩ 4 = some d1 ∧
      threaded_listmul (makenumlist 3) ⟨5, 8, [3, 5, 7, 11, 13, 0, 0, 0]⟩ 4 = some d1 :=
  ⟨by decide, by decide, by decide, by decide, by decide, by decide,
    threaded_listmul_eq_listmul (makenumlist 3) ⟨5, 8, [3, 5, 7, 11, 13, 0, 0, 0]⟩ 4
      [mul_task.worker 2, mul_task.tail, mul_task.worker 0, mul_task.worker 3,
        mul_task.worker 1]
      (by decide) (by decide) (by decide) (by decide) (by decide) (by decide)⟩

/-- C9. For all well-formed lists `X`, `R`, `nR` with `nR.len = X.len`, `R.len = ⌈X.len / 2⌉`
and every `X[i]`
non-zero, after `threaded_listsqmod X R nR T` with any `T ≥ 1`: for every `i < X.len`,
`nR[i] = R[⌊i/2⌋] mod (X[i] * X[i])`; `X` and `R` are unchanged. -/
theorem threaded_listsqmod_post (X R nR : numlist) (T : Nat) (hX : X.valid) (hR : R.valid)
    (hn : nR.valid) (hnl : nR.len = X.len) (hRl : R.len = (X.len + 1) / 2)
    (hnz : ∀ x ∈ X.toList, x ≠ 0) (hT : 1 ≤ T) :
    ∃ st, threaded_listsqmod X R nR T = some st ∧ st.X = X ∧ st.R = R ∧
      st.nR.len = X.len ∧
      ∀ i, i < X.len → ∃ x r, X.toList[i]? = some x ∧ R.toList[i / 2]? = some r ∧
        st.nR.toList[i]? = some (r % (x * x)) := by
  have hXl := valid_len_le hX
  have hRle := valid_len_le hR
  have hnle := valid_len_le hn
  have hx : ∀ k, k < X.len → X.num.getD k 0 ≠ 0 := by
    intro k hk
    rw [← toList_getD hk]
    exact hnz _ (getD_mem (by rw [toList_length hXl]; exact hk))
  obtain ⟨n1, e1, l1, _, _, w1, _⟩ :=
    threaded_listsqmod_writes (X := X) (R := R) (A := nR.num.length) (L := nR.len) (T := T)
      hT hXl (by omega) (by omega) hx nR rfl rfl
  refine ⟨⟨X, R, n1⟩, e1, rfl, rfl, by rw [l1, hnl], ?_⟩
  intro i hi
  refine ⟨X.num.getD i 0, R.num.getD (i / 2) 0, ?_, ?_, ?_⟩
  · rw [toList_getElem?_lt hi]
    exact getElem?_eq_some_getD (by omega)
  · rw [toList_getElem?_lt (by omega)]
    exact getElem?_eq_some_getD (by omega)
  · show n1.toList[i]? = _
    rw [toList_getElem?_lt (by omega), w1 i hi]
    rfl

theorem threaded_listsqmod_post_witness :
    (⟨3, 3, [6, 35, 11]⟩ : numlist).valid ∧ (⟨2, 2, [2310, 11]⟩ : numlist).valid ∧
    (makenumlist 3).valid ∧ (makenumlist 3).len = (⟨3, 3, [6, 35, 11]⟩ : numlist).len ∧
    (⟨2, 2, [2310, 11]⟩ : numlist).len = ((⟨3, 3, [6, 35, 11]⟩ : numlist).len + 1) / 2 ∧
    (∀ x ∈ (⟨3, 3, [6, 35, 11]⟩ : numlist).toList, x ≠ 0) ∧ 1 ≤ 4 ∧
    ∃ st, threaded_listsqmod ⟨3, 3, [6, 35, 11]⟩ ⟨2, 2, [2310, 11]⟩ (makenumlist 3) 4 =
        some st ∧
      st.X = ⟨3, 3, [6, 35, 11]⟩ ∧ st.R = ⟨2, 2, [2310, 11]⟩ ∧
      st.nR.len = (⟨3, 3, [6, 35, 11]⟩ : numlist).len ∧
      ∀ i, i < (⟨3, 3, [6, 35, 11]⟩ : numlist).len → ∃ x r,
        (⟨3, 3, [6, 35, 11]⟩ : numlist).toList[i]? = some x ∧
        (⟨2, 2, [2310, 11]⟩ : numlist).toList[i / 2]? = some r ∧
        st.nR.toList[i]? = some (r % (x * x)) :=
  ⟨by decide, by decide, by decide, by decide, by decide, by decide, by decide,
    threaded_listsqmod_post ⟨3, 3, [6, 35, 11]⟩ ⟨2, 2, [2310, 11]⟩ (makenumlist 3) 4
      (by decide) (by decide) (by decide) (by decide) (by decide) (by decide) (by decide)⟩

/-! ## Boundary cases -/

/-- C10. For every well-formed single-element input `N = [m]` with `m ≥ 1`, the tree has
height `1`, the
descent loop of `fast_batchgcd` does not execute and leaves the input as the remainder list,
`fast_batchgcd N` returns `G = [1]`, and `factor_coprimes` records no weak modulus. -/
theorem single_modulus_run (N : numlist) (m : Int) (hv : N.valid) (hm : 1 ≤ m)
    (hN : N.toList = [m]) :
    ∃ T G st, producttree N = some T ∧ T.height = 1 ∧
      T.level[size_sub T.height 1]? = some N ∧
      for_loop (T.height + 1) 1 (fast_batchgcd_body T) (T.height + 1) 2 N = some N ∧
      fast_batchgcd N = some G ∧ G.toList = [1] ∧
      factor_coprimes N G = some st ∧ st.weak_count = 0 := by
  have hlen : N.len = 1 := by
    rw [← toList_length (valid_len_le hv), hN]
    rfl
  obtain ⟨T, e, hh, _, h0, _⟩ := producttree_adjacent N hv
  have hh1 : T.height = 1 := by
    rw [hh, hlen, Nat.clog_one_right]
  obtain ⟨G, st, e1, hG, e2, w, _⟩ := coprime_run N hv
    (by
      intro x hx
      rw [hN] at hx
      have : x = m := by simpa using hx
      omega)
    (by rw [hN]; exact List.pairwise_singleton _ _)
  refine ⟨T, G, st, e, hh1, ?_, ?_, e1, by rw [hG, hlen]; rfl, e2, w⟩
  · rw [hh1]
    exact h0
  · rw [hh1]
    rfl

theorem single_modulus_run_witness :
    (⟨1, 1, [7]⟩ : numlist).valid ∧ (1 : Int) ≤ 7 ∧ (⟨1, 1, [7]⟩ : numlist).toList = [7] ∧
    ∃ T G st, producttree ⟨1, 1, [7]⟩ = some T ∧ T.height = 1 ∧
      T.level[size_sub T.height 1]? = some ⟨1, 1, [7]⟩ ∧
      for_loop (T.height + 1) 1 (fast_batchgcd_body T) (T.height + 1) 2 ⟨1, 1, [7]⟩ =
        some ⟨1, 1, [7]⟩ ∧
      fast_batchgcd ⟨1, 1, [7]⟩ = some G ∧ G.toList = [1] ∧
      factor_coprimes ⟨1, 1, [7]⟩ G = some st ∧ st.weak_count = 0 :=
  ⟨by decide, by decide, by decide,
    single_modulus_run ⟨1, 1, [7]⟩ 7 (by decide) (by decide) (by decide)⟩

end BatchGcd

namespace BatchGcd

/-! ## Growing a list -/

theorem grownumlist_full {L : numlist} (hv : L.valid) (hfull : L.len = L.alloc) :
    (grownumlist L).len = L.len ∧ (grownumlist L).alloc = 2 * L.alloc ∧
      (grownumlist L).num.length = 2 * L.alloc ∧
      ∀ j, j < L.len → (grownumlist L).num[j]? = L.num[j]? := by
  have hlt := valid_len_lt hv
  obtain ⟨_, v2, _⟩ := hv
  have hmod : L.alloc * 2 % SIZE_MOD = 2 * L.alloc := by
    unfold SIZE_MOD
    omega
  have hg : grownumlist L = ⟨L.len, 2 * L.alloc,
      (L.num.take L.len ++ List.replicate (2 * L.alloc - L.len) 0).take (2 * L.alloc)⟩ := by
    unfold grownumlist
    simp only [hmod]
  rw [hg]
  refine ⟨rfl, rfl, ?_, ?_⟩
  · simp only [List.length_take, List.length_append, List.length_replicate]
    omega
  · intro j hj
    rw [List.getElem?_take, if_pos (by omega), List.getElem?_append_left (by simp; omega),
      List.getElem?_take, if_pos hj]

/-- Function `push_numlist` on a well-formed list with at least one allocated slot: it
succeeds, appends the value, keeps the earlier elements and doubles `alloc` exactly when the
list was full. -/
theorem push_numlist_eq (L : numlist) (x : Int) (hv : L.valid) (h1 : 1 ≤ L.alloc) :
    ∃ L1, push_numlist L x = some L1 ∧ L1.len = L.len + 1 ∧
      L1.alloc = (if L.len = L.alloc then 2 * L.alloc else L.alloc) ∧
      L1.num.length = L1.alloc ∧ L1.num[L.len]? = some x ∧
      ∀ j, j < L.len → L1.num[j]? = L.num[j]? := by
  have hle := hv.1
  have hnum := hv.2.1
  unfold push_numlist
  by_cases hfull : L.len = L.alloc
  · obtain ⟨g1, g2, g3, g4⟩ := grownumlist_full hv hfull
    simp only [ge_iff_le, if_pos (show L.alloc ≤ L.len by omega)]
    rw [wr_eq _ (by rw [g1, g3]; omega)]
    simp only [Option.map_some']
    refine ⟨_, rfl, by simp only [g1], by simp only [g2, if_pos hfull], ?_, ?_, ?_⟩
    · simp only [List.length_set, g3, g2]
    · simp only [g1]
      exact List.getElem?_set_self (by rw [g3]; omega)
    · intro j hj
      simp only [g1]
      rw [List.getElem?_set_ne (by omega)]
      exact g4 j hj
  · simp only [ge_iff_le, if_neg (show ¬ L.alloc ≤ L.len by omega)]
    rw [wr_eq _ (by omega)]
    simp only [Option.map_some']
    refine ⟨_, rfl, rfl, by simp only [if_neg hfull], ?_, ?_, ?_⟩
    · simp only [List.length_set]
      exact hnum
    · exact List.getElem?_set_self (by omega)
    · intro j hj
      exact List.getElem?_set_ne (by omega)

end BatchGcd

namespace BatchGcd

/-! ## The two passes of `factor_coprimes` on arbitrary lists -/

/-- Function `factor_coprimes` as its two loops: the state `st0` left by the first loop and
the state `st` the pairwise pass makes of it, each with its invariant. -/
theorem factor_coprimes_passes (N G : numlist) (hN : N.len ≤ N.num.length)
    (hG : N.len ≤ G.num.length)
    (hG0 : ∀ i, i < N.len → G.num.getD i 0 ≠ 1 → G.num.getD i 0 ≠ N.num.getD i 0 →
      G.num.getD i 0 ≠ 0)
    (h31 : case2_list N G ≠ [] → N.len ≤ 2 ^ 31) :
    ∃ st0 st,
      for_loop N.len 1 (classify_body N G) N.len 0
        ⟨makenumlist N.len, 0, List.replicate N.len 0, 0, List.replicate N.len 0, 0⟩ =
          some st0 ∧
      ClassifyInv N G N.len st0 ∧
      for_loop st0.weak_gcd_count 1 (pairwise_body N) st0.weak_gcd_count 0 st0 = some st ∧
      PairInv N G st0 st0.weak_gcd_count st ∧ factor_coprimes N G = some st := by
  obtain ⟨st0, e0, h0⟩ := classify_loop N G hN hG hG0
  have hclen : (case2_list N G).length = st0.weak_gcd_count := by
    obtain ⟨_, _, _, _, c5, _, c7, _, c9, _, _⟩ := h0
    unfold case2_list
    rw [← c9, List.length_take]
    omega
  obtain ⟨st, e1, hP⟩ :=
    for_loop_inv (PairInv N G st0) (B := st0.weak_gcd_count) (F := pairwise_body N)
      (fun wgi st hw hI => pairwise_body_inv N G hN
        (h31 (by
          intro hnil
          rw [hnil] at hclen
          simp at hclen
          omega)) st0 h0 wgi st hw hI)
      st0.weak_gcd_count 0 st0 (by omega) (by omega)
      ⟨rfl, rfl, rfl, rfl, rfl, rfl, rfl, by simpa using h0.2.2.2.2.2.2.2.2.2.1,
        fun j => by simp⟩
  refine ⟨st0, st, e0, h0, e1, hP, ?_⟩
  unfold factor_coprimes
  rw [e0]
  exact e1

/-- A slot that is not a "case 2" index keeps, through the pairwise pass, the value the first
loop gave it. -/
theorem pairwise_keeps_slot {N G : numlist} {st0 st : factor_state} {k : Nat}
    (hP : PairInv N G st0 k st) {i : Nat} (hi : is_case2 N G i = false) :
    st.cplist.num[i]? = st0.cplist.num[i]? := by
  obtain ⟨_, _, _, _, _, _, _, _, p9⟩ := hP
  rw [p9 i, if_neg]
  intro hm
  have hmem : i ∈ case2_list N G := List.mem_of_mem_take hm
  rw [(mem_case2_list.mp hmem).2] at hi
  exact absurd hi (by simp)

theorem toList_eq_getD {l : numlist} (hl : l.len ≤ l.num.length) {i : Nat} (hi : i < l.len) :
    l.toList[i]? = some (l.num.getD i 0) := by
  rw [toList_getElem?_lt hi]
  exact getElem?_eq_some_getD (by omega)

/-- The precondition of `factor_coprimes` on its gcd list, from the statement that a gcd
entry is zero only where the modulus is zero. -/
theorem gcd_nonzero_of_zero_only {N G : numlist} (hN : N.valid) (hG : G.valid)
    (hlen : G.len = N.len)
    (hz : ∀ (j : Nat) (g n : Int), G.toList[j]? = some g → N.toList[j]? = some n →
      g = 0 → n = 0) :
    ∀ i, i < N.len → G.num.getD i 0 ≠ 1 → G.num.getD i 0 ≠ N.num.getD i 0 →
      G.num.getD i 0 ≠ 0 := by
  intro i hi _ hne h0
  apply hne
  have hn := hz i _ _ (toList_eq_getD (valid_len_le hG) (by omega))
    (toList_eq_getD (valid_len_le hN) hi) h0
  rw [h0, hn]

theorem lesser_eq_min (g q : Int) : lesser g q = min g q := by
  unfold lesser
  split_ifs with h
  · exact (min_eq_left (le_of_lt h)).symm
  · exact (min_eq_right (by omega)).symm

/-- The smaller of a proper divisor `g > 1` of `n` and its co-factor is a proper divisor of
`n` that is at most its own co-factor. -/
theorem min_divisor_proper {n g : Int} (hg : g ∣ n) (hg0 : 0 < g) (hg1 : g ≠ 1)
    (hgn : g < n) :
    min g (n / g) ∣ n ∧ 1 < min g (n / g) ∧ min g (n / g) < n ∧
      min g (n / g) ≤ n / min g (n / g) := by
  obtain ⟨q, rfl⟩ := hg
  have hg2 : 2 ≤ g := by omega
  have hq2 : 2 ≤ q := by
    by_contra hc
    have : q ≤ 1 := by omega
    nlinarith
  rw [Int.mul_ediv_cancel_left _ (by omega)]
  rcases le_total g q with h | h
  · rw [min_eq_left h]
    refine ⟨dvd_mul_right _ _, by omega, by nlinarith, ?_⟩
    rw [Int.mul_ediv_cancel_left _ (by omega)]
    exact h
  · rw [min_eq_right h]
    refine ⟨dvd_mul_left _ _, by omega, by nlinarith, ?_⟩
    rw [Int.mul_ediv_cancel _ (by omega)]
    exact h

/-- A whole run on non-zero moduli: `fast_batchgcd` followed by `factor_coprimes`, with the
value of every gcd entry and the description of the final state. -/
theorem full_run (N : numlist) (hv : N.valid) (hnz : ∀ x ∈ N.toList, x ≠ 0)
    (h31 : N.len ≤ 2 ^ 31) :
    ∃ G st, fast_batchgcd N = some G ∧ G.valid ∧ G.len = N.len ∧
      (∀ i, i < N.len → G.num.getD i 0 =
        ((Int.gcd (N.toList.eraseIdx i).prod (N.num.getD i 0) : Nat) : Int)) ∧
      factor_coprimes N G = some st ∧
      st.weakidx.take st.weak_count = weak_list N G ∧
      st.weak_count = (weak_list N G).length ∧
      st.weakidx_gcd.take st.weak_gcd_count = case2_list N G ∧
      st.weak_gcd_count = (case2_list N G).length ∧
      st.weak_gcd_success =
        ((case2_list N G).filter fun ig => (find_split N ig (weak_list N G)).isSome).length ∧
      st.cplist.len = N.len ∧
      ∀ j, j < N.len → st.cplist.toList[j]? =
        some (if is_case2 N G j then (find_split N j (weak_list N G)).getD 0
          else classify_val N G j) := by
  obtain ⟨G, e, gv, gl, hg⟩ := fast_batchgcd_gcd N hv hnz
  have hNl := toList_length (valid_len_le hv)
  have hGval : ∀ i, i < N.len → G.num.getD i 0 =
      ((Int.gcd (N.toList.eraseIdx i).prod (N.num.getD i 0) : Nat) : Int) := by
    intro i hi
    have h := hg i hi
    rw [toList_getD hi] at h
    exact num_getD_of_toList h
  obtain ⟨st, e2, r⟩ := factor_coprimes_spec N G (valid_len_le hv)
    (by have := valid_len_le gv; omega)
    (by
      intro i hi _ _
      rw [hGval i hi]
      intro hc
      have hc2 : Int.gcd (N.toList.eraseIdx i).prod (N.num.getD i 0) = 0 := by
        exact_mod_cast hc
      have h0 := (Int.gcd_eq_zero_iff.mp hc2).2
      rw [← toList_getD hi] at h0
      exact hnz _ (getD_mem (by rw [hNl]; exact hi)) h0)
    (fun _ => h31)
  exact ⟨G, st, e, gv, gl, hGval, e2, r⟩

/-- A list is determined by its length and its slots. -/
theorem toList_eq_of_slots {l : numlist} {vs : List Int} (hl : l.len = vs.length)
    (h : ∀ j, j < vs.length → l.toList[j]? = vs[j]?) : l.toList = vs := by
  apply List.ext_getElem?
  intro j
  by_cases hj : j < vs.length
  · exact h j hj
  · rw [toList_getElem?, if_neg (by omega), List.getElem?_eq_none (by omega)]

theorem find_split_skip (N : numlist) (ig : Nat) (rest : List Nat) :
    find_split N ig (ig :: rest) = find_split N ig rest := by
  simp only [find_split, if_true]

theorem find_split_hit (N : numlist) {ig iw : Nat} (rest : List Nat) (hne : iw ≠ ig)
    (h1 : mpz_gcd (N.num.getD iw 0) (N.num.getD ig 0) ≠ 1)
    (h2 : mpz_gcd (N.num.getD iw 0) (N.num.getD ig 0) ≠ N.num.getD ig 0) :
    find_split N ig (iw :: rest) =
      some (lesser (mpz_gcd (N.num.getD iw 0) (N.num.getD ig 0))
        (Int.fdiv (N.num.getD ig 0) (mpz_gcd (N.num.getD iw 0) (N.num.getD ig 0)))) := by
  simp only [find_split]
  rw [if_neg hne, if_pos ⟨h1, h2⟩]

theorem find_split_miss (N : numlist) {ig iw : Nat} (rest : List Nat) (hne : iw ≠ ig)
    (h : mpz_gcd (N.num.getD iw 0) (N.num.getD ig 0) = 1 ∨
      mpz_gcd (N.num.getD iw 0) (N.num.getD ig 0) = N.num.getD ig 0) :
    find_split N ig (iw :: rest) = find_split N ig rest := by
  simp only [find_split]
  rw [if_neg hne, if_neg]
  rintro ⟨h1, h2⟩
  rcases h with h | h
  · exact h1 h
  · exact h2 h

theorem range_two : List.range 2 = [0, 1] := rfl

theorem range_three : List.range 3 = [0, 1, 2] := rfl

theorem gcd_self_cast {m : Int} (hm : 0 ≤ m) : ((Int.gcd m m : Nat) : Int) = m := by
  rw [Int.gcd_self, Int.natAbs_of_nonneg hm]

theorem gcd_shared_prime (p : Nat) {q r : Nat} (hq : q.Prime) (hr : r.Prime) (hne : q ≠ r) :
    Nat.gcd (p * q) (p * r) = p := by
  rw [Nat.gcd_mul_left, Nat.Coprime.gcd_eq_one ((Nat.coprime_primes hq hr).mpr hne), mul_one]

theorem mpz_gcd_cast (a b : Nat) : mpz_gcd (a : Int) (b : Int) = ((Nat.gcd a b : Nat) : Int) := by
  unfold mpz_gcd
  rw [Int.gcd_natCast_natCast]

theorem prime_ne_mul {p q : Nat} (hp : p.Prime) (hq : q.Prime) : p ≠ p * q := by
  intro h
  have h2 : p * 1 = p * q := by rw [mul_one]; exact h
  have := Nat.eq_of_mul_eq_mul_left hp.pos h2
  exact hq.ne_one this.symm

theorem gcd_prod_others (a b c : Nat) (k : Nat) (h : b * c = a * k) :
    Int.gcd ((b : Int) * (c : Int)) (a : Int) = a := by
  rw [← Nat.cast_mul, Int.gcd_natCast_natCast, h]
  exact Nat.gcd_eq_right (dvd_mul_right a k)

end BatchGcd

namespace BatchGcd

/-! ## More boundary cases and the contract of `factor_coprimes` -/

/-- C11. For the empty input list (`n = 0`), `producttree` builds a tree of height `1` whose
only level is the empty input, `fast_batchgcd` returns a list `G` of length `0`, and
`factor_coprimes` returns a list `C` of length `0` with zero weak moduli. -/
theorem empty_input_run (N : numlist) (hv : N.valid) (h0 : N.len = 0) :
    producttree N = some ⟨1, [N]⟩ ∧
    ∃ G st, fast_batchgcd N = some G ∧ G.len = 0 ∧ G.toList = [] ∧
      factor_coprimes N G = some st ∧ st.cplist.len = 0 ∧ st.cplist.toList = [] ∧
      st.weak_count = 0 ∧ st.weak_gcd_count = 0 ∧ st.weak_gcd_success = 0 := by
  have hNl : N.toList = [] := by
    unfold numlist.toList
    rw [h0]
    rfl
  refine ⟨?_, ?_⟩
  · unfold producttree
    rw [h0]
    rfl
  · obtain ⟨G, e, gv, gl, _⟩ := fast_batchgcd_gcd N hv (by rw [hNl]; simp)
    obtain ⟨st, e2, w, g, s, hc⟩ := factor_all_one N G (valid_len_le hv)
      (by rw [h0]; omega) (fun i hi => by omega)
    have hcl : st.cplist.len = 0 := by
      obtain ⟨st2, e3, _, _, _, _, _, l2, _⟩ := factor_coprimes_spec N G (valid_len_le hv)
        (by rw [h0]; omega) (fun i hi => by omega)
        (fun h => by
          exfalso
          apply h
          unfold case2_list
          rw [h0]
          rfl)
      rw [e2] at e3
      rw [Option.some.inj e3, l2, h0]
    refine ⟨G, st, e, by rw [gl, h0], ?_, e2, hcl, by rw [hc, hNl], w, g, s⟩
    unfold numlist.toList
    rw [gl, h0]
    rfl

theorem empty_input_run_witness :
    (makenumlist 0).valid ∧ (makenumlist 0).len = 0 ∧
    (producttree (makenumlist 0) = some ⟨1, [makenumlist 0]⟩ ∧
    ∃ G st, fast_batchgcd (makenumlist 0) = some G ∧ G.len = 0 ∧ G.toList = [] ∧
      factor_coprimes (makenumlist 0) G = some st ∧ st.cplist.len = 0 ∧
      st.cplist.toList = [] ∧
      st.weak_count = 0 ∧ st.weak_gcd_count = 0 ∧ st.weak_gcd_success = 0) :=
  ⟨by decide, by decide, empty_input_run (makenumlist 0) (by decide) (by decide)⟩

/-- C12, as amended. For every pair of well-formed equal-length lists `N`, `G` of at most
`2^31` entries in which a gcd entry `G[j]` is zero only where `N[j]` is zero, and every
index `i` with `G[i] = 1`: `factor_coprimes N G` returns a list `C` with `C[i] = N[i]`, and
`i` is not among the recorded weak indices. -/
theorem factor_coprimes_gcd_one (N G : numlist) (i : Nat) (n : Int) (hN : N.valid)
    (hG : G.valid) (hlen : G.len = N.len) (h31 : N.len ≤ 2 ^ 31)
    (hz : ∀ (j : Nat) (g m : Int), G.toList[j]? = some g → N.toList[j]? = some m →
      g = 0 → m = 0)
    (hg : G.toList[i]? = some 1) (hn : N.toList[i]? = some n) :
    ∃ st, factor_coprimes N G = some st ∧ st.cplist.toList[i]? = some n ∧
      i ∉ st.weakidx.take st.weak_count := by
  have hi : i < N.len := lt_len_of_toList hn
  have hg1 : G.num.getD i 0 = 1 := num_getD_of_toList hg
  have hGl := valid_len_le hG
  obtain ⟨st, e, w1, _, _, _, _, _, hslot⟩ := factor_coprimes_spec N G (valid_len_le hN)
    (by omega) (gcd_nonzero_of_zero_only hN hG hlen hz) (fun _ => h31)
  refine ⟨st, e, ?_, ?_⟩
  · rw [hslot i hi, is_case2_of_eq_one hg1]
    simp only [Bool.false_eq_true, if_false]
    unfold classify_val
    rw [if_pos hg1, num_getD_of_toList hn]
  · rw [w1]
    intro hm
    unfold weak_list at hm
    have := (List.mem_filter.mp hm).2
    rw [is_weak_of_eq hg1] at this
    exact absurd this (by simp)

theorem factor_coprimes_gcd_one_witness :
    (⟨2, 2, [5, 6]⟩ : numlist).valid ∧ (⟨2, 2, [1, 3]⟩ : numlist).valid ∧
    (⟨2, 2, [1, 3]⟩ : numlist).len = (⟨2, 2, [5, 6]⟩ : numlist).len ∧
    (⟨2, 2, [5, 6]⟩ : numlist).len ≤ 2 ^ 31 ∧
    (∀ (j : Nat) (g m : Int), (⟨2, 2, [1, 3]⟩ : numlist).toList[j]? = some g →
      (⟨2, 2, [5, 6]⟩ : numlist).toList[j]? = some m → g = 0 → m = 0) ∧
    (⟨2, 2, [1, 3]⟩ : numlist).toList[0]? = some 1 ∧
    (⟨2, 2, [5, 6]⟩ : numlist).toList[0]? = some 5 ∧
    ∃ st, factor_coprimes ⟨2, 2, [5, 6]⟩ ⟨2, 2, [1, 3]⟩ = some st ∧
      st.cplist.toList[0]? = some 5 ∧ 0 ∉ st.weakidx.take st.weak_count :=
  have hz : ∀ (j : Nat) (g m : Int), (⟨2, 2, [1, 3]⟩ : numlist).toList[j]? = some g →
      (⟨2, 2, [5, 6]⟩ : numlist).toList[j]? = some m → g = 0 → m = 0 := by
    intro j g m h1 _ h0
    have hj : j < 2 := lt_len_of_toList h1
    interval_cases j
    · have : g = 1 := (Option.some.inj h1).symm
      omega
    · have : g = 3 := (Option.some.inj h1).symm
      omega
  ⟨by decide, by decide, by decide, by decide, hz, by decide, by decide,
    factor_coprimes_gcd_one ⟨2, 2, [5, 6]⟩ ⟨2, 2, [1, 3]⟩ 0 5 (by decide) (by decide)
      (by decide) (by decide) hz (by decide) (by decide)⟩

/-- C12, as stated, fails: for `N = [5, 7]` and `G = [1, 0]`, two well-formed lists of equal
length with `G[0] = 1`, `factor_coprimes` divides `7` by the zero gcd entry and returns no
list. -/
theorem factor_coprimes_gcd_one_zero_entry :
    (⟨2, 2, [5, 7]⟩ : numlist).valid ∧ (⟨2, 2, [1, 0]⟩ : numlist).valid ∧
    (⟨2, 2, [1, 0]⟩ : numlist).len = (⟨2, 2, [5, 7]⟩ : numlist).len ∧
    (⟨2, 2, [1, 0]⟩ : numlist).toList[0]? = some 1 ∧
    factor_coprimes ⟨2, 2, [5, 7]⟩ ⟨2, 2, [1, 0]⟩ = none := by
  decide

/-- C13, as amended. For every pair of well-formed equal-length lists `N`, `G` of at most
`2^31` entries in which a gcd entry `G[j]` is zero only where `N[j]` is zero, and every
index `i` with `G[i] ≠ 1` and `G[i] < N[i]` (case 1): the first loop of `factor_coprimes`
stores `min(G[i], N[i] div G[i])` in `C[i]`, with `div` the floor division of `mpz_div`, and
the list returned after the pairwise pass still holds that value. -/
theorem factor_coprimes_case1 (N G : numlist) (i : Nat) (n g : Int) (hN : N.valid)
    (hG : G.valid) (hlen : G.len = N.len) (h31 : N.len ≤ 2 ^ 31)
    (hz : ∀ (j : Nat) (g m : Int), G.toList[j]? = some g → N.toList[j]? = some m →
      g = 0 → m = 0)
    (hg : G.toList[i]? = some g) (hn : N.toList[i]? = some n) (hg1 : g ≠ 1) (hgn : g < n) :
    ∃ st0 st,
      for_loop N.len 1 (classify_body N G) N.len 0
        ⟨makenumlist N.len, 0, List.replicate N.len 0, 0, List.replicate N.len 0, 0⟩ =
          some st0 ∧
      for_loop st0.weak_gcd_count 1 (pairwise_body N) st0.weak_gcd_count 0 st0 = some st ∧
      factor_coprimes N G = some st ∧
      st0.cplist.toList[i]? = some (min g (Int.fdiv n g)) ∧
      st.cplist.toList[i]? = some (min g (Int.fdiv n g)) ∧
      (0 < g → st.cplist.toList[i]? = some (min g (n / g))) := by
  have hi : i < N.len := lt_len_of_toList hn
  have hgv : G.num.getD i 0 = g := num_getD_of_toList hg
  have hnv : N.num.getD i 0 = n := num_getD_of_toList hn
  obtain ⟨st0, st, e0, h0, e1, hP, e⟩ := factor_coprimes_passes N G (valid_len_le hN)
    (by have := valid_len_le hG; omega) (gcd_nonzero_of_zero_only hN hG hlen hz)
    (fun _ => h31)
  have hnc : is_case2 N G i = false := is_case2_of_ne (by rw [hgv, hnv]; omega)
  have hs0 : st0.cplist.toList[i]? = some (min g (Int.fdiv n g)) := by
    obtain ⟨c1, _, _, _, _, _, _, _, _, _, c11⟩ := h0
    rw [toList_getElem?, c1, if_pos hi, c11 i, if_pos hi]
    unfold classify_val
    rw [hgv, hnv, if_neg hg1, if_neg (by omega), lesser_eq_min]
  have hs : st.cplist.toList[i]? = some (min g (Int.fdiv n g)) := by
    have hl : st.cplist.len = N.len := by
      rw [hP.2.2.2.2.1, h0.1]
    rw [toList_getElem?, hl, if_pos hi, pairwise_keeps_slot hP hnc]
    rw [toList_getElem?, h0.1, if_pos hi] at hs0
    exact hs0
  refine ⟨st0, st, e0, e1, e, hs0, hs, ?_⟩
  intro hpos
  rw [hs, Int.fdiv_eq_ediv _ (le_of_lt hpos)]

theorem factor_coprimes_case1_witness :
    (⟨2, 2, [5, 6]⟩ : numlist).valid ∧ (⟨2, 2, [1, 3]⟩ : numlist).valid ∧
    (⟨2, 2, [1, 3]⟩ : numlist).len = (⟨2, 2, [5, 6]⟩ : numlist).len ∧
    (⟨2, 2, [5, 6]⟩ : numlist).len ≤ 2 ^ 31 ∧
    (∀ (j : Nat) (g m : Int), (⟨2, 2, [1, 3]⟩ : numlist).toList[j]? = some g →
      (⟨2, 2, [5, 6]⟩ : numlist).toList[j]? = some m → g = 0 → m = 0) ∧
    (⟨2, 2, [1, 3]⟩ : numlist).toList[1]? = some 3 ∧
    (⟨2, 2, [5, 6]⟩ : numlist).toList[1]? = some 6 ∧ (3 : Int) ≠ 1 ∧ (3 : Int) < 6 ∧
    ∃ st0 st,
      for_loop (⟨2, 2, [5, 6]⟩ : numlist).len 1
        (classify_body ⟨2, 2, [5, 6]⟩ ⟨2, 2, [1, 3]⟩) (⟨2, 2, [5, 6]⟩ : numlist).len 0
        ⟨makenumlist (⟨2, 2, [5, 6]⟩ : numlist).len, 0,
          List.replicate (⟨2, 2, [5, 6]⟩ : numlist).len 0, 0,
          List.replicate (⟨2, 2, [5, 6]⟩ : numlist).len 0, 0⟩ = some st0 ∧
      for_loop st0.weak_gcd_count 1 (pairwise_body ⟨2, 2, [5, 6]⟩) st0.weak_gcd_count 0 st0 =
        some st ∧
      factor_coprimes ⟨2, 2, [5, 6]⟩ ⟨2, 2, [1, 3]⟩ = some st ∧
      st0.cplist.toList[1]? = some (min 3 (Int.fdiv 6 3)) ∧
      st.cplist.toList[1]? = some (min 3 (Int.fdiv 6 3)) ∧
      ((0 : Int) < 3 → st.cplist.toList[1]? = some (min 3 (6 / 3))) :=
  have hz : ∀ (j : Nat) (g m : Int), (⟨2, 2, [1, 3]⟩ : numlist).toList[j]? = some g →
      (⟨2, 2, [5, 6]⟩ : numlist).toList[j]? = some m → g = 0 → m = 0 := by
    intro j g m h1 _ h0
    have hj : j < 2 := lt_len_of_toList h1
    interval_cases j
    · have : g = 1 := (Option.some.inj h1).symm
      omega
    · have : g = 3 := (Option.some.inj h1).symm
      omega
  ⟨by decide, by decide, by decide, by decide, hz, by decide, by decide, by decide, by decide,
    factor_coprimes_case1 ⟨2, 2, [5, 6]⟩ ⟨2, 2, [1, 3]⟩ 1 6 3 (by decide) (by decide)
      (by decide) (by decide) hz (by decide) (by decide) (by decide) (by decide)⟩

/-- C13, as stated, fails: for `N = [5]` and `G = [0]`, index `0` has `G[0] ≠ 1` and
`G[0] < N[0]`, and `factor_coprimes` divides `5` by the zero gcd entry and returns no list. -/
theorem factor_coprimes_case1_zero_entry :
    (⟨1, 1, [5]⟩ : numlist).valid ∧ (⟨1, 1, [0]⟩ : numlist).valid ∧
    (⟨1, 1, [0]⟩ : numlist).len = (⟨1, 1, [5]⟩ : numlist).len ∧
    (⟨1, 1, [0]⟩ : numlist).toList[0]? = some 0 ∧
    (⟨1, 1, [5]⟩ : numlist).toList[0]? = some 5 ∧ (0 : Int) ≠ 1 ∧ (0 : Int) < 5 ∧
    factor_coprimes ⟨1, 1, [5]⟩ ⟨1, 1, [0]⟩ = none := by
  decide

/-- Within the range of the C `int` indices of the pairwise pass, that is for a well-formed
list `N` of at most `2^31` positive integers: `fast_batchgcd N` returns a list `G` and
`factor_coprimes N G` a list `C`, both with one entry per input, and for every weak index `i`
(`G[i] ≠ 1`) with `G[i] < N[i]`, `C[i]` divides `N[i]`, `1 < C[i] < N[i]`, and
`C[i] ≤ N[i] / C[i]`.  This is the statement of C14 where the code has no narrowing. -/
theorem case1_cofactor_proper (N : numlist) (hv : N.valid) (h31 : N.len ≤ 2 ^ 31)
    (hpos : ∀ x ∈ N.toList, 0 < x) :
    ∃ G st, fast_batchgcd N = some G ∧ factor_coprimes N G = some st ∧
      G.toList.length = N.len ∧ st.cplist.toList.length = N.len ∧
      ∀ (i : Nat) (n g c : Int), N.toList[i]? = some n → G.toList[i]? = some g →
        st.cplist.toList[i]? = some c → g ≠ 1 → g < n →
        c ∣ n ∧ 1 < c ∧ c < n ∧ c ≤ n / c := by
  obtain ⟨G, e, gv, gl, hg⟩ := fast_batchgcd_gcd N hv (ne_zero_of_pos hpos)
  have hNl := toList_length (valid_len_le hv)
  have hGval : ∀ i, i < N.len → G.num.getD i 0 =
      ((Int.gcd (N.toList.eraseIdx i).prod (N.num.getD i 0) : Nat) : Int) := by
    intro i hi
    have h := hg i hi
    rw [toList_getD hi] at h
    exact num_getD_of_toList h
  have hNpos : ∀ i, i < N.len → 0 < N.num.getD i 0 := by
    intro i hi
    rw [← toList_getD hi]
    exact hpos _ (getD_mem (by rw [hNl]; exact hi))
  obtain ⟨st, e2, _, _, _, _, _, cl, hslot⟩ := factor_coprimes_spec N G (valid_len_le hv)
    (by have := valid_len_le gv; omega)
    (by
      intro i hi _ _
      rw [hGval i hi]
      intro hc
      have hc2 : Int.gcd (N.toList.eraseIdx i).prod (N.num.getD i 0) = 0 := by
        exact_mod_cast hc
      have := (Int.gcd_eq_zero_iff.mp hc2).2
      have := hNpos i hi
      omega)
    (fun _ => h31)
  refine ⟨G, st, e, e2, by rw [toList_length (valid_len_le gv), gl],
    toList_length_of_slots cl (fun j hj => ⟨_, hslot j hj⟩), ?_⟩
  intro i n g c hn hgi hci hg1 hgn
  have hi : i < N.len := lt_len_of_toList hn
  have hnv : N.num.getD i 0 = n := num_getD_of_toList hn
  have hgv : G.num.getD i 0 = g := num_getD_of_toList hgi
  have hnpos : 0 < n := by
    rw [← hnv]
    exact hNpos i hi
  have hgd : g ∣ n := by
    rw [← hgv, hGval i hi, hnv]
    exact Int.gcd_dvd_right
  have hg0 : 0 < g := by
    have h1 : 0 ≤ g := by
      rw [← hgv, hGval i hi]
      exact Int.natCast_nonneg _
    have h2 : g ≠ 0 := by
      rintro rfl
      have := zero_dvd_iff.mp hgd
      omega
    omega
  rw [hslot i hi, is_case2_of_ne (by rw [hgv, hnv]; omega)] at hci
  simp only [Bool.false_eq_true, if_false] at hci
  unfold classify_val at hci
  rw [hgv, hnv, if_neg hg1, if_neg (by omega), lesser_eq_min,
    Int.fdiv_eq_ediv _ (le_of_lt hg0)] at hci
  rw [← Option.some.inj hci]
  exact min_divisor_proper hgd hg0 hg1 hgn

theorem case1_cofactor_proper_witness :
    (⟨3, 4, [15, 77, 143, 0]⟩ : numlist).valid ∧
    (⟨3, 4, [15, 77, 143, 0]⟩ : numlist).len ≤ 2 ^ 31 ∧
    (∀ x ∈ (⟨3, 4, [15, 77, 143, 0]⟩ : numlist).toList, 0 < x) ∧
    ∃ G st, fast_batchgcd ⟨3, 4, [15, 77, 143, 0]⟩ = some G ∧
      factor_coprimes ⟨3, 4, [15, 77, 143, 0]⟩ G = some st ∧
      G.toList.length = (⟨3, 4, [15, 77, 143, 0]⟩ : numlist).len ∧
      st.cplist.toList.length = (⟨3, 4, [15, 77, 143, 0]⟩ : numlist).len ∧
      ∀ (i : Nat) (n g c : Int), (⟨3, 4, [15, 77, 143, 0]⟩ : numlist).toList[i]? = some n →
        G.toList[i]? = some g → st.cplist.toList[i]? = some c → g ≠ 1 → g < n →
        c ∣ n ∧ 1 < c ∧ c < n ∧ c ≤ n / c :=
  ⟨by decide, by decide, by decide,
    case1_cofactor_proper ⟨3, 4, [15, 77, 143, 0]⟩ (by decide) (by decide) (by decide)⟩

/-! ## End-to-end scenarios -/

/-- C15. For every integer `m ≥ 2`, on the two-element input `N = [m, m]` the function
`fast_batchgcd` returns `G = [m, m]`; in `factor_coprimes` both indices are recorded as weak and
as case 2 (unresolved count `2`), the pairwise pass resolves neither of them (pairwise-resolved
count `0`), and the co-factor list is `C = [0, 0]`. -/
theorem duplicate_modulus_run (N : numlist) (m : Int) (hv : N.valid) (hm : 2 ≤ m)
    (hN : N.toList = [m, m]) :
    ∃ G st, fast_batchgcd N = some G ∧ G.toList = [m, m] ∧
      factor_coprimes N G = some st ∧
      st.weakidx.take st.weak_count = [0, 1] ∧
      st.weakidx_gcd.take st.weak_gcd_count = [0, 1] ∧
      st.weak_count = 2 ∧ st.weak_gcd_count = 2 ∧ st.weak_gcd_success = 0 ∧
      st.cplist.toList = [0, 0] := by
  have hlen : N.len = 2 := by
    rw [← toList_length (valid_len_le hv), hN]
    rfl
  have hn0 : N.num.getD 0 0 = m := num_getD_of_toList (by rw [hN]; rfl)
  have hn1 : N.num.getD 1 0 = m := num_getD_of_toList (by rw [hN]; rfl)
  obtain ⟨G, st, e, gv, gl, hG, e2, w1, w2, c1, c2, s, cl, hslot⟩ := full_run N hv
    (by
      rw [hN]
      intro x hx
      simp only [List.mem_cons, List.mem_singleton, List.not_mem_nil, or_false, or_self] at hx
      omega)
    (by omega)
  have hg0 : G.num.getD 0 0 = m := by
    rw [hG 0 (by omega), hn0, hN]
    simp only [List.eraseIdx_cons_zero, List.prod_cons, List.prod_nil, mul_one]
    exact gcd_self_cast (by omega)
  have hg1 : G.num.getD 1 0 = m := by
    rw [hG 1 (by omega), hn1, hN]
    simp only [List.eraseIdx_cons_succ, List.eraseIdx_cons_zero, List.prod_cons, List.prod_nil,
      mul_one]
    exact gcd_self_cast (by omega)
  have hw0 : is_weak G 0 = true := is_weak_of_ne (by rw [hg0]; omega)
  have hw1 : is_weak G 1 = true := is_weak_of_ne (by rw [hg1]; omega)
  have hc0 : is_case2 N G 0 = true := is_case2_of (by rw [hg0]; omega) (by rw [hg0, hn0])
  have hc1 : is_case2 N G 1 = true := is_case2_of (by rw [hg1]; omega) (by rw [hg1, hn1])
  have hweak : weak_list N G = [0, 1] := by
    unfold weak_list
    rw [hlen, range_two]
    simp only [List.filter, hw0, hw1]
  have hcase : case2_list N G = [0, 1] := by
    unfold case2_list
    rw [hlen, range_two]
    simp only [List.filter, hc0, hc1]
  have hmm : mpz_gcd m m = m := by
    unfold mpz_gcd
    exact gcd_self_cast (by omega)
  have hf0 : find_split N 0 [0, 1] = none := by
    rw [find_split_skip, find_split_miss N [] (by omega) (Or.inr (by rw [hn1, hn0, hmm]))]
    rfl
  have hf1 : find_split N 1 [0, 1] = none := by
    rw [find_split_miss N [1] (by omega) (Or.inr (by rw [hn1, hn0, hmm])), find_split_skip]
    rfl
  refine ⟨G, st, e, ?_, e2, by rw [w1, hweak], by rw [c1, hcase], by rw [w2, hweak]; rfl,
    by rw [c2, hcase]; rfl, ?_, ?_⟩
  · apply toList_eq_of_slots (by rw [gl, hlen]; rfl)
    intro j hj
    have hj2 : j < 2 := hj
    rw [toList_eq_getD (valid_len_le gv) (by omega)]
    interval_cases j
    · rw [hg0]; rfl
    · rw [hg1]; rfl
  · rw [s, hcase, hweak]
    simp only [List.filter, hf0, hf1, Option.isSome_none]
    rfl
  · apply toList_eq_of_slots (by rw [cl, hlen]; rfl)
    intro j hj
    have hj2 : j < 2 := hj
    rw [hslot j (by omega), hweak]
    interval_cases j
    · rw [hc0, hf0]; rfl
    · rw [hc1, hf1]; rfl

theorem duplicate_modulus_run_witness :
    (⟨2, 2, [21, 21]⟩ : numlist).valid ∧ (2 : Int) ≤ 21 ∧
    (⟨2, 2, [21, 21]⟩ : numlist).toList = [21, 21] ∧
    ∃ G st, fast_batchgcd ⟨2, 2, [21, 21]⟩ = some G ∧ G.toList = [21, 21] ∧
      factor_coprimes ⟨2, 2, [21, 21]⟩ G = some st ∧
      st.weakidx.take st.weak_count = [0, 1] ∧ st.weakidx_gcd.take st.weak_gcd_count = [0, 1] ∧
      st.weak_count = 2 ∧ st.weak_gcd_count = 2 ∧ st.weak_gcd_success = 0 ∧
      st.cplist.toList = [0, 0] :=
  ⟨by decide, by decide, by decide,
    duplicate_modulus_run ⟨2, 2, [21, 21]⟩ 21 (by decide) (by decide) (by decide)⟩

/-- C16, as amended. For the input `N = [15, 77, 143]`, as `main` builds it, `fast_batchgcd`
returns `G = [1, 11, 11]`, `factor_coprimes` records exactly the weak indices `1` and `2`, and
the co-factor list it returns is `C = [15, 7, 11]`: for `143 = 11 * 13` the gcd `11` is the
smaller of the two factors. -/
theorem scenario_15_77_143 :
    mk_input [15, 77, 143] = some ⟨3, 4, [15, 77, 143, 0]⟩ ∧
    fast_batchgcd ⟨3, 4, [15, 77, 143, 0]⟩ = some ⟨3, 3, [1, 11, 11]⟩ ∧
    (⟨3, 3, [1, 11, 11]⟩ : numlist).toList = [1, 11, 11] ∧
    ∃ st, factor_coprimes ⟨3, 4, [15, 77, 143, 0]⟩ ⟨3, 3, [1, 11, 11]⟩ = some st ∧
      st.weak_count = 2 ∧ st.weakidx.take st.weak_count = [1, 2] ∧
      st.cplist.toList = [15, 7, 11] :=
  ⟨by decide, by decide, by decide,
    ⟨⟨3, 3, [15, 7, 11]⟩, 2, [1, 2, 0], 0, [0, 0, 0], 0⟩, by decide, by decide, by decide,
    by decide⟩

/-- C16, as stated, fails: on the input `N = [15, 77, 143]` the co-factor list returned by
`factor_coprimes` is not `[15, 7, 13]`. -/
theorem scenario_15_77_143_not_13 :
    ¬ ∃ G st, fast_batchgcd ⟨3, 4, [15, 77, 143, 0]⟩ = some G ∧
      factor_coprimes ⟨3, 4, [15, 77, 143, 0]⟩ G = some st ∧
      st.cplist.toList = [15, 7, 13] := by
  rintro ⟨G, st, h1, h2, h3⟩
  have e1 : fast_batchgcd ⟨3, 4, [15, 77, 143, 0]⟩ = some ⟨3, 3, [1, 11, 11]⟩ := by decide
  rw [e1] at h1
  rw [← Option.some.inj h1] at h2
  have e2 : factor_coprimes ⟨3, 4, [15, 77, 143, 0]⟩ ⟨3, 3, [1, 11, 11]⟩ =
      some ⟨⟨3, 3, [15, 7, 11]⟩, 2, [1, 2, 0], 0, [0, 0, 0], 0⟩ := by decide
  rw [e2] at h2
  rw [← Option.some.inj h2] at h3
  revert h3
  decide

/-! ## The list container -/

/-- C17. For all primes `p`, `q`, `r` with `q ≠ r` (in particular for distinct primes), on the
two-element input `N = [p * q, p * r]` the function `fast_batchgcd` returns `G = [p, p]`; in
`factor_coprimes` both indices are weak and case 1 (unresolved count `0`), and the co-factor
list is `C = [min p q, min p r]`. -/
theorem shared_prime_pair_run (N : numlist) (p q r : Nat) (hv : N.valid) (hp : p.Prime)
    (hq : q.Prime) (hr : r.Prime) (hqr : q ≠ r)
    (hN : N.toList = [((p * q : Nat) : Int), ((p * r : Nat) : Int)]) :
    ∃ G st, fast_batchgcd N = some G ∧ G.toList = [(p : Int), (p : Int)] ∧
      factor_coprimes N G = some st ∧ st.weakidx.take st.weak_count = [0, 1] ∧
      st.weak_count = 2 ∧ st.weak_gcd_count = 0 ∧
      st.cplist.toList = [((min p q : Nat) : Int), ((min p r : Nat) : Int)] := by
  have hlen : N.len = 2 := by
    rw [← toList_length (valid_len_le hv), hN]
    rfl
  have hn0 : N.num.getD 0 0 = ((p * q : Nat) : Int) := num_getD_of_toList (by rw [hN]; rfl)
  have hn1 : N.num.getD 1 0 = ((p * r : Nat) : Int) := num_getD_of_toList (by rw [hN]; rfl)
  have hpq0 : p * q ≠ 0 := Nat.mul_ne_zero hp.pos.ne' hq.pos.ne'
  have hpr0 : p * r ≠ 0 := Nat.mul_ne_zero hp.pos.ne' hr.pos.ne'
  obtain ⟨G, st, e, gv, gl, hG, e2, w1, w2, c1, c2, s, cl, hslot⟩ := full_run N hv
    (by
      rw [hN]
      intro x hx
      simp only [List.mem_cons, List.mem_singleton, List.not_mem_nil, or_false] at hx
      rcases hx with rfl | rfl
      · exact_mod_cast hpq0
      · exact_mod_cast hpr0)
    (by omega)
  have hg0 : G.num.getD 0 0 = (p : Int) := by
    rw [hG 0 (by omega), hn0, hN]
    simp only [List.eraseIdx_cons_zero, List.prod_cons, List.prod_nil, mul_one]
    rw [Int.gcd_natCast_natCast, gcd_shared_prime p hr hq (Ne.symm hqr)]
  have hg1 : G.num.getD 1 0 = (p : Int) := by
    rw [hG 1 (by omega), hn1, hN]
    simp only [List.eraseIdx_cons_succ, List.eraseIdx_cons_zero, List.prod_cons, List.prod_nil,
      mul_one]
    rw [Int.gcd_natCast_natCast, gcd_shared_prime p hq hr hqr]
  have hp1 : (p : Int) ≠ 1 := by exact_mod_cast hp.ne_one
  have hw0 : is_weak G 0 = true := is_weak_of_ne (by rw [hg0]; exact hp1)
  have hw1 : is_weak G 1 = true := is_weak_of_ne (by rw [hg1]; exact hp1)
  have hne0 : G.num.getD 0 0 ≠ N.num.getD 0 0 := by
    rw [hg0, hn0]
    exact_mod_cast prime_ne_mul hp hq
  have hne1 : G.num.getD 1 0 ≠ N.num.getD 1 0 := by
    rw [hg1, hn1]
    exact_mod_cast prime_ne_mul hp hr
  have hc0 : is_case2 N G 0 = false := is_case2_of_ne hne0
  have hc1 : is_case2 N G 1 = false := is_case2_of_ne hne1
  have hweak : weak_list N G = [0, 1] := by
    unfold weak_list
    rw [hlen, range_two]
    simp only [List.filter, hw0, hw1]
  have hcase : case2_list N G = [] := by
    unfold case2_list
    rw [hlen, range_two]
    simp only [List.filter, hc0, hc1]
  have hv0 : classify_val N G 0 = ((min p q : Nat) : Int) := by
    unfold classify_val
    rw [if_neg (by rw [hg0]; exact hp1), if_neg hne0, hg0, hn0]
    exact lesser_of_semiprime hp hq (dvd_mul_right p q) hp.ne_one (prime_ne_mul hp hq)
  have hv1 : classify_val N G 1 = ((min p r : Nat) : Int) := by
    unfold classify_val
    rw [if_neg (by rw [hg1]; exact hp1), if_neg hne1, hg1, hn1]
    exact lesser_of_semiprime hp hr (dvd_mul_right p r) hp.ne_one (prime_ne_mul hp hr)
  refine ⟨G, st, e, ?_, e2, by rw [w1, hweak], by rw [w2, hweak]; rfl,
    by rw [c2, hcase]; rfl, ?_⟩
  · apply toList_eq_of_slots (by rw [gl, hlen]; rfl)
    intro j hj
    have hj2 : j < 2 := hj
    rw [toList_eq_getD (valid_len_le gv) (by omega)]
    interval_cases j
    · rw [hg0]; rfl
    · rw [hg1]; rfl
  · apply toList_eq_of_slots (by rw [cl, hlen]; rfl)
    intro j hj
    have hj2 : j < 2 := hj
    rw [hslot j (by omega)]
    interval_cases j
    · rw [hc0, hv0]; rfl
    · rw [hc1, hv1]; rfl

theorem shared_prime_pair_run_witness :
    (⟨2, 2, [35, 77]⟩ : numlist).valid ∧ Nat.Prime 7 ∧ Nat.Prime 5 ∧ Nat.Prime 11 ∧
    (⟨2, 2, [35, 77]⟩ : numlist).toList = [((7 * 5 : Nat) : Int), ((7 * 11 : Nat) : Int)] ∧
    ∃ G st, fast_batchgcd ⟨2, 2, [35, 77]⟩ = some G ∧
      G.toList = [((7 : Nat) : Int), ((7 : Nat) : Int)] ∧
      factor_coprimes ⟨2, 2, [35, 77]⟩ G = some st ∧
      st.weakidx.take st.weak_count = [0, 1] ∧ st.weak_count = 2 ∧ st.weak_gcd_count = 0 ∧
      st.cplist.toList = [((min 7 5 : Nat) : Int), ((min 7 11 : Nat) : Int)] :=
  ⟨by decide, by norm_num, by norm_num, by norm_num, by decide,
    shared_prime_pair_run ⟨2, 2, [35, 77]⟩ 7 5 11 (by decide) (by norm_num) (by norm_num)
      (by norm_num) (by decide) (by decide)⟩

/-- C18. For all primes `p`, `q`, `r` with `p ≠ r` and `q ≠ r` (in particular for distinct
primes), on the three-element input `N = [p * q, p * r, q * r]` the function `fast_batchgcd`
returns `G = N`; in `factor_coprimes` every index is weak and case 2 (unresolved count `3`), the
pairwise pass resolves all three (pairwise-resolved count `3`), and the co-factor list is
`C = [min p q, min p r, min q r]`. -/
theorem triangle_run (N : numlist) (p q r : Nat) (hv : N.valid) (hp : p.Prime)
    (hq : q.Prime) (hr : r.Prime) (hpr : p ≠ r) (hqr : q ≠ r)
    (hN : N.toList = [((p * q : Nat) : Int), ((p * r : Nat) : Int), ((q * r : Nat) : Int)]) :
    ∃ G st, fast_batchgcd N = some G ∧ G.toList = N.toList ∧
      factor_coprimes N G = some st ∧ st.weakidx.take st.weak_count = [0, 1, 2] ∧
      st.weakidx_gcd.take st.weak_gcd_count = [0, 1, 2] ∧
      st.weak_count = 3 ∧ st.weak_gcd_count = 3 ∧ st.weak_gcd_success = 3 ∧
      st.cplist.toList =
        [((min p q : Nat) : Int), ((min p r : Nat) : Int), ((min q r : Nat) : Int)] := by
  have hlen : N.len = 3 := by
    rw [← toList_length (valid_len_le hv), hN]
    rfl
  have hn0 : N.num.getD 0 0 = ((p * q : Nat) : Int) := num_getD_of_toList (by rw [hN]; rfl)
  have hn1 : N.num.getD 1 0 = ((p * r : Nat) : Int) := num_getD_of_toList (by rw [hN]; rfl)
  have hn2 : N.num.getD 2 0 = ((q * r : Nat) : Int) := num_getD_of_toList (by rw [hN]; rfl)
  have hpq0 : p * q ≠ 0 := Nat.mul_ne_zero hp.pos.ne' hq.pos.ne'
  have hpr0 : p * r ≠ 0 := Nat.mul_ne_zero hp.pos.ne' hr.pos.ne'
  have hqr0 : q * r ≠ 0 := Nat.mul_ne_zero hq.pos.ne' hr.pos.ne'
  obtain ⟨G, st, e, gv, gl, hG, e2, w1, w2, c1, c2, s, cl, hslot⟩ := full_run N hv
    (by
      rw [hN]
      intro x hx
      simp only [List.mem_cons, List.mem_singleton, List.not_mem_nil, or_false] at hx
      rcases hx with rfl | rfl | rfl
      · exact_mod_cast hpq0
      · exact_mod_cast hpr0
      · exact_mod_cast hqr0)
    (by omega)
  have hg0 : G.num.getD 0 0 = N.num.getD 0 0 := by
    rw [hG 0 (by omega), hn0, hN]
    simp only [List.eraseIdx_cons_zero, List.prod_cons, List.prod_nil, mul_one]
    rw [gcd_prod_others (p * q) (p * r) (q * r) (r * r) (by ring)]
  have hg1 : G.num.getD 1 0 = N.num.getD 1 0 := by
    rw [hG 1 (by omega), hn1, hN]
    simp only [List.eraseIdx_cons_succ, List.eraseIdx_cons_zero, List.prod_cons, List.prod_nil,
      mul_one]
    rw [gcd_prod_others (p * r) (p * q) (q * r) (q * q) (by ring)]
  have hg2 : G.num.getD 2 0 = N.num.getD 2 0 := by
    rw [hG 2 (by omega), hn2, hN]
    simp only [List.eraseIdx_cons_succ, List.eraseIdx_cons_zero, List.prod_cons, List.prod_nil,
      mul_one, List.eraseIdx_nil]
    rw [gcd_prod_others (q * r) (p * q) (p * r) (p * p) (by ring)]
  have h1 : ∀ {a b : Nat}, a.Prime → b.Prime → ((a * b : Nat) : Int) ≠ 1 := by
    intro a b ha hb h
    have h2 : a * b = 1 := by exact_mod_cast h
    exact ha.ne_one (Nat.eq_one_of_mul_eq_one_right h2)
  have hw0 : is_weak G 0 = true := is_weak_of_ne (by rw [hg0, hn0]; exact h1 hp hq)
  have hw1 : is_weak G 1 = true := is_weak_of_ne (by rw [hg1, hn1]; exact h1 hp hr)
  have hw2 : is_weak G 2 = true := is_weak_of_ne (by rw [hg2, hn2]; exact h1 hq hr)
  have hc0 : is_case2 N G 0 = true := is_case2_of (by rw [hg0, hn0]; exact h1 hp hq) hg0
  have hc1 : is_case2 N G 1 = true := is_case2_of (by rw [hg1, hn1]; exact h1 hp hr) hg1
  have hc2 : is_case2 N G 2 = true := is_case2_of (by rw [hg2, hn2]; exact h1 hq hr) hg2
  have hweak : weak_list N G = [0, 1, 2] := by
    unfold weak_list
    rw [hlen, range_three]
    simp only [List.filter, hw0, hw1, hw2]
  have hcase : case2_list N G = [0, 1, 2] := by
    unfold case2_list
    rw [hlen, range_three]
    simp only [List.filter, hc0, hc1, hc2]
  have hp1 : (p : Int) ≠ 1 := by exact_mod_cast hp.ne_one
  have hq1 : (q : Int) ≠ 1 := by exact_mod_cast hq.ne_one
  have e10 : mpz_gcd (N.num.getD 1 0) (N.num.getD 0 0) = (p : Int) := by
    rw [hn0, hn1, mpz_gcd_cast, gcd_shared_prime p hr hq (Ne.symm hqr)]
  have e01 : mpz_gcd (N.num.getD 0 0) (N.num.getD 1 0) = (p : Int) := by
    rw [hn0, hn1, mpz_gcd_cast, gcd_shared_prime p hq hr hqr]
  have e02 : mpz_gcd (N.num.getD 0 0) (N.num.getD 2 0) = (q : Int) := by
    rw [hn0, hn2, mpz_gcd_cast, Nat.mul_comm p q, gcd_shared_prime q hp hr hpr]
  have hf0 : find_split N 0 [0, 1, 2] = some ((min p q : Nat) : Int) := by
    rw [find_split_skip, find_split_hit N [2] (by omega) (by rw [e10]; exact hp1)
      (by rw [e10, hn0]; exact_mod_cast prime_ne_mul hp hq), e10, hn0]
    exact congrArg some
      (lesser_of_semiprime hp hq (dvd_mul_right p q) hp.ne_one (prime_ne_mul hp hq))
  have hf1 : find_split N 1 [0, 1, 2] = some ((min p r : Nat) : Int) := by
    rw [find_split_hit N [1, 2] (by omega) (by rw [e01]; exact hp1)
      (by rw [e01, hn1]; exact_mod_cast prime_ne_mul hp hr), e01, hn1]
    exact congrArg some
      (lesser_of_semiprime hp hr (dvd_mul_right p r) hp.ne_one (prime_ne_mul hp hr))
  have hf2 : find_split N 2 [0, 1, 2] = some ((min q r : Nat) : Int) := by
    rw [find_split_hit N [1, 2] (by omega) (by rw [e02]; exact hq1)
      (by rw [e02, hn2]; exact_mod_cast prime_ne_mul hq hr), e02, hn2]
    exact congrArg some
      (lesser_of_semiprime hq hr (dvd_mul_right q r) hq.ne_one (prime_ne_mul hq hr))
  refine ⟨G, st, e, ?_, e2, by rw [w1, hweak], by rw [c1, hcase], by rw [w2, hweak]; rfl,
    by rw [c2, hcase]; rfl, ?_, ?_⟩
  · apply toList_eq_of_slots (by rw [gl, hlen, hN]; rfl)
    intro j hj
    have hj3 : j < 3 := by
      rw [hN] at hj
      exact hj
    rw [toList_eq_getD (valid_len_le gv) (by omega), toList_eq_getD (valid_len_le hv) (by omega)]
    interval_cases j
    · rw [hg0]
    · rw [hg1]
    · rw [hg2]
  · rw [s, hcase, hweak]
    simp only [List.filter, hf0, hf1, hf2, Option.isSome_some]
    rfl
  · apply toList_eq_of_slots (by rw [cl, hlen]; rfl)
    intro j hj
    have hj3 : j < 3 := hj
    rw [hslot j (by omega), hweak]
    interval_cases j
    · rw [if_pos hc0, hf0]; rfl
    · rw [if_pos hc1, hf1]; rfl
    · rw [if_pos hc2, hf2]; rfl

theorem triangle_run_witness :
    (⟨3, 4, [15, 21, 35, 0]⟩ : numlist).valid ∧ Nat.Prime 3 ∧ Nat.Prime 5 ∧ Nat.Prime 7 ∧
    (⟨3, 4, [15, 21, 35, 0]⟩ : numlist).toList =
      [((3 * 5 : Nat) : Int), ((3 * 7 : Nat) : Int), ((5 * 7 : Nat) : Int)] ∧
    ∃ G st, fast_batchgcd ⟨3, 4, [15, 21, 35, 0]⟩ = some G ∧
      G.toList = (⟨3, 4, [15, 21, 35, 0]⟩ : numlist).toList ∧
      factor_coprimes ⟨3, 4, [15, 21, 35, 0]⟩ G = some st ∧
      st.weakidx.take st.weak_count = [0, 1, 2] ∧
      st.weakidx_gcd.take st.weak_gcd_count = [0, 1, 2] ∧
      st.weak_count = 3 ∧ st.weak_gcd_count = 3 ∧ st.weak_gcd_success = 3 ∧
      st.cplist.toList =
        [((min 3 5 : Nat) : Int), ((min 3 7 : Nat) : Int), ((min 5 7 : Nat) : Int)] :=
  ⟨by decide, by norm_num, by norm_num, by norm_num, by decide,
    triangle_run ⟨3, 4, [15, 21, 35, 0]⟩ 3 5 7 (by decide) (by norm_num) (by norm_num)
      (by norm_num) (by decide) (by decide) (by decide)⟩

/-- C19. The predicate `alloc ≥ max 1 len` holds for every list returned by `makenumlist len`
(where in fact `alloc = max 1 len`, the logical length is `len` and every element is `0`)
and is preserved by every `push_numlist` on a well-formed list. -/
theorem numlist_alloc_invariant (len : Nat) (L : numlist) (x : Int) (hv : L.valid)
    (hp : max 1 L.len ≤ L.alloc) :
    ((makenumlist len).alloc = max 1 len ∧ (makenumlist len).len = len ∧
      (makenumlist len).num = List.replicate (max 1 len) 0 ∧
      max 1 (makenumlist len).len ≤ (makenumlist len).alloc) ∧
    ∃ L1, push_numlist L x = some L1 ∧ max 1 L1.len ≤ L1.alloc := by
  have hmk : (if len = 0 then 1 else len) = max 1 len := by
    by_cases h : len = 0
    · rw [if_pos h, h]
      rfl
    · rw [if_neg h, max_eq_right (by omega)]
  refine ⟨?_, ?_⟩
  · unfold makenumlist
    simp only [hmk]
    exact ⟨trivial, trivial, trivial, le_refl _⟩
  · have hle := hv.1
    obtain ⟨L1, e, l1, a1, _, _, _⟩ := push_numlist_eq L x hv (by omega)
    refine ⟨L1, e, ?_⟩
    rw [l1, a1]
    by_cases hfull : L.len = L.alloc
    · rw [if_pos hfull]
      omega
    · rw [if_neg hfull]
      omega

theorem numlist_alloc_invariant_witness :
    (⟨2, 2, [15, 77]⟩ : numlist).valid ∧
    max 1 (⟨2, 2, [15, 77]⟩ : numlist).len ≤ (⟨2, 2, [15, 77]⟩ : numlist).alloc ∧
    (((makenumlist 0).alloc = max 1 0 ∧ (makenumlist 0).len = 0 ∧
      (makenumlist 0).num = List.replicate (max 1 0) 0 ∧
      max 1 (makenumlist 0).len ≤ (makenumlist 0).alloc) ∧
    ∃ L1, push_numlist ⟨2, 2, [15, 77]⟩ 143 = some L1 ∧ max 1 L1.len ≤ L1.alloc) :=
  ⟨by decide, by decide,
    numlist_alloc_invariant 0 ⟨2, 2, [15, 77]⟩ 143 (by decide) (by decide)⟩

/-- C20. For every well-formed list `L` satisfying `alloc ≥ max 1 len` and every integer `x`,
`push_numlist L x` yields a list of length `L.len + 1` whose element at index `L.len` is `x`
and whose elements at indices below `L.len` are unchanged; `alloc` is doubled exactly when
`L.len = L.alloc` before the push and is otherwise unchanged. -/
theorem push_numlist_post (L : numlist) (x : Int) (hv : L.valid)
    (hp : max 1 L.len ≤ L.alloc) :
    ∃ L1, push_numlist L x = some L1 ∧ L1.len = L.len + 1 ∧
      L1.toList[L.len]? = some x ∧ (∀ j, j < L.len → L1.toList[j]? = L.toList[j]?) ∧
      (L1.alloc = 2 * L.alloc ↔ L.len = L.alloc) ∧
      (L.len ≠ L.alloc → L1.alloc = L.alloc) := by
  obtain ⟨L1, e, l1, a1, _, hx, hkeep⟩ := push_numlist_eq L x hv (by omega)
  refine ⟨L1, e, l1, ?_, ?_, ?_, ?_⟩
  · rw [toList_getElem?_lt (by omega)]
    exact hx
  · intro j hj
    rw [toList_getElem?_lt (by omega), toList_getElem?_lt hj]
    exact hkeep j hj
  · rw [a1]
    by_cases hfull : L.len = L.alloc
    · rw [if_pos hfull]
      exact ⟨fun _ => hfull, fun _ => rfl⟩
    · rw [if_neg hfull]
      constructor
      · intro h
        omega
      · intro h
        exact absurd h hfull
  · intro hne
    rw [a1, if_neg hne]

theorem push_numlist_post_witness :
    (⟨2, 2, [15, 77]⟩ : numlist).valid ∧
    max 1 (⟨2, 2, [15, 77]⟩ : numlist).len ≤ (⟨2, 2, [15, 77]⟩ : numlist).alloc ∧
    ∃ L1, push_numlist ⟨2, 2, [15, 77]⟩ 143 = some L1 ∧
      L1.len = (⟨2, 2, [15, 77]⟩ : numlist).len + 1 ∧
      L1.toList[(⟨2, 2, [15, 77]⟩ : numlist).len]? = some 143 ∧
      (∀ j, j < (⟨2, 2, [15, 77]⟩ : numlist).len →
        L1.toList[j]? = (⟨2, 2, [15, 77]⟩ : numlist).toList[j]?) ∧
      (L1.alloc = 2 * (⟨2, 2, [15, 77]⟩ : numlist).alloc ↔
        (⟨2, 2, [15, 77]⟩ : numlist).len = (⟨2, 2, [15, 77]⟩ : numlist).alloc) ∧
      ((⟨2, 2, [15, 77]⟩ : numlist).len ≠ (⟨2, 2, [15, 77]⟩ : numlist).alloc →
        L1.alloc = (⟨2, 2, [15, 77]⟩ : numlist).alloc) :=
  ⟨by decide, by decide, push_numlist_post ⟨2, 2, [15, 77]⟩ 143 (by decide) (by decide)⟩

end BatchGcd

namespace BatchGcd

/-! ## Subtree products -/

/-- The product of a window of a list, as a product over an interval of indices. -/
theorem slice_prod_eq (xs : List Int) (a m : Nat) :
    ((xs.drop a).take m).prod = ∏ j ∈ Finset.Ico a (min (a + m) xs.length), xs.getD j 0 := by
  induction m with
  | zero =>
    rw [List.take_zero, List.prod_nil, Finset.Ico_eq_empty_of_le (by omega), Finset.prod_empty]
  | succ m ih =>
    rw [List.take_succ, List.prod_append, ih, List.getElem?_drop]
    by_cases h : a + m < xs.length
    · rw [List.getElem?_eq_getElem h, Option.toList_some, List.prod_singleton,
        show min (a + (m + 1)) xs.length = a + m + 1 by omega,
        show min (a + m) xs.length = a + m by omega,
        Finset.prod_Ico_succ_top (by omega), List.getD_eq_getElem _ _ h]
    · rw [List.getElem?_eq_none (by omega), Option.toList_none, List.prod_nil, mul_one,
        show min (a + (m + 1)) xs.length = min (a + m) xs.length by omega]

/-- Entry `i` of the `k`-th iterate of `pair_products` is the product of the `i`-th window of
`2 ^ k` consecutive elements. -/
theorem pair_products_iterate_getElem? (xs : List Int) :
    ∀ (k i : Nat), i < (pair_products^[k] xs).length →
      (pair_products^[k] xs)[i]? = some (((xs.drop (i * 2 ^ k)).take (2 ^ k)).prod) := by
  intro k
  induction k with
  | zero =>
    intro i hi
    have hi2 : i < xs.length := hi
    rw [pow_zero, mul_one, Function.iterate_zero, id_eq, List.take_one, List.head?_drop,
      List.getElem?_eq_getElem hi2, Option.toList_some, List.prod_singleton]
  | succ k ih =>
    intro i hi
    rw [Function.iterate_succ_apply'] at hi ⊢
    rw [pair_products_length] at hi
    rw [pair_products_getElem?]
    have hsplit : ((xs.drop (i * 2 ^ (k + 1))).take (2 ^ (k + 1))).prod =
        ((xs.drop (i * 2 * 2 ^ k)).take (2 ^ k)).prod *
          ((xs.drop ((i * 2 + 1) * 2 ^ k)).take (2 ^ k)).prod := by
      rw [show 2 ^ (k + 1) = 2 ^ k + 2 ^ k by rw [pow_succ]; omega, List.take_add,
        List.prod_append, List.drop_drop,
        show i * (2 ^ k + 2 ^ k) = i * 2 * 2 ^ k by ring,
        show i * 2 * 2 ^ k + 2 ^ k = (i * 2 + 1) * 2 ^ k by ring]
    by_cases h1 : i * 2 + 1 < (pair_products^[k] xs).length
    · rw [if_pos h1, getD_of_getElem? (ih (i * 2) (by omega)), getD_of_getElem? (ih (i * 2 + 1) h1),
        hsplit]
    · have h2 : i * 2 < (pair_products^[k] xs).length := by omega
      rw [if_neg h1, if_pos h2, getD_of_getElem? (ih (i * 2) h2), hsplit]
      have hle : xs.length ≤ (i * 2 + 1) * 2 ^ k := by
        rw [← halve_iterate_le_iff, ← pair_products_iterate_length]
        omega
      rw [List.drop_eq_nil_of_le hle, List.take_nil, List.prod_nil, mul_one]

/-! ## Prefixes of a loop -/

/-- With a unit step the result of a loop does not depend on the fuel, once there is enough
of it. -/
theorem for_loop_fuel {σ : Type} {B : Nat} {F : Nat → σ → Option σ} :
    ∀ (f1 f2 i : Nat) (st : σ), B ≤ i + f1 → B ≤ i + f2 →
      for_loop B 1 F f1 i st = for_loop B 1 F f2 i st := by
  intro f1
  induction f1 with
  | zero =>
    intro f2 i st h1 _
    cases f2 with
    | zero => rfl
    | succ f2 =>
      unfold for_loop
      rw [if_neg (by omega), if_neg (by omega)]
  | succ f1 ih =>
    intro f2 i st h1 h2
    by_cases hi : i < B
    · cases f2 with
      | zero => omega
      | succ f2 =>
        rw [for_loop, for_loop, if_pos hi, if_pos hi]
        congr 1
        funext st1
        exact ih f2 (i + 1) st1 (by omega) (by omega)
    · cases f2 with
      | zero =>
        unfold for_loop
        rw [if_neg hi, if_neg hi]
      | succ f2 =>
        rw [for_loop, for_loop, if_neg hi, if_neg hi]

/-- A loop up to `B` is the loop up to an intermediate bound `m` followed by the loop from
`m` to `B`. -/
theorem for_loop_split {σ : Type} {B m : Nat} {F : Nat → σ → Option σ} (hm : m ≤ B) :
    ∀ (fuel i : Nat) (st : σ), i ≤ m → B ≤ i + fuel →
      for_loop B 1 F fuel i st =
        (for_loop m 1 F fuel i st).bind (for_loop B 1 F fuel m) := by
  intro fuel
  induction fuel with
  | zero =>
    intro i st him hB
    have e : i = m := by omega
    subst e
    have hlt : ¬ i < i := lt_irrefl i
    rw [show for_loop i 1 F 0 i st = some st by unfold for_loop; rw [if_neg hlt]]
    rfl
  | succ fuel ih =>
    intro i st him hB
    by_cases hi : i < m
    · rw [for_loop, for_loop, if_pos (by omega), if_pos hi, Option.bind_assoc]
      congr 1
      funext st1
      rw [ih (i + 1) st1 (by omega) (by omega)]
      congr 1
      funext st2
      exact for_loop_fuel fuel (fuel + 1) m st2 (by omega) (by omega)
    · have e : i = m := by omega
      subst e
      rw [show for_loop i 1 F (fuel + 1) i st = some st by rw [for_loop, if_neg hi]]
      rfl

/-! ## The states of the descent loop -/

/-- The remainder list after each round of the descent loop of `fast_batchgcd`: after the
round `up`, which works on the level `X = level[height - up]`, the list holds `P mod x^2` for
every `x` of `X`, where `P` is the product of the inputs; the rest of the loop continues from
this list. -/
theorem descent_prefix (N : numlist) (hv : N.valid) (hnz : ∀ x ∈ N.toList, x ≠ 0) :
    ∃ T R0, producttree N = some T ∧ T.height = Nat.clog 2 N.len + 1 ∧
      T.level.length = T.height ∧ T.level[size_sub T.height 1]? = some R0 ∧
      T.level[T.height - 1]? = some R0 ∧ (1 ≤ N.len → R0.toList = [N.toList.prod]) ∧
      ∀ up, 2 ≤ up → up ≤ T.height → ∃ X R, T.level[T.height - up]? = some X ∧ X.valid ∧
        X.toList = pair_products^[T.height - up] N.toList ∧ (T.height - up = 0 → X = N) ∧
        for_loop (up + 1) 1 (fast_batchgcd_body T) (up + 1) 2 R0 = some R ∧
        for_loop (T.height + 1) 1 (fast_batchgcd_body T) (T.height + 1) 2 R0 =
          for_loop (T.height + 1) 1 (fast_batchgcd_body T) (T.height + 1) (up + 1) R ∧
        R.valid ∧ R.toList = X.toList.map fun x => N.toList.prod % (x * x) := by
  obtain ⟨T, hT, hh, hlen, hlev⟩ := producttree_levels N hv
  have hNl := toList_length (valid_len_le hv)
  have hlt := valid_len_lt hv
  have hclog : Nat.clog 2 N.len ≤ N.len := by
    have h1 : N.len ≤ 2 ^ N.len := Nat.le_of_lt (Nat.lt_two_pow N.len)
    exact (Nat.le_pow_iff_clog_le (by norm_num)).mp h1
  have hs1 : size_sub T.height 1 = T.height - 1 := size_sub_eq (by omega) (by omega)
  obtain ⟨R0, hR0, hR0v, hR0l, hR0N⟩ := hlev (T.height - 1) (by omega)
  have htop : 1 ≤ N.len → R0.toList = [N.toList.prod] := by
    intro h1
    rw [hR0l, hh]
    have := pair_products_top N.toList (by omega)
    rw [hNl] at this
    simpa using this
  refine ⟨T, R0, hT, hh, hlen, by rw [hs1]; exact hR0, hR0, htop, ?_⟩
  intro up0 hup0 hup0H
  have hN2 : 2 ≤ N.len := (clog_two_pos_iff N.len).mp (by omega)
  have hloop := for_loop_inv
    (fun up (R : numlist) => 2 ≤ up ∧ R.valid ∧
      ((up = 2 ∧ R = R0) ∨
        (2 < up ∧ R.toList =
          (pair_products^[T.height + 1 - up] N.toList).map fun x => N.toList.prod % (x * x))))
    (B := up0 + 1) (F := fast_batchgcd_body T)
    (fun up R hup hI => by
      obtain ⟨h2, hRv, hcase⟩ := hI
      have hsub : size_sub T.height up = T.height - up := size_sub_eq (by omega) (by omega)
      obtain ⟨X, hX, hXv, hXl, _⟩ := hlev (T.height - up) (by omega)
      have hXnz : ∀ x ∈ X.toList, x ≠ 0 := by
        rw [hXl]
        exact pair_products_iterate_ne_zero _ hnz _
      have hpp : pair_products X.toList = pair_products^[T.height + 1 - up] N.toList := by
        rw [hXl, show T.height + 1 - up = (T.height - up) + 1 by omega,
          Function.iterate_succ_apply']
      have hc : CongSq N.toList.prod (pair_products X.toList) R.toList := by
        rcases hcase with ⟨hup2, hR⟩ | ⟨_, hR⟩
        · have hpp2 : pair_products X.toList = [N.toList.prod] := by
            have e : T.height + 1 - up = T.height - 1 := by omega
            rw [hpp, ← htop (by omega), hR0l, e]
          rw [hpp2, hR, htop (by omega)]
          exact CongSq_self _
        · rw [hpp, hR]
          exact CongSq_map _ _
      obtain ⟨n1, e1, v1, t1⟩ := threaded_listsqmod_fresh hXv hRv hXnz hc
      refine ⟨n1, ?_, by omega, v1, Or.inr ⟨by omega, ?_⟩⟩
      · unfold fast_batchgcd_body
        rw [hsub, hX]
        simp only [Option.some_bind, e1, Option.map_some']
      · have e : T.height + 1 - (up + 1) = T.height - up := by omega
        rw [t1, hXl, e])
    (up0 + 1) 2 R0 (by omega) (by omega) ⟨le_refl 2, hR0v, Or.inl ⟨rfl, rfl⟩⟩
  obtain ⟨R, eR, _, hRv, hcase⟩ := hloop
  obtain ⟨X, hX, hXv, hXl, hXN⟩ := hlev (T.height - up0) (by omega)
  refine ⟨X, R, hX, hXv, hXl, hXN, eR, ?_, hRv, ?_⟩
  · rw [for_loop_split (show up0 + 1 ≤ T.height + 1 by omega) (T.height + 1) 2 R0 (by omega)
      (by omega),
      for_loop_fuel (T.height + 1) (up0 + 1) 2 R0 (by omega) (by omega), eR]
    rfl
  · rcases hcase with ⟨hup2, _⟩ | ⟨_, hR⟩
    · omega
    · rw [hR, hXl, show T.height + 1 - (up0 + 1) = T.height - up0 by omega]

/-! ## The first split of the pairwise pass -/

/-- The pairwise pass finds no split exactly when every candidate other than `ig` has a gcd
with `N[ig]` that is `1` or `N[ig]`. -/
theorem find_split_none_iff (N : numlist) (ig : Nat) (l : List Nat) :
    find_split N ig l = none ↔
      ∀ iw ∈ l, iw ≠ ig → mpz_gcd (N.num.getD iw 0) (N.num.getD ig 0) = 1 ∨
        mpz_gcd (N.num.getD iw 0) (N.num.getD ig 0) = N.num.getD ig 0 := by
  induction l with
  | nil =>
    constructor
    · intro _ iw hiw
      exact absurd hiw (List.not_mem_nil iw)
    · intro _
      rfl
  | cons a rest ih =>
    by_cases ha : a = ig
    · subst ha
      rw [find_split_skip, ih]
      constructor
      · intro h iw hiw hne
        rcases List.mem_cons.mp hiw with e | hm
        · exact absurd e hne
        · exact h iw hm hne
      · intro h iw hiw hne
        exact h iw (List.mem_cons_of_mem _ hiw) hne
    · by_cases hg : mpz_gcd (N.num.getD a 0) (N.num.getD ig 0) = 1 ∨
          mpz_gcd (N.num.getD a 0) (N.num.getD ig 0) = N.num.getD ig 0
      · rw [find_split_miss N rest ha hg, ih]
        constructor
        · intro h iw hiw hne
          rcases List.mem_cons.mp hiw with e | hm
          · rw [e]
            exact hg
          · exact h iw hm hne
        · intro h iw hiw hne
          exact h iw (List.mem_cons_of_mem _ hiw) hne
      · have hg2 := not_or.mp hg
        rw [find_split_hit N rest ha hg2.1 hg2.2]
        constructor
        · intro h
          exact absurd h (by simp)
        · intro h
          exact absurd (h a (List.mem_cons_self _ _) ha) hg

/-- The pairwise pass takes the split of the first candidate that gives one. -/
theorem find_split_first (N : numlist) {ig iw : Nat} (l1 l2 : List Nat)
    (hbefore : ∀ j ∈ l1, j ≠ ig → mpz_gcd (N.num.getD j 0) (N.num.getD ig 0) = 1 ∨
      mpz_gcd (N.num.getD j 0) (N.num.getD ig 0) = N.num.getD ig 0)
    (hne : iw ≠ ig) (h1 : mpz_gcd (N.num.getD iw 0) (N.num.getD ig 0) ≠ 1)
    (h2 : mpz_gcd (N.num.getD iw 0) (N.num.getD ig 0) ≠ N.num.getD ig 0) :
    find_split N ig (l1 ++ iw :: l2) =
      some (lesser (mpz_gcd (N.num.getD iw 0) (N.num.getD ig 0))
        (Int.fdiv (N.num.getD ig 0) (mpz_gcd (N.num.getD iw 0) (N.num.getD ig 0)))) := by
  induction l1 with
  | nil => exact find_split_hit N l2 hne h1 h2
  | cons a rest ih =>
    have hrest := ih (fun j hj => hbefore j (List.mem_cons_of_mem _ hj))
    rw [List.cons_append]
    by_cases ha : a = ig
    · subst ha
      rw [find_split_skip, hrest]
    · rw [find_split_miss N _ ha (hbefore a (List.mem_cons_self _ _) ha), hrest]

/-- The weak indices are stored in increasing order: those below a weak index `iw` come
first, then `iw`. -/
theorem weak_list_split (N G : numlist) {iw : Nat} (hi : iw < N.len)
    (hw : is_weak G iw = true) :
    ∃ l2, weak_list N G = (List.range iw).filter (is_weak G) ++ iw :: l2 := by
  unfold weak_list
  have e : List.range N.len = List.range iw ++ iw :: List.range' (iw + 1) (N.len - iw - 1) := by
    rw [List.range_eq_range', List.range_eq_range',
      show N.len = (N.len - iw - 1 + 1) + iw by omega, ← List.range'_append_1, Nat.zero_add,
      List.range'_succ]
    rw [show N.len - iw - 1 + 1 + iw - iw - 1 = N.len - iw - 1 by omega]
  rw [e, List.filter_append, List.filter_cons_of_pos hw]
  exact ⟨_, rfl⟩

/-! ## The indices visited by a strided loop -/

theorem record_acc (B S : Nat) :
    ∀ (fuel i : Nat) (acc : List Nat),
      for_loop B S (fun i acc => some (acc ++ [i])) fuel i acc =
        (for_loop B S (fun i acc => some (acc ++ [i])) fuel i []).map fun l => acc ++ l := by
  intro fuel
  induction fuel with
  | zero =>
    intro i acc
    unfold for_loop
    by_cases h : i < B
    · rw [if_pos h, if_pos h]
      rfl
    · rw [if_neg h, if_neg h, Option.map_some', List.append_nil]
  | succ fuel ih =>
    intro i acc
    rw [for_loop, for_loop]
    by_cases h : i < B
    · rw [if_pos h, if_pos h, Option.some_bind, Option.some_bind, ih (i + S) (acc ++ [i]),
        ih (i + S) ([] ++ [i]), Option.map_map]
      congr 1
      funext l
      simp only [Function.comp_apply, List.nil_append, List.append_assoc]
    · rw [if_neg h, if_neg h, Option.map_some', List.append_nil]

/-- A loop runs its body at the recorded indices, one after the other. -/
theorem for_loop_eq_foldlM {σ : Type} (B S : Nat) (F : Nat → σ → Option σ) :
    ∀ (fuel i : Nat) (st : σ),
      for_loop B S F fuel i st =
        (for_loop B S (fun i acc => some (acc ++ [i])) fuel i []).bind
          fun idx => idx.foldlM (fun st k => F k st) st := by
  intro fuel
  induction fuel with
  | zero =>
    intro i st
    unfold for_loop
    by_cases h : i < B
    · rw [if_pos h, if_pos h]
      rfl
    · rw [if_neg h, if_neg h]
      rfl
  | succ fuel ih =>
    intro i st
    rw [for_loop, for_loop]
    by_cases h : i < B
    · rw [if_pos h, if_pos h, Option.some_bind, record_acc, List.nil_append]
      cases hF : F i st with
      | none =>
        rw [Option.none_bind]
        cases for_loop B S (fun i acc => some (acc ++ [i])) fuel (i + S) [] with
        | none => rfl
        | some idx =>
          rw [Option.map_some', Option.some_bind, List.singleton_append, List.foldlM_cons, hF]
          rfl
      | some st1 =>
        rw [Option.some_bind, ih (i + S) st1]
        cases for_loop B S (fun i acc => some (acc ++ [i])) fuel (i + S) [] with
        | none => rfl
        | some idx =>
          rw [Option.map_some', Option.some_bind, Option.some_bind, List.singleton_append,
            List.foldlM_cons, hF]
          rfl
    · rw [if_neg h, if_neg h]
      rfl

theorem record_mem {B S : Nat} (hS : 1 ≤ S) :
    ∀ (fuel i : Nat), B ≤ i + fuel →
      ∃ idx, for_loop B S (fun i acc => some (acc ++ [i])) fuel i [] = some idx ∧
        ∀ j, j ∈ idx ↔ i ≤ j ∧ j < B ∧ S ∣ (j - i) := by
  intro fuel
  induction fuel with
  | zero =>
    intro i hf
    refine ⟨[], ?_, ?_⟩
    · unfold for_loop
      rw [if_neg (by omega)]
    · intro j
      constructor
      · intro h
        exact absurd h (List.not_mem_nil j)
      · rintro ⟨h1, h2, _⟩
        omega
  | succ fuel ih =>
    intro i hf
    by_cases hi : i < B
    · obtain ⟨idx, e, hmem⟩ := ih (i + S) (by omega)
      refine ⟨i :: idx, ?_, ?_⟩
      · rw [for_loop, if_pos hi, Option.some_bind, record_acc, e]
        rfl
      · intro j
        rw [List.mem_cons, hmem]
        constructor
        · rintro (h | ⟨c1, c2, c3⟩)
          · subst h
            exact ⟨le_refl _, hi, by simp⟩
          · refine ⟨by omega, c2, ?_⟩
            have : j - i = (j - (i + S)) + S := by omega
            rw [this]
            exact Dvd.dvd.add c3 (dvd_refl S)
        · rintro ⟨c1, c2, c3⟩
          by_cases hij : j = i
          · exact Or.inl hij
          · right
            have hpos : 0 < j - i := by omega
            have hge : S ≤ j - i := Nat.le_of_dvd hpos c3
            refine ⟨by omega, c2, ?_⟩
            have := Nat.dvd_sub' c3 (dvd_refl S)
            rwa [Nat.sub_sub] at this
    · refine ⟨[], ?_, ?_⟩
      · rw [for_loop, if_neg hi]
      · intro j
        constructor
        · intro h
          exact absurd h (List.not_mem_nil j)
        · rintro ⟨h1, h2, _⟩
          omega

/-- The indices a strided worker visits. -/
theorem loop_indices_mem {B S : Nat} (hS : 1 ≤ S) (t : Nat) :
    ∃ idx, loop_indices B S t = some idx ∧ ∀ j, j ∈ idx ↔ t ≤ j ∧ j < B ∧ S ∣ (j - t) :=
  record_mem hS B t (by omega)

/-- A loop as the sequence of its body at the indices it visits. -/
theorem for_loop_indices {σ : Type} (B S : Nat) (F : Nat → σ → Option σ) (t : Nat) (st : σ) :
    for_loop B S F B t st =
      (loop_indices B S t).bind fun idx => idx.foldlM (fun st k => F k st) st :=
  for_loop_eq_foldlM B S F B t st

/-- Below a stride `T ≥ 1` an index belongs to the stride of one start only. -/
theorem stride_unique {T j t1 t2 : Nat} (h1 : t1 < T) (h2 : t2 < T) (l1 : t1 ≤ j)
    (l2 : t2 ≤ j) (d1 : T ∣ (j - t1)) (d2 : T ∣ (j - t2)) : t1 = t2 := by
  have e1 := (Nat.modEq_iff_dvd' l1).mpr d1
  have e2 := (Nat.modEq_iff_dvd' l2).mpr d2
  have e3 : t1 % T = t2 % T := e1.trans e2.symm
  rwa [Nat.mod_eq_of_lt h1, Nat.mod_eq_of_lt h2] at e3

theorem wr_other {d d1 : numlist} {i : Nat} {v : Int} (h : d.wr i v = some d1) (j : Nat)
    (hj : j ≠ i) : d1.num[j]? = d.num[j]? := by
  unfold numlist.wr at h
  by_cases hi : i < d.num.length
  · rw [if_pos hi] at h
    rw [← Option.some.inj h]
    exact List.getElem?_set_ne (Ne.symm hj)
  · rw [if_neg hi] at h
    exact absurd h (by simp)

/-! ## Division by zero on an input holding a zero -/

theorem pair_products_zero_mem (l : List Int) (h : (0 : Int) ∈ l) :
    (0 : Int) ∈ pair_products l := by
  induction l using pair_products.induct with
  | case1 a b rest ih =>
    simp only [pair_products, List.mem_cons] at h ⊢
    rcases h with h | h | h
    · left
      rw [← h, zero_mul]
    · left
      rw [← h, mul_zero]
    · right
      exact ih h
  | case2 a => simpa [pair_products] using h
  | case3 => simp at h

theorem pair_products_iterate_zero_mem (l : List Int) (h : (0 : Int) ∈ l) (k : Nat) :
    (0 : Int) ∈ pair_products^[k] l := by
  induction k with
  | zero => simpa using h
  | succ k ih =>
    rw [Function.iterate_succ_apply']
    exact pair_products_zero_mem _ ih

/-- A sequence of steps fails as soon as it holds a step that fails on every state. -/
theorem foldlM_none_of_mem {σ ι : Type} (f : σ → ι → Option σ) (a : ι)
    (ha : ∀ st, f st a = none) :
    ∀ (l : List ι) (st : σ), a ∈ l → l.foldlM f st = none := by
  intro l
  induction l with
  | nil =>
    intro st h
    exact absurd h (List.not_mem_nil a)
  | cons b rest ih =>
    intro st h
    rw [List.foldlM_cons]
    cases hb : f st b with
    | none => rfl
    | some st1 =>
      rcases List.mem_cons.mp h with e | hm
      · rw [← e, ha st] at hb
        exact absurd hb (by simp)
      · exact ih st1 hm

/-- The square-and-reduce kernel divides by zero when its level `X` holds a zero. -/
theorem threaded_listsqmod_zero {X R : numlist} {i : Nat} (hi : i < X.len)
    (hX : X.len ≤ X.num.length) (h0 : X.num.getD i 0 = 0) (nR : numlist) :
    threaded_listsqmod X R nR 4 = none := by
  have hslot : ∀ d : numlist, listsqmod_slot X R i d = none := by
    intro d
    unfold listsqmod_slot
    rw [rd_eq_getD (by omega), h0, Option.some_bind]
    cases R.rd (i / 2) with
    | none => rfl
    | some r =>
      rw [Option.some_bind]
      unfold mpz_mod mpz_mul
      rw [if_pos (mul_zero 0)]
      rfl
  obtain ⟨t, ht, c1, c2⟩ := stride_cover (T := 4) (j := i) (by norm_num)
  have hworker : ∀ d : numlist,
      for_loop X.len 4 (listsqmod_slot X R) X.len t d = none := by
    intro d
    rw [for_loop_indices]
    obtain ⟨idx, e, hmem⟩ := loop_indices_mem (B := X.len) (S := 4) (by norm_num) t
    rw [e, Option.some_bind]
    exact foldlM_none_of_mem (fun st k => listsqmod_slot X R k st) i hslot idx d
      ((hmem i).mpr ⟨c1, hi, c2⟩)
  unfold threaded_listsqmod
  rw [if_neg (by norm_num), sqmod_workers,
    foldlM_none_of_mem (fun d t => for_loop X.len 4 (listsqmod_slot X R) X.len t d) t hworker
      (List.range 4) nR ht]
  rfl

/-- On an input of at least two moduli one of which is zero, the first round of the descent
of `fast_batchgcd` reduces modulo the square of a zero. -/
theorem fast_batchgcd_zero_mod (N : numlist) (hv : N.valid) (h2 : 2 ≤ N.len)
    (h0 : (0 : Int) ∈ N.toList) :
    ∃ (T : prodtree) (R0 X : numlist) (i : Nat), producttree N = some T ∧
      T.level[size_sub T.height 1]? = some R0 ∧
      T.level[size_sub T.height 2]? = some X ∧ X.toList[i]? = some 0 ∧
      threaded_listsqmod X R0 (makenumlist X.len) 4 = none ∧
      fast_batchgcd_body T 2 R0 = none ∧ fast_batchgcd N = none := by
  obtain ⟨T, hT, hh, hlen, hlev⟩ := producttree_levels N hv
  have hlt := valid_len_lt hv
  have hclog : Nat.clog 2 N.len ≤ N.len := by
    have h1 : N.len ≤ 2 ^ N.len := Nat.le_of_lt (Nat.lt_two_pow N.len)
    exact (Nat.le_pow_iff_clog_le (by norm_num)).mp h1
  have hH : 2 ≤ T.height := by
    have := (clog_two_pos_iff N.len).mpr h2
    omega
  have hs1 : size_sub T.height 1 = T.height - 1 := size_sub_eq (by omega) (by omega)
  have hs2 : size_sub T.height 2 = T.height - 2 := size_sub_eq (by omega) (by omega)
  obtain ⟨R0, hR0, _, _, _⟩ := hlev (T.height - 1) (by omega)
  obtain ⟨X, hX, hXv, hXl, _⟩ := hlev (T.height - 2) (by omega)
  have hz : (0 : Int) ∈ X.toList := by
    rw [hXl]
    exact pair_products_iterate_zero_mem _ h0 _
  obtain ⟨i, hi⟩ := List.mem_iff_getElem?.mp hz
  have hnone := threaded_listsqmod_zero (R := R0) (lt_len_of_toList hi) (valid_len_le hXv)
    (num_getD_of_toList hi) (makenumlist X.len)
  have hbody : fast_batchgcd_body T 2 R0 = none := by
    unfold fast_batchgcd_body
    rw [hs2, hX, Option.some_bind, hnone]
    rfl
  refine ⟨T, R0, X, i, hT, by rw [hs1]; exact hR0, by rw [hs2]; exact hX, hi, hnone, hbody, ?_⟩
  unfold fast_batchgcd
  rw [hT, Option.some_bind, hs1, hR0, Option.some_bind, for_loop, if_pos (by omega), hbody]
  rfl

/-- On the one-element input `[0]` the descent of `fast_batchgcd` has no round and the
divide-then-gcd kernel divides `0` by `0`. -/
theorem fast_batchgcd_zero_single (N : numlist) (hv : N.valid) (h1 : N.len = 1)
    (h0 : (0 : Int) ∈ N.toList) :
    N.toList = [0] ∧ ∃ T, producttree N = some T ∧ T.level[size_sub T.height 1]? = some N ∧
      for_loop (T.height + 1) 1 (fast_batchgcd_body T) (T.height + 1) 2 N = some N ∧
      listdivgcd_body N N 0 (makenumlist N.len) = none ∧
      threaded_listdivgcd (makenumlist N.len) N N 4 = none ∧ fast_batchgcd N = none := by
  obtain ⟨T, hT, hh, hlen, hlev⟩ := producttree_levels N hv
  have hNl := toList_length (valid_len_le hv)
  have hlist : N.toList = [0] := by
    obtain ⟨a, ha⟩ := List.length_eq_one.mp (by rw [hNl, h1] : N.toList.length = 1)
    rw [ha] at h0 ⊢
    rw [List.mem_singleton.mp h0]
  have hH : T.height = 1 := by
    rw [hh, h1, Nat.clog_one_right]
  have hs1 : size_sub T.height 1 = 0 := by
    rw [hH]
    rfl
  obtain ⟨lv, hlv, _, _, hN⟩ := hlev 0 (by omega)
  have hlvN : lv = N := hN rfl
  rw [hlvN] at hlv
  have hn0 : N.num.getD 0 0 = 0 := num_getD_of_toList (by rw [hlist]; rfl)
  have hle := valid_len_le hv
  have hbody : ∀ G : numlist, listdivgcd_body N N 0 G = none := by
    intro G
    unfold listdivgcd_body
    rw [rd_eq_getD (by omega), hn0]
    rfl
  have hloop : for_loop (T.height + 1) 1 (fast_batchgcd_body T) (T.height + 1) 2 N =
      some N := by
    rw [for_loop, if_neg (by omega)]
  have hdiv : threaded_listdivgcd (makenumlist N.len) N N 4 = none := by
    unfold threaded_listdivgcd
    rw [if_neg (by norm_num), show List.range 4 = [0, 1, 2, 3] from rfl, List.foldlM_cons]
    have hw : listdivgcd_worker N N 0 4 (makenumlist N.len) = none := by
      unfold listdivgcd_worker
      rw [for_loop_indices]
      obtain ⟨idx, e, hmem⟩ :=
        loop_indices_mem (B := (makenumlist N.len).len) (S := 4) (by norm_num) 0
      rw [e, Option.some_bind]
      refine foldlM_none_of_mem (fun st k => listdivgcd_body N N k st) 0 hbody idx _
        ((hmem 0).mpr ⟨le_refl 0, ?_, by simp⟩)
      rw [makenumlist_len]
      omega
    rw [hw]
    rfl
  refine ⟨hlist, T, hT, by rw [hs1]; exact hlv, hloop, hbody _, hdiv, ?_⟩
  unfold fast_batchgcd
  rw [hT, Option.some_bind, hs1, hlv, Option.some_bind, hloop, Option.some_bind, hdiv]

end BatchGcd

namespace BatchGcd

/-! ## Invariants of the tree and of the descent, and safety of the divisions -/

/-- C21. For every well-formed list `N` of `n` integers, every level `l` of `producttree N`
and every index `i` below the length of `level[l]`: `level[l][i]` is the product of `N[j]` over
all `j` with `i * 2^l ≤ j < min ((i + 1) * 2^l) n`, the leaves of the subtree rooted at node
`i` of level `l`. -/
theorem producttree_subtree_product (N : numlist) (hv : N.valid) :
    ∃ T, producttree N = some T ∧ T.level.length = T.height ∧
      ∀ l, l < T.height → ∃ lv, T.level[l]? = some lv ∧
        ∀ i, i < lv.len → lv.toList[i]? =
          some (∏ j ∈ Finset.Ico (i * 2 ^ l) (min ((i + 1) * 2 ^ l) N.len), N.toList.getD j 0) := by
  obtain ⟨T, hT, _, hlen, hlev⟩ := producttree_levels N hv
  refine ⟨T, hT, hlen, ?_⟩
  intro l hl
  obtain ⟨lv, e, lvv, hlv, _⟩ := hlev l hl
  refine ⟨lv, e, ?_⟩
  intro i hi
  have hi2 : i < (pair_products^[l] N.toList).length := by
    rw [← hlv, toList_length (valid_len_le lvv)]
    exact hi
  rw [hlv, pair_products_iterate_getElem? N.toList l i hi2, slice_prod_eq,
    toList_length (valid_len_le hv), show i * 2 ^ l + 2 ^ l = (i + 1) * 2 ^ l by ring]

theorem producttree_subtree_product_witness :
    (⟨3, 4, [15, 77, 143, 0]⟩ : numlist).valid ∧
    ∃ T, producttree ⟨3, 4, [15, 77, 143, 0]⟩ = some T ∧ T.level.length = T.height ∧
      ∀ l, l < T.height → ∃ lv, T.level[l]? = some lv ∧
        ∀ i, i < lv.len → lv.toList[i]? =
          some (∏ j ∈ Finset.Ico (i * 2 ^ l) (min ((i + 1) * 2 ^ l)
            (⟨3, 4, [15, 77, 143, 0]⟩ : numlist).len),
              (⟨3, 4, [15, 77, 143, 0]⟩ : numlist).toList.getD j 0) :=
  ⟨by decide, producttree_subtree_product ⟨3, 4, [15, 77, 143, 0]⟩ (by decide)⟩

/-- C22. For every well-formed list `N` of `n ≥ 2` positive integers with product `P`: the
round `up` of the descent loop of `fast_batchgcd`, which works on the tree level
`X = level[height - up]`, leaves a remainder list `R` of the length of `X` with
`R[i] = P mod X[i]^2` for every `i` (hence `R[i] ≡ P` modulo `X[i]^2`), and the loop goes on
from that list; the loop ends with a list `R` of length `n` with `R[i] = P mod N[i]^2`. -/
theorem descent_invariant (N : numlist) (hv : N.valid) (h2 : 2 ≤ N.len)
    (hpos : ∀ x ∈ N.toList, 0 < x) :
    ∃ T R0, producttree N = some T ∧ T.level[size_sub T.height 1]? = some R0 ∧
      (∀ up, 2 ≤ up → up ≤ T.height → ∃ X R, T.level[T.height - up]? = some X ∧
        for_loop (up + 1) 1 (fast_batchgcd_body T) (up + 1) 2 R0 = some R ∧
        for_loop (T.height + 1) 1 (fast_batchgcd_body T) (T.height + 1) 2 R0 =
          for_loop (T.height + 1) 1 (fast_batchgcd_body T) (T.height + 1) (up + 1) R ∧
        R.len = X.len ∧
        ∀ (i : Nat) (x : Int), X.toList[i]? = some x →
          R.toList[i]? = some (N.toList.prod % x ^ 2) ∧
            Int.ModEq (x ^ 2) (N.toList.prod % x ^ 2) N.toList.prod) ∧
      ∃ R, for_loop (T.height + 1) 1 (fast_batchgcd_body T) (T.height + 1) 2 R0 = some R ∧
        R.len = N.len ∧
        ∀ (i : Nat) (x : Int), N.toList[i]? = some x →
          R.toList[i]? = some (N.toList.prod % x ^ 2) := by
  obtain ⟨T, R0, hT, hh, _, hR0, _, _, hup⟩ := descent_prefix N hv (ne_zero_of_pos hpos)
  have hH : 2 ≤ T.height := by
    have := (clog_two_pos_iff N.len).mpr h2
    omega
  have key : ∀ up, 2 ≤ up → up ≤ T.height → ∃ X R, T.level[T.height - up]? = some X ∧
      (T.height - up = 0 → X = N) ∧
      for_loop (up + 1) 1 (fast_batchgcd_body T) (up + 1) 2 R0 = some R ∧
      for_loop (T.height + 1) 1 (fast_batchgcd_body T) (T.height + 1) 2 R0 =
        for_loop (T.height + 1) 1 (fast_batchgcd_body T) (T.height + 1) (up + 1) R ∧
      R.len = X.len ∧
      ∀ (i : Nat) (x : Int), X.toList[i]? = some x →
        R.toList[i]? = some (N.toList.prod % x ^ 2) := by
    intro up h1 h3
    obtain ⟨X, R, hX, hXv, _, hXN, e1, e2, hRv, hR⟩ := hup up h1 h3
    refine ⟨X, R, hX, hXN, e1, e2, ?_, ?_⟩
    · rw [← toList_length (valid_len_le hRv), ← toList_length (valid_len_le hXv), hR,
        List.length_map]
    · intro i x hx
      rw [hR, List.getElem?_map, hx, Option.map_some', pow_two]
  refine ⟨T, R0, hT, hR0, ?_, ?_⟩
  · intro up h1 h3
    obtain ⟨X, R, hX, _, e1, e2, hl, hs⟩ := key up h1 h3
    exact ⟨X, R, hX, e1, e2, hl, fun i x hx => ⟨hs i x hx, Int.mod_modEq _ _⟩⟩
  · obtain ⟨X, R, _, hXN, _, e2, hl, hs⟩ := key T.height hH (le_refl _)
    have hXN2 : X = N := hXN (by omega)
    subst hXN2
    refine ⟨R, ?_, hl, hs⟩
    rw [e2]
    unfold for_loop
    rw [if_neg (by omega)]

theorem descent_invariant_witness :
    (⟨3, 4, [15, 77, 143, 0]⟩ : numlist).valid ∧ 2 ≤ (⟨3, 4, [15, 77, 143, 0]⟩ : numlist).len ∧
    (∀ x ∈ (⟨3, 4, [15, 77, 143, 0]⟩ : numlist).toList, 0 < x) ∧
    ∃ T R0, producttree ⟨3, 4, [15, 77, 143, 0]⟩ = some T ∧
      T.level[size_sub T.height 1]? = some R0 ∧
      (∀ up, 2 ≤ up → up ≤ T.height → ∃ X R, T.level[T.height - up]? = some X ∧
        for_loop (up + 1) 1 (fast_batchgcd_body T) (up + 1) 2 R0 = some R ∧
        for_loop (T.height + 1) 1 (fast_batchgcd_body T) (T.height + 1) 2 R0 =
          for_loop (T.height + 1) 1 (fast_batchgcd_body T) (T.height + 1) (up + 1) R ∧
        R.len = X.len ∧
        ∀ (i : Nat) (x : Int), X.toList[i]? = some x →
          R.toList[i]? = some ((⟨3, 4, [15, 77, 143, 0]⟩ : numlist).toList.prod % x ^ 2) ∧
            Int.ModEq (x ^ 2) ((⟨3, 4, [15, 77, 143, 0]⟩ : numlist).toList.prod % x ^ 2)
              (⟨3, 4, [15, 77, 143, 0]⟩ : numlist).toList.prod) ∧
      ∃ R, for_loop (T.height + 1) 1 (fast_batchgcd_body T) (T.height + 1) 2 R0 = some R ∧
        R.len = (⟨3, 4, [15, 77, 143, 0]⟩ : numlist).len ∧
        ∀ (i : Nat) (x : Int), (⟨3, 4, [15, 77, 143, 0]⟩ : numlist).toList[i]? = some x →
          R.toList[i]? = some ((⟨3, 4, [15, 77, 143, 0]⟩ : numlist).toList.prod % x ^ 2) :=
  ⟨by decide, by decide, by decide,
    descent_invariant ⟨3, 4, [15, 77, 143, 0]⟩ (by decide) (by decide) (by decide)⟩

/-- C23, as amended. For every well-formed list `N` of positive integers with product `P`:
at step `0` of the descent of `fast_batchgcd` the remainder list is the root level of the
tree, which is `[P]` for a non-empty input; at every step `l ≥ 1` (the round `up = l + 1` of
the loop) the remainder list `R` has the length of `X = level[height - 1 - l]` and
`R[i] = P mod X[i]^2` for every `i`, with `P` the product of all the inputs. -/
theorem descent_step_remainders (N : numlist) (hv : N.valid) (hpos : ∀ x ∈ N.toList, 0 < x) :
    ∃ T R0, producttree N = some T ∧ T.level[size_sub T.height 1]? = some R0 ∧
      T.level[T.height - 1]? = some R0 ∧ (1 ≤ N.len → R0.toList = [N.toList.prod]) ∧
      ∀ l, 1 ≤ l → l < T.height → ∃ X R, T.level[T.height - 1 - l]? = some X ∧
        for_loop (l + 2) 1 (fast_batchgcd_body T) (l + 2) 2 R0 = some R ∧
        for_loop (T.height + 1) 1 (fast_batchgcd_body T) (T.height + 1) 2 R0 =
          for_loop (T.height + 1) 1 (fast_batchgcd_body T) (T.height + 1) (l + 2) R ∧
        R.len = X.len ∧
        ∀ (i : Nat) (x : Int), X.toList[i]? = some x →
          R.toList[i]? = some (N.toList.prod % x ^ 2) := by
  obtain ⟨T, R0, hT, _, _, hR0, hR0b, htop, hup⟩ := descent_prefix N hv (ne_zero_of_pos hpos)
  refine ⟨T, R0, hT, hR0, hR0b, htop, ?_⟩
  intro l h1 h2
  obtain ⟨X, R, hX, hXv, _, _, e1, e2, hRv, hR⟩ := hup (l + 1) (by omega) (by omega)
  rw [show T.height - (l + 1) = T.height - 1 - l by omega] at hX
  refine ⟨X, R, hX, e1, e2, ?_, ?_⟩
  · rw [← toList_length (valid_len_le hRv), ← toList_length (valid_len_le hXv), hR,
      List.length_map]
  · intro i x hx
    rw [hR, List.getElem?_map, hx, Option.map_some', pow_two]

theorem descent_step_remainders_witness :
    (⟨3, 4, [15, 77, 143, 0]⟩ : numlist).valid ∧
    (∀ x ∈ (⟨3, 4, [15, 77, 143, 0]⟩ : numlist).toList, 0 < x) ∧
    ∃ T R0, producttree ⟨3, 4, [15, 77, 143, 0]⟩ = some T ∧
      T.level[size_sub T.height 1]? = some R0 ∧
      T.level[T.height - 1]? = some R0 ∧
      (1 ≤ (⟨3, 4, [15, 77, 143, 0]⟩ : numlist).len →
        R0.toList = [(⟨3, 4, [15, 77, 143, 0]⟩ : numlist).toList.prod]) ∧
      ∀ l, 1 ≤ l → l < T.height → ∃ X R, T.level[T.height - 1 - l]? = some X ∧
        for_loop (l + 2) 1 (fast_batchgcd_body T) (l + 2) 2 R0 = some R ∧
        for_loop (T.height + 1) 1 (fast_batchgcd_body T) (T.height + 1) 2 R0 =
          for_loop (T.height + 1) 1 (fast_batchgcd_body T) (T.height + 1) (l + 2) R ∧
        R.len = X.len ∧
        ∀ (i : Nat) (x : Int), X.toList[i]? = some x →
          R.toList[i]? = some ((⟨3, 4, [15, 77, 143, 0]⟩ : numlist).toList.prod % x ^ 2) :=
  ⟨by decide, by decide,
    descent_step_remainders ⟨3, 4, [15, 77, 143, 0]⟩ (by decide) (by decide)⟩

/-- C23, as stated, fails: on the input `N = [15, 77, 143]` (height `3`) the remainder list
after the last descent step, `l = 2`, has `R[0] = 15`, whereas the product of the inputs
outside the subtree of the leaf `level[0][0] = 15`, which is `77 * 143`, leaves `211` modulo
`15^2`. -/
theorem descent_not_product_outside :
    ∃ T R0 X R, producttree ⟨3, 4, [15, 77, 143, 0]⟩ = some T ∧ T.height = 3 ∧
      T.level[size_sub T.height 1]? = some R0 ∧ T.level[T.height - 1 - 2]? = some X ∧
      for_loop (2 + 2) 1 (fast_batchgcd_body T) (2 + 2) 2 R0 = some R ∧
      X.toList[0]? = some 15 ∧ R.toList[0]? = some 15 ∧
      ((⟨3, 4, [15, 77, 143, 0]⟩ : numlist).toList.eraseIdx 0).prod % 15 ^ 2 = 211 ∧
      R.toList[0]? ≠
        some (((⟨3, 4, [15, 77, 143, 0]⟩ : numlist).toList.eraseIdx 0).prod % 15 ^ 2) := by
  refine ⟨⟨3, [⟨3, 4, [15, 77, 143, 0]⟩, ⟨2, 2, [1155, 143]⟩, ⟨1, 1, [165165]⟩]⟩,
    ⟨1, 1, [165165]⟩, ⟨3, 4, [15, 77, 143, 0]⟩, ⟨3, 3, [15, 5082, 1573]⟩,
    by decide, by decide, by decide, by decide, by decide, by decide, by decide, by decide,
    by decide⟩

/-- C24. For every well-formed list `N` of positive integers (non-empty, or empty, where
there is nothing to divide), `fast_batchgcd` reaches the divide-then-gcd kernel with a
remainder list `R` of length `n` in which every `R[i]` is exactly divisible by `N[i]`
(`R[i] mod N[i] = 0`, `N[i] ≠ 0`), so every exact division of `listdivgcd_worker` meets its
precondition and the kernel returns the result of `fast_batchgcd`. -/
theorem divexact_precondition (N : numlist) (hv : N.valid)
    (hpos : ∀ x ∈ N.toList, 0 < x) :
    ∃ T R0 R G, producttree N = some T ∧ T.level[size_sub T.height 1]? = some R0 ∧
      for_loop (T.height + 1) 1 (fast_batchgcd_body T) (T.height + 1) 2 R0 = some R ∧
      R.len = N.len ∧
      (∀ i, i < N.len → ∃ r n, R.toList[i]? = some r ∧ N.toList[i]? = some n ∧ n ≠ 0 ∧
        r % n = 0 ∧ mpz_divexact r n = some (r / n)) ∧
      threaded_listdivgcd (makenumlist N.len) R N 4 = some G ∧ fast_batchgcd N = some G := by
  have hnz := ne_zero_of_pos hpos
  obtain ⟨T, R0, R, hT, hR0, eR, hRv, hcase⟩ := fast_batchgcd_remainders N hv hnz
  have hNl := toList_length (valid_len_le hv)
  have hRl : R.len = N.len := by
    rcases hcase with ⟨_, hR⟩ | ⟨_, hR⟩
    · rw [hR]
    · rw [← toList_length (valid_len_le hRv), hR, List.length_map, hNl]
  have hn : ∀ k, k < N.len → N.num.getD k 0 ≠ 0 := by
    intro k hk
    rw [← toList_getD hk]
    exact hnz _ (getD_mem (by omega))
  have hdvd : ∀ k, k < N.len → R.num.getD k 0 % N.num.getD k 0 = 0 := by
    intro k hk
    rcases hcase with ⟨_, hR⟩ | ⟨_, hR⟩
    · rw [hR]
      exact Int.emod_self
    · have e : R.toList[k]? = some (N.toList.prod % (N.num.getD k 0 * N.num.getD k 0)) := by
        rw [hR, List.getElem?_map, toList_eq_getD (valid_len_le hv) hk, Option.map_some']
      rw [num_getD_of_toList e]
      apply Int.emod_eq_zero_of_dvd
      rw [Int.emod_def]
      refine Int.dvd_sub ?_ (Dvd.dvd.mul_right (Dvd.intro _ rfl) _)
      rw [← toList_getD hk]
      exact getD_dvd_prod (by omega)
  obtain ⟨G, eG, _, _, _⟩ := threaded_listdivgcd_fresh hv hRv hRl hn hdvd
  refine ⟨T, R0, R, G, hT, hR0, eR, hRl, ?_, eG, ?_⟩
  · intro i hi
    refine ⟨R.num.getD i 0, N.num.getD i 0, toList_eq_getD (valid_len_le hRv) (by omega),
      toList_eq_getD (valid_len_le hv) hi, hn i hi, hdvd i hi, ?_⟩
    unfold mpz_divexact
    rw [if_neg (hn i hi), if_pos (hdvd i hi)]
  · unfold fast_batchgcd
    rw [hT]
    simp only [Option.some_bind, hR0, eR, eG]

theorem divexact_precondition_witness :
    (⟨3, 4, [15, 77, 143, 0]⟩ : numlist).valid ∧
    (∀ x ∈ (⟨3, 4, [15, 77, 143, 0]⟩ : numlist).toList, 0 < x) ∧
    ∃ T R0 R G, producttree ⟨3, 4, [15, 77, 143, 0]⟩ = some T ∧
      T.level[size_sub T.height 1]? = some R0 ∧
      for_loop (T.height + 1) 1 (fast_batchgcd_body T) (T.height + 1) 2 R0 = some R ∧
      R.len = (⟨3, 4, [15, 77, 143, 0]⟩ : numlist).len ∧
      (∀ i, i < (⟨3, 4, [15, 77, 143, 0]⟩ : numlist).len → ∃ r n, R.toList[i]? = some r ∧
        (⟨3, 4, [15, 77, 143, 0]⟩ : numlist).toList[i]? = some n ∧ n ≠ 0 ∧
        r % n = 0 ∧ mpz_divexact r n = some (r / n)) ∧
      threaded_listdivgcd (makenumlist (⟨3, 4, [15, 77, 143, 0]⟩ : numlist).len) R
        ⟨3, 4, [15, 77, 143, 0]⟩ 4 = some G ∧
      fast_batchgcd ⟨3, 4, [15, 77, 143, 0]⟩ = some G :=
  ⟨by decide, by decide,
    divexact_precondition ⟨3, 4, [15, 77, 143, 0]⟩ (by decide) (by decide)⟩

/-- C25, as amended. For every pair of well-formed equal-length lists `N`, `G` of at most
`2^31` entries in which a gcd entry `G[j]` is zero only where `N[j]` is zero, and every
case 2 index `ig` (`G[ig] ≠ 1` and `G[ig] = N[ig]`), `factor_coprimes N G` returns a list `C`
whose entry `C[ig]` is determined as follows.  If `iw ≠ ig` is the smallest weak index
(`G[iw] ≠ 1`) whose `g = gcd(N[iw], N[ig])` is neither `1` nor `N[ig]`, then
`C[ig] = min(g, N[ig] div g)`, with `div` the floor division of `mpz_div`; if no weak index
other than `ig` has such a gcd, then `C[ig] = 0`. -/
theorem factor_coprimes_case2 (N G : numlist) (ig : Nat) (n : Int) (hN : N.valid)
    (hG : G.valid) (hlen : G.len = N.len) (h31 : N.len ≤ 2 ^ 31)
    (hz : ∀ (j : Nat) (g m : Int), G.toList[j]? = some g → N.toList[j]? = some m →
      g = 0 → m = 0)
    (hn : N.toList[ig]? = some n) (hg : G.toList[ig]? = some n) (hn1 : n ≠ 1) :
    ∃ st c, factor_coprimes N G = some st ∧ st.cplist.toList[ig]? = some c ∧
      (∀ (iw : Nat) (m w : Int), iw ≠ ig → N.toList[iw]? = some m → G.toList[iw]? = some w →
        w ≠ 1 → mpz_gcd m n ≠ 1 → mpz_gcd m n ≠ n →
        (∀ (j : Nat) (m2 w2 : Int), j < iw → j ≠ ig → N.toList[j]? = some m2 →
          G.toList[j]? = some w2 → w2 ≠ 1 → mpz_gcd m2 n = 1 ∨ mpz_gcd m2 n = n) →
        c = min (mpz_gcd m n) (Int.fdiv n (mpz_gcd m n))) ∧
      ((∀ (iw : Nat) (m w : Int), iw ≠ ig → N.toList[iw]? = some m →
          G.toList[iw]? = some w → w ≠ 1 → mpz_gcd m n = 1 ∨ mpz_gcd m n = n) →
        c = 0) := by
  have hi : ig < N.len := lt_len_of_toList hn
  have hnn : N.num.getD ig 0 = n := num_getD_of_toList hn
  have hgn : G.num.getD ig 0 = n := num_getD_of_toList hg
  have hNl := valid_len_le hN
  have hGl := valid_len_le hG
  obtain ⟨st, e, _, _, _, _, _, _, hslot⟩ := factor_coprimes_spec N G hNl
    (by omega) (gcd_nonzero_of_zero_only hN hG hlen hz) (fun _ => h31)
  have hc2 : is_case2 N G ig = true := is_case2_of (by rw [hgn]; exact hn1) (by rw [hgn, hnn])
  have hs := hslot ig hi
  rw [if_pos hc2] at hs
  refine ⟨st, _, e, hs, ?_, ?_⟩
  · intro iw m w hne hm hw hw1 h1 h2 hmin
    have hiw : iw < N.len := lt_len_of_toList hm
    have hmm : N.num.getD iw 0 = m := num_getD_of_toList hm
    have hweak : is_weak G iw = true := is_weak_of_ne (by rw [num_getD_of_toList hw]; exact hw1)
    obtain ⟨l2, hl⟩ := weak_list_split N G hiw hweak
    rw [hl, find_split_first N _ l2 ?_ hne (by rw [hmm, hnn]; exact h1)
      (by rw [hmm, hnn]; exact h2), Option.getD_some, hmm, hnn, lesser_eq_min]
    intro j hj hjne
    have hj2 := List.mem_filter.mp hj
    have hjlt : j < iw := List.mem_range.mp hj2.1
    have hjw : G.num.getD j 0 ≠ 1 := by
      intro h
      rw [is_weak_of_eq h] at hj2
      exact absurd hj2.2 (by simp)
    rw [hnn]
    exact hmin j (N.num.getD j 0) (G.num.getD j 0) hjlt hjne
      (toList_eq_getD hNl (by omega)) (toList_eq_getD hGl (by omega)) hjw
  · intro hall
    have hnone : find_split N ig (weak_list N G) = none := by
      rw [find_split_none_iff]
      intro iw hiw hne
      have hiwl : iw < N.len := mem_weak_list_lt hiw
      have hjw : G.num.getD iw 0 ≠ 1 := by
        intro h
        unfold weak_list at hiw
        have := (List.mem_filter.mp hiw).2
        rw [is_weak_of_eq h] at this
        exact absurd this (by simp)
      rw [hnn]
      exact hall iw (N.num.getD iw 0) (G.num.getD iw 0) hne (toList_eq_getD hNl hiwl)
        (toList_eq_getD hGl (by omega)) hjw
    rw [hnone]
    rfl

theorem factor_coprimes_case2_witness :
    (⟨3, 3, [15, 21, 35]⟩ : numlist).valid ∧
    (⟨3, 3, [15, 21, 35]⟩ : numlist).len = (⟨3, 3, [15, 21, 35]⟩ : numlist).len ∧
    (⟨3, 3, [15, 21, 35]⟩ : numlist).len ≤ 2 ^ 31 ∧
    (∀ (j : Nat) (g m : Int), (⟨3, 3, [15, 21, 35]⟩ : numlist).toList[j]? = some g →
      (⟨3, 3, [15, 21, 35]⟩ : numlist).toList[j]? = some m → g = 0 → m = 0) ∧
    (⟨3, 3, [15, 21, 35]⟩ : numlist).toList[2]? = some 35 ∧ (35 : Int) ≠ 1 ∧
    ∃ st c, factor_coprimes ⟨3, 3, [15, 21, 35]⟩ ⟨3, 3, [15, 21, 35]⟩ = some st ∧
      st.cplist.toList[2]? = some c ∧
      (∀ (iw : Nat) (m w : Int), iw ≠ 2 →
        (⟨3, 3, [15, 21, 35]⟩ : numlist).toList[iw]? = some m →
        (⟨3, 3, [15, 21, 35]⟩ : numlist).toList[iw]? = some w →
        w ≠ 1 → mpz_gcd m 35 ≠ 1 → mpz_gcd m 35 ≠ 35 →
        (∀ (j : Nat) (m2 w2 : Int), j < iw → j ≠ 2 →
          (⟨3, 3, [15, 21, 35]⟩ : numlist).toList[j]? = some m2 →
          (⟨3, 3, [15, 21, 35]⟩ : numlist).toList[j]? = some w2 → w2 ≠ 1 →
          mpz_gcd m2 35 = 1 ∨ mpz_gcd m2 35 = 35) →
        c = min (mpz_gcd m 35) (Int.fdiv 35 (mpz_gcd m 35))) ∧
      ((∀ (iw : Nat) (m w : Int), iw ≠ 2 →
          (⟨3, 3, [15, 21, 35]⟩ : numlist).toList[iw]? = some m →
          (⟨3, 3, [15, 21, 35]⟩ : numlist).toList[iw]? = some w → w ≠ 1 →
          mpz_gcd m 35 = 1 ∨ mpz_gcd m 35 = 35) →
        c = 0) :=
  have hz : ∀ (j : Nat) (g m : Int), (⟨3, 3, [15, 21, 35]⟩ : numlist).toList[j]? = some g →
      (⟨3, 3, [15, 21, 35]⟩ : numlist).toList[j]? = some m → g = 0 → m = 0 := by
    intro j g m h1 h2 h0
    rw [h1] at h2
    rw [← Option.some.inj h2]
    exact h0
  ⟨by decide, rfl, by decide, hz, by decide, by decide,
    factor_coprimes_case2 ⟨3, 3, [15, 21, 35]⟩ ⟨3, 3, [15, 21, 35]⟩ 2 35 (by decide)
      (by decide) rfl (by decide) hz (by decide) (by decide) (by decide)⟩

/-- C25, as stated, fails: for `N = [6, 7]` and `G = [6, 0]`, two well-formed lists of equal
length in which index `0` is case 2 (`G[0] = N[0] = 6`), `factor_coprimes` divides `7` by the
zero gcd entry at index `1` and returns no list. -/
theorem factor_coprimes_case2_zero_entry :
    (⟨2, 2, [6, 7]⟩ : numlist).valid ∧ (⟨2, 2, [6, 0]⟩ : numlist).valid ∧
    (⟨2, 2, [6, 0]⟩ : numlist).len = (⟨2, 2, [6, 7]⟩ : numlist).len ∧
    (⟨2, 2, [6, 7]⟩ : numlist).toList[0]? = some 6 ∧
    (⟨2, 2, [6, 0]⟩ : numlist).toList[0]? = some 6 ∧
    factor_coprimes ⟨2, 2, [6, 7]⟩ ⟨2, 2, [6, 0]⟩ = none := by
  decide

/-- C26. For every thread count `T ≥ 1` and every length `L`: worker `t` runs its loop body
exactly at the indices `t, t + T, t + 2T, ...` below `L`; the index lists of two different
workers `t1, t2 < T` are disjoint; their union is exactly `[0, L)`, so every index below `L`
is visited by exactly one worker.  Each worker of the three kernels is its loop body run at
these indices (with `L = d.len - 1` for the product kernel, `X.len` for square-mod, `G.len`
for divide-gcd), and a body run at index `i` writes no other slot than `i` of the output
list: every output index is written by exactly one worker. -/
theorem strided_workers_partition (T L : Nat) (hT : 1 ≤ T) :
    (∀ t, ∃ idx, loop_indices L T t = some idx ∧
      ∀ j, j ∈ idx ↔ (∃ k, j = t + k * T) ∧ j < L) ∧
    (∀ t1 t2 idx1 idx2, t1 < T → t2 < T → t1 ≠ t2 → loop_indices L T t1 = some idx1 →
      loop_indices L T t2 = some idx2 → List.Disjoint idx1 idx2) ∧
    (∀ j, j < L ↔ ∃ t idx, t < T ∧ loop_indices L T t = some idx ∧ j ∈ idx) ∧
    (∀ j, j < L → ∃! t, t < T ∧ ∃ idx, loop_indices L T t = some idx ∧ j ∈ idx) ∧
    (∀ (s d : numlist) (t : Nat), size_sub d.len 1 = L →
      listmul_worker s t T d =
        (loop_indices L T t).bind fun idx => idx.foldlM (fun d i => listmul_body s i d) d) ∧
    (∀ (st : sqmod_lists) (t : Nat), st.X.len = L →
      listsqmod_worker t T st =
        (loop_indices L T t).bind fun idx => idx.foldlM (fun st i => listsqmod_body i st) st) ∧
    (∀ (R N G : numlist) (t : Nat), G.len = L →
      listdivgcd_worker R N t T G =
        (loop_indices L T t).bind fun idx =>
          idx.foldlM (fun G i => listdivgcd_body R N i G) G) ∧
    (∀ (s d d1 : numlist) (i j : Nat), listmul_body s i d = some d1 → j ≠ i →
      d1.num[j]? = d.num[j]?) ∧
    (∀ (st st1 : sqmod_lists) (i j : Nat), listsqmod_body i st = some st1 → j ≠ i →
      st1.nR.num[j]? = st.nR.num[j]?) ∧
    (∀ (R N G G1 : numlist) (i j : Nat), listdivgcd_body R N i G = some G1 → j ≠ i →
      G1.num[j]? = G.num[j]?) := by
  have hmem : ∀ t, ∃ idx, loop_indices L T t = some idx ∧
      ∀ j, j ∈ idx ↔ t ≤ j ∧ j < L ∧ T ∣ (j - t) := fun t => loop_indices_mem hT t
  refine ⟨?_, ?_, ?_, ?_, ?_, ?_, ?_, ?_, ?_, ?_⟩
  · intro t
    obtain ⟨idx, e, h⟩ := hmem t
    refine ⟨idx, e, ?_⟩
    intro j
    rw [h j]
    constructor
    · rintro ⟨c1, c2, c, hc⟩
      refine ⟨⟨c, ?_⟩, c2⟩
      rw [Nat.mul_comm c T]
      omega
    · rintro ⟨⟨k, hk⟩, c2⟩
      refine ⟨by omega, c2, ?_⟩
      rw [hk, Nat.add_sub_cancel_left]
      exact Dvd.intro_left k rfl
  · intro t1 t2 idx1 idx2 h1 h2 hne e1 e2 j m1 m2
    obtain ⟨i1, f1, g1⟩ := hmem t1
    obtain ⟨i2, f2, g2⟩ := hmem t2
    rw [e1] at f1
    rw [e2] at f2
    rw [Option.some.inj f1] at m1
    rw [Option.some.inj f2] at m2
    have a1 := (g1 j).mp m1
    have a2 := (g2 j).mp m2
    exact hne (stride_unique h1 h2 a1.1 a2.1 a1.2.2 a2.2.2)
  · intro j
    constructor
    · intro hj
      obtain ⟨t, ht, c1, c2⟩ := stride_cover (T := T) (j := j) hT
      obtain ⟨idx, e, h⟩ := hmem t
      exact ⟨t, idx, List.mem_range.mp ht, e, (h j).mpr ⟨c1, hj, c2⟩⟩
    · rintro ⟨t, idx, _, e, hm⟩
      obtain ⟨idx1, e1, h⟩ := hmem t
      rw [e] at e1
      rw [Option.some.inj e1] at hm
      exact ((h j).mp hm).2.1
  · intro j hj
    obtain ⟨t, ht, c1, c2⟩ := stride_cover (T := T) (j := j) hT
    obtain ⟨idx, e, h⟩ := hmem t
    refine ⟨t, ⟨List.mem_range.mp ht, idx, e, (h j).mpr ⟨c1, hj, c2⟩⟩, ?_⟩
    rintro t2 ⟨ht2, idx2, e2, m2⟩
    obtain ⟨i2, f2, g2⟩ := hmem t2
    rw [e2] at f2
    rw [Option.some.inj f2] at m2
    have a2 := (g2 j).mp m2
    exact stride_unique ht2 (List.mem_range.mp ht) a2.1 c1 a2.2.2 c2
  · intro s d t hL
    unfold listmul_worker
    rw [hL]
    exact for_loop_indices L T (listmul_body s) t d
  · intro st t hL
    unfold listsqmod_worker
    rw [hL]
    exact for_loop_indices L T listsqmod_body t st
  · intro R N G t hL
    unfold listdivgcd_worker
    rw [hL]
    exact for_loop_indices L T (listdivgcd_body R N) t G
  · intro s d d1 i j h hj
    unfold listmul_body at h
    cases ha : s.rd (i * 2) with
    | none =>
      rw [ha] at h
      exact absurd h (by simp)
    | some a =>
      cases hb : s.rd (i * 2 + 1) with
      | none =>
        rw [ha, hb] at h
        exact absurd h (by simp)
      | some b =>
        rw [ha, hb] at h
        exact wr_other h j hj
  · intro st st1 i j h hj
    unfold listsqmod_body at h
    cases hs : listsqmod_slot st.X st.R i st.nR with
    | none =>
      rw [hs] at h
      exact absurd h (by simp)
    | some n1 =>
      rw [hs, Option.map_some'] at h
      rw [← Option.some.inj h]
      unfold listsqmod_slot at hs
      cases hx : st.X.rd i with
      | none =>
        rw [hx] at hs
        exact absurd hs (by simp)
      | some x =>
        cases hr : st.R.rd (i / 2) with
        | none =>
          rw [hx, hr] at hs
          exact absurd hs (by simp)
        | some r =>
          cases hm : mpz_mod r (mpz_mul x x) with
          | none =>
            rw [hx, hr] at hs
            simp only [Option.some_bind, hm, Option.none_bind] at hs
            exact absurd hs (by simp)
          | some v =>
            rw [hx, hr] at hs
            simp only [Option.some_bind, hm] at hs
            exact wr_other hs j hj
  · intro R N G G1 i j h hj
    unfold listdivgcd_body at h
    cases hr : R.rd i with
    | none =>
      rw [hr] at h
      exact absurd h (by simp)
    | some r =>
      cases hn : N.rd i with
      | none =>
        rw [hr, hn] at h
        exact absurd h (by simp)
      | some n =>
        cases hd : mpz_divexact r n with
        | none =>
          rw [hr, hn] at h
          simp only [Option.some_bind, hd, Option.none_bind] at h
          exact absurd h (by simp)
        | some q =>
          rw [hr, hn] at h
          simp only [Option.some_bind, hd] at h
          exact wr_other h j hj

theorem strided_workers_partition_witness :
    1 ≤ 4 ∧
    ((∀ t, ∃ idx, loop_indices 10 4 t = some idx ∧
      ∀ j, j ∈ idx ↔ (∃ k, j = t + k * 4) ∧ j < 10) ∧
    (∀ t1 t2 idx1 idx2, t1 < 4 → t2 < 4 → t1 ≠ t2 → loop_indices 10 4 t1 = some idx1 →
      loop_indices 10 4 t2 = some idx2 → List.Disjoint idx1 idx2) ∧
    (∀ j, j < 10 ↔ ∃ t idx, t < 4 ∧ loop_indices 10 4 t = some idx ∧ j ∈ idx) ∧
    (∀ j, j < 10 → ∃! t, t < 4 ∧ ∃ idx, loop_indices 10 4 t = some idx ∧ j ∈ idx) ∧
    (∀ (s d : numlist) (t : Nat), size_sub d.len 1 = 10 →
      listmul_worker s t 4 d =
        (loop_indices 10 4 t).bind fun idx => idx.foldlM (fun d i => listmul_body s i d) d) ∧
    (∀ (st : sqmod_lists) (t : Nat), st.X.len = 10 →
      listsqmod_worker t 4 st =
        (loop_indices 10 4 t).bind fun idx => idx.foldlM (fun st i => listsqmod_body i st) st) ∧
    (∀ (R N G : numlist) (t : Nat), G.len = 10 →
      listdivgcd_worker R N t 4 G =
        (loop_indices 10 4 t).bind fun idx =>
          idx.foldlM (fun G i => listdivgcd_body R N i G) G) ∧
    (∀ (s d d1 : numlist) (i j : Nat), listmul_body s i d = some d1 → j ≠ i →
      d1.num[j]? = d.num[j]?) ∧
    (∀ (st st1 : sqmod_lists) (i j : Nat), listsqmod_body i st = some st1 → j ≠ i →
      st1.nR.num[j]? = st.nR.num[j]?) ∧
    (∀ (R N G G1 : numlist) (i j : Nat), listdivgcd_body R N i G = some G1 → j ≠ i →
      G1.num[j]? = G.num[j]?)) ∧
    loop_indices 10 4 1 = some [1, 5, 9] :=
  ⟨by decide, strided_workers_partition 4 10 (by decide), by decide⟩

/-- C27. For every `num` with `0 ≤ num ≤ 2^63`, `intlog2 num` terminates and returns the least
`l ≥ 0` with `2^l ≥ num`, that is `ceil(log2 num)` with `intlog2 0 = intlog2 1 = 0`; it
matches the documented table `2 -> 1, 3 -> 2, 4 -> 2, 5 -> 3, 8 -> 3, 9 -> 4`. -/
theorem intlog2_ceil_log2 (num : Nat) (h : num ≤ 2 ^ 63) :
    (∃ l, intlog2 num = some l ∧ num ≤ 2 ^ l ∧ (∀ m, num ≤ 2 ^ m → l ≤ m) ∧
      l = Nat.clog 2 num) ∧
    intlog2 0 = some 0 ∧ intlog2 1 = some 0 ∧ intlog2 2 = some 1 ∧ intlog2 3 = some 2 ∧
    intlog2 4 = some 2 ∧ intlog2 5 = some 3 ∧ intlog2 8 = some 3 ∧ intlog2 9 = some 4 := by
  refine ⟨⟨Nat.clog 2 num, intlog2_eq h, Nat.le_pow_clog (by norm_num) num, ?_, rfl⟩,
    by decide, by decide, by decide, by decide, by decide, by decide, by decide, by decide⟩
  intro m hm
  exact (Nat.le_pow_iff_clog_le (by norm_num)).mp hm

theorem intlog2_ceil_log2_witness :
    2 ^ 63 ≤ 2 ^ 63 ∧
    ((∃ l, intlog2 (2 ^ 63) = some l ∧ 2 ^ 63 ≤ 2 ^ l ∧ (∀ m, 2 ^ 63 ≤ 2 ^ m → l ≤ m) ∧
      l = Nat.clog 2 (2 ^ 63)) ∧
    intlog2 0 = some 0 ∧ intlog2 1 = some 0 ∧ intlog2 2 = some 1 ∧ intlog2 3 = some 2 ∧
    intlog2 4 = some 2 ∧ intlog2 5 = some 3 ∧ intlog2 8 = some 3 ∧ intlog2 9 = some 4) ∧
    intlog2 (2 ^ 63) = some 63 :=
  ⟨le_refl _, intlog2_ceil_log2 (2 ^ 63) (le_refl _), by decide⟩

/-- C28. For every well-formed non-empty list `N` (of non-negative integers, or of any sign),
`fast_batchgcd` completes without a division by zero if and only if every `N[i]` is
non-zero.  When every `N[i]` is non-zero, every entry `x` of every tree level has a
non-zero square `x^2`, so no divisor of the square-mod steps or of the exact division is
zero.  When some `N[i]` is zero and `n ≥ 2`, the first round of the descent works on a level
holding a zero and its `mpz_mod` by `0^2` is a division by zero; when `n = 1` the input is
`[0]`, the descent has no round, and the exact division is `0 / 0`. -/
theorem zero_divisor_iff_zero_input (N : numlist) (hv : N.valid) (h1 : 1 ≤ N.len) :
    ((fast_batchgcd N).isSome ↔ ∀ x ∈ N.toList, x ≠ 0) ∧
    ((∀ x ∈ N.toList, x ≠ 0) → ∃ T, producttree N = some T ∧
      ∀ (k : Nat) (X : numlist) (x : Int), T.level[k]? = some X → x ∈ X.toList →
        x * x ≠ 0) ∧
    ((0 : Int) ∈ N.toList → 2 ≤ N.len →
      ∃ (T : prodtree) (R0 X : numlist) (i : Nat), producttree N = some T ∧
        T.level[size_sub T.height 1]? = some R0 ∧
        T.level[size_sub T.height 2]? = some X ∧ X.toList[i]? = some 0 ∧
        (∀ r, mpz_mod r (mpz_mul 0 0) = none) ∧ fast_batchgcd_body T 2 R0 = none) ∧
    ((0 : Int) ∈ N.toList → N.len = 1 →
      N.toList = [0] ∧ mpz_divexact 0 0 = none ∧
      ∃ T, producttree N = some T ∧ T.level[size_sub T.height 1]? = some N ∧
        for_loop (T.height + 1) 1 (fast_batchgcd_body T) (T.height + 1) 2 N = some N ∧
        threaded_listdivgcd (makenumlist N.len) N N 4 = none) := by
  have hnone : (0 : Int) ∈ N.toList → fast_batchgcd N = none := by
    intro h0
    by_cases h2 : 2 ≤ N.len
    · obtain ⟨_, _, _, _, _, _, _, _, _, _, e⟩ := fast_batchgcd_zero_mod N hv h2 h0
      exact e
    · obtain ⟨_, _, _, _, _, _, _, e⟩ := fast_batchgcd_zero_single N hv (by omega) h0
      exact e
  refine ⟨⟨?_, ?_⟩, ?_, ?_, ?_⟩
  · intro hs x hx hx0
    rw [hx0] at hx
    rw [hnone hx] at hs
    exact absurd hs (by simp)
  · intro hnz
    obtain ⟨G, e, _⟩ := fast_batchgcd_gcd N hv hnz
    rw [e]
    rfl
  · intro hnz
    obtain ⟨T, hT, _, hlen, hlev⟩ := producttree_levels N hv
    refine ⟨T, hT, ?_⟩
    intro k X x hX hx
    have hk : k < T.height := by
      rw [← hlen]
      exact (List.getElem?_eq_some_iff.mp hX).1
    obtain ⟨lv, hlv, _, hl, _⟩ := hlev k hk
    rw [hX] at hlv
    rw [Option.some.inj hlv, hl] at hx
    have := pair_products_iterate_ne_zero _ hnz k x hx
    exact mul_ne_zero this this
  · intro h0 h2
    obtain ⟨T, R0, X, i, hT, hR0, hX, hi, _, hb, _⟩ := fast_batchgcd_zero_mod N hv h2 h0
    exact ⟨T, R0, X, i, hT, hR0, hX, hi, fun r => rfl, hb⟩
  · intro h0 h2
    obtain ⟨hl, T, hT, hR0, hloop, _, hdiv, _⟩ := fast_batchgcd_zero_single N hv h2 h0
    exact ⟨hl, rfl, T, hT, hR0, hloop, hdiv⟩

theorem zero_divisor_iff_zero_input_witness :
    (⟨3, 4, [15, 0, 143, 0]⟩ : numlist).valid ∧ 1 ≤ (⟨3, 4, [15, 0, 143, 0]⟩ : numlist).len ∧
    (((fast_batchgcd ⟨3, 4, [15, 0, 143, 0]⟩).isSome ↔
      ∀ x ∈ (⟨3, 4, [15, 0, 143, 0]⟩ : numlist).toList, x ≠ 0) ∧
    ((∀ x ∈ (⟨3, 4, [15, 0, 143, 0]⟩ : numlist).toList, x ≠ 0) →
      ∃ T, producttree ⟨3, 4, [15, 0, 143, 0]⟩ = some T ∧
      ∀ (k : Nat) (X : numlist) (x : Int), T.level[k]? = some X → x ∈ X.toList →
        x * x ≠ 0) ∧
    ((0 : Int) ∈ (⟨3, 4, [15, 0, 143, 0]⟩ : numlist).toList →
      2 ≤ (⟨3, 4, [15, 0, 143, 0]⟩ : numlist).len →
      ∃ (T : prodtree) (R0 X : numlist) (i : Nat),
        producttree ⟨3, 4, [15, 0, 143, 0]⟩ = some T ∧
        T.level[size_sub T.height 1]? = some R0 ∧
        T.level[size_sub T.height 2]? = some X ∧ X.toList[i]? = some 0 ∧
        (∀ r, mpz_mod r (mpz_mul 0 0) = none) ∧ fast_batchgcd_body T 2 R0 = none) ∧
    ((0 : Int) ∈ (⟨3, 4, [15, 0, 143, 0]⟩ : numlist).toList →
      (⟨3, 4, [15, 0, 143, 0]⟩ : numlist).len = 1 →
      (⟨3, 4, [15, 0, 143, 0]⟩ : numlist).toList = [0] ∧ mpz_divexact 0 0 = none ∧
      ∃ T, producttree ⟨3, 4, [15, 0, 143, 0]⟩ = some T ∧
        T.level[size_sub T.height 1]? = some ⟨3, 4, [15, 0, 143, 0]⟩ ∧
        for_loop (T.height + 1) 1 (fast_batchgcd_body T) (T.height + 1) 2
          ⟨3, 4, [15, 0, 143, 0]⟩ = some ⟨3, 4, [15, 0, 143, 0]⟩ ∧
        threaded_listdivgcd (makenumlist (⟨3, 4, [15, 0, 143, 0]⟩ : numlist).len)
          ⟨3, 4, [15, 0, 143, 0]⟩ ⟨3, 4, [15, 0, 143, 0]⟩ 4 = none)) ∧
    fast_batchgcd ⟨3, 4, [15, 0, 143, 0]⟩ = none ∧ fast_batchgcd ⟨1, 1, [0]⟩ = none ∧
    fast_batchgcd ⟨3, 4, [15, 77, 143, 0]⟩ = some ⟨3, 3, [1, 11, 11]⟩ :=
  ⟨by decide, by decide, zero_divisor_iff_zero_input ⟨3, 4, [15, 0, 143, 0]⟩ (by decide)
    (by decide), by decide, by decide, by decide⟩

/-- Within the range of the C `int` indices of the pairwise pass, restricting the pass to
weak indices loses no split: for every well-formed list `N` of at most `2^31` positive
integers with `G = fast_batchgcd N` and `C = factor_coprimes N G`, and every case 2 index `ig`
(`G[ig] = N[ig] ≠ 1`): `C[ig] = 0` if and only if for every index `j ≠ ig` among all the inputs
`gcd(N[j], N[ig])` is `1` or `N[ig]`; otherwise `C[ig]` is a divisor of `N[ig]` with
`1 < C[ig] < N[ig]` and `C[ig]^2 ≤ N[ig]`.  This is the statement of C29 where the code has no
narrowing. -/
theorem pairwise_loses_no_split (N : numlist) (hv : N.valid) (h31 : N.len ≤ 2 ^ 31)
    (hpos : ∀ x ∈ N.toList, 0 < x) :
    ∃ G st, fast_batchgcd N = some G ∧ factor_coprimes N G = some st ∧
      ∀ (ig : Nat) (n : Int), N.toList[ig]? = some n → G.toList[ig]? = some n → n ≠ 1 →
        ∃ c, st.cplist.toList[ig]? = some c ∧
          (c = 0 ↔ ∀ (j : Nat) (m : Int), j ≠ ig → N.toList[j]? = some m →
            mpz_gcd m n = 1 ∨ mpz_gcd m n = n) ∧
          (c ≠ 0 → c ∣ n ∧ 1 < c ∧ c < n ∧ c ^ 2 ≤ n) := by
  obtain ⟨G, st, e, gv, gl, hG, e2, _, _, _, _, _, _, hslot⟩ :=
    full_run N hv (ne_zero_of_pos hpos) h31
  have hNl := valid_len_le hv
  have hGl := valid_len_le gv
  have hTl := toList_length hNl
  refine ⟨G, st, e, e2, ?_⟩
  intro ig n hn hg hn1
  have hi : ig < N.len := lt_len_of_toList hn
  have hnn : N.num.getD ig 0 = n := num_getD_of_toList hn
  have hgn : G.num.getD ig 0 = n := num_getD_of_toList hg
  have hnpos : 0 < n := by
    rw [← hnn, ← toList_getD hi]
    exact hpos _ (getD_mem (by omega))
  have hc2 : is_case2 N G ig = true := is_case2_of (by rw [hgn]; exact hn1) (by rw [hgn, hnn])
  have hs := hslot ig hi
  rw [if_pos hc2] at hs
  refine ⟨_, hs, ?_⟩
  cases hf : find_split N ig (weak_list N G) with
  | none =>
    rw [Option.getD_none]
    refine ⟨⟨fun _ => ?_, fun _ => rfl⟩, fun h => absurd rfl h⟩
    intro j m hj hm
    have hjl : j < N.len := lt_len_of_toList hm
    have hmm : N.num.getD j 0 = m := num_getD_of_toList hm
    by_cases hw : G.num.getD j 0 = 1
    · left
      rw [hG j hjl] at hw
      have hw2 : Int.gcd (N.toList.eraseIdx j).prod (N.num.getD j 0) = 1 := by
        exact_mod_cast hw
      have := (gcd_others_eq_one_iff N.toList j (N.num.getD j 0)).mp hw2 ig n (Ne.symm hj) hn
      unfold mpz_gcd
      rw [← hmm, this]
      rfl
    · have hmem : j ∈ weak_list N G := by
        unfold weak_list
        exact List.mem_filter.mpr ⟨List.mem_range.mpr hjl, is_weak_of_ne hw⟩
      have := (find_split_none_iff N ig (weak_list N G)).mp hf j hmem hj
      rw [hmm, hnn] at this
      exact this
  | some v =>
    rw [Option.getD_some]
    obtain ⟨iw, hne, hmem, g1, g2, hv2⟩ := find_split_some hf
    have hiw : iw < N.len := mem_weak_list_lt hmem
    rw [hnn] at g1 g2 hv2
    have hgd : mpz_gcd (N.num.getD iw 0) n ∣ n := by
      unfold mpz_gcd
      exact Int.gcd_dvd_right
    have hg0 : 0 < mpz_gcd (N.num.getD iw 0) n := by
      have h1 : 0 ≤ mpz_gcd (N.num.getD iw 0) n := by
        unfold mpz_gcd
        exact Int.natCast_nonneg _
      have h2 : mpz_gcd (N.num.getD iw 0) n ≠ 0 := by
        intro h
        rw [h] at hgd
        have := zero_dvd_iff.mp hgd
        omega
      omega
    have hlt : mpz_gcd (N.num.getD iw 0) n < n := by
      have := Int.le_of_dvd hnpos hgd
      omega
    rw [lesser_eq_min, Int.fdiv_eq_ediv _ (le_of_lt hg0)] at hv2
    obtain ⟨p1, p2, p3, p4⟩ := min_divisor_proper hgd hg0 g1 hlt
    rw [← hv2] at p1 p2 p3 p4
    have hv0 : v ≠ 0 := by omega
    refine ⟨⟨fun h => absurd h hv0, fun h => ?_⟩, fun _ => ⟨p1, p2, p3, ?_⟩⟩
    · rcases h iw (N.num.getD iw 0) hne (toList_eq_getD hNl hiw) with h | h
      · exact absurd h g1
      · exact absurd h g2
    · have h5 : v * (n / v) ≤ n := Int.mul_ediv_self_le hv0
      have h6 : v * v ≤ v * (n / v) := Int.mul_le_mul_of_nonneg_left p4 (by omega)
      rw [pow_two]
      omega

theorem pairwise_loses_no_split_witness :
    (⟨3, 4, [15, 21, 35, 0]⟩ : numlist).valid ∧
    (⟨3, 4, [15, 21, 35, 0]⟩ : numlist).len ≤ 2 ^ 31 ∧
    (∀ x ∈ (⟨3, 4, [15, 21, 35, 0]⟩ : numlist).toList, 0 < x) ∧
    ∃ G st, fast_batchgcd ⟨3, 4, [15, 21, 35, 0]⟩ = some G ∧
      factor_coprimes ⟨3, 4, [15, 21, 35, 0]⟩ G = some st ∧
      ∀ (ig : Nat) (n : Int), (⟨3, 4, [15, 21, 35, 0]⟩ : numlist).toList[ig]? = some n →
        G.toList[ig]? = some n → n ≠ 1 →
        ∃ c, st.cplist.toList[ig]? = some c ∧
          (c = 0 ↔ ∀ (j : Nat) (m : Int), j ≠ ig →
            (⟨3, 4, [15, 21, 35, 0]⟩ : numlist).toList[j]? = some m →
            mpz_gcd m n = 1 ∨ mpz_gcd m n = n) ∧
          (c ≠ 0 → c ∣ n ∧ 1 < c ∧ c < n ∧ c ^ 2 ≤ n) :=
  ⟨by decide, by decide, by decide,
    pairwise_loses_no_split ⟨3, 4, [15, 21, 35, 0]⟩ (by decide) (by decide) (by decide)⟩

end BatchGcd

namespace BatchGcd

/-! ## The pairwise pass beyond the range of `int` -/

/-- The indices satisfying `p` are listed in increasing order: those below an index `i` with
`p i` come first, then `i`. -/
theorem filter_range_split (p : Nat → Bool) {n i : Nat} (hi : i < n) (hp : p i = true) :
    ∃ l2, (List.range n).filter p = (List.range i).filter p ++ i :: l2 := by
  have e : List.range n = List.range i ++ i :: List.range' (i + 1) (n - i - 1) := by
    rw [List.range_eq_range', List.range_eq_range',
      show n = (n - i - 1 + 1) + i by omega, ← List.range'_append_1, Nat.zero_add,
      List.range'_succ]
    rw [show n - i - 1 + 1 + i - i - 1 = n - i - 1 by omega]
  rw [e, List.filter_append, List.filter_cons_of_pos hp]
  exact ⟨_, rfl⟩

/-- The entries of an array whose used prefix is `l1 ++ a :: l2`. -/
theorem take_split_entries {l l1 l2 : List Nat} {c a : Nat} (h : l.take c = l1 ++ a :: l2) :
    l1.length < c ∧ l[l1.length]? = some a ∧ ∀ k, k < l1.length → l[k]? = l1[k]? := by
  have hlen : l1.length < c := by
    have := congrArg List.length h
    rw [List.length_take, List.length_append, List.length_cons] at this
    omega
  refine ⟨hlen, ?_, ?_⟩
  · rw [← List.getElem?_take_of_lt hlen, h, List.getElem?_append_right (le_refl _),
      Nat.sub_self, List.getElem?_cons_zero]
  · intro k hk
    rw [← List.getElem?_take_of_lt (show k < c by omega), h, List.getElem?_append_left hk]

/-- The inner loop of the pairwise pass fails when, before any split is found, it reaches a
weak index `K` that the conversion to `int` makes negative: `nlist->num[idx_w]` is then read
outside the list. -/
theorem pairwise_inner_narrow (N : numlist) (wgi g0 K pos : Nat) (st : factor_state)
    (hg : st.weakidx_gcd[wgi]? = some g0) (hg31 : g0 < 2 ^ 31) (hgN : g0 < N.num.length)
    (hK : st.weakidx[pos]? = some K) (hpos : pos < st.weak_count) (hKn : to_int K < 0)
    (hbefore : ∀ k, k < pos → ∃ w, st.weakidx[k]? = some w ∧ w < 2 ^ 31 ∧
      w < N.num.length ∧
      (w = g0 ∨ mpz_gcd (N.num.getD w 0) (N.num.getD g0 0) = 1 ∨
        mpz_gcd (N.num.getD w 0) (N.num.getD g0 0) = N.num.getD g0 0)) :
    ∀ fuel wi, wi ≤ pos → pos < wi + fuel → pairwise_inner N wgi fuel wi st = none := by
  intro fuel
  induction fuel with
  | zero =>
    intro wi h1 h2
    omega
  | succ fuel ih =>
    intro wi h1 h2
    simp only [pairwise_inner]
    rw [if_pos (by omega)]
    by_cases hwp : wi = pos
    · subst hwp
      rw [hK, hg]
      simp only [Option.some_bind, to_int_eq hg31]
      rw [if_neg (by omega)]
      unfold numlist.rd_int
      rw [if_pos hKn]
      rfl
    · obtain ⟨w, hw, hw31, hwN, hc⟩ := hbefore wi (by omega)
      rw [hw, hg]
      simp only [Option.some_bind, to_int_eq hw31, to_int_eq hg31]
      by_cases hwg : w = g0
      · rw [if_pos (by exact_mod_cast hwg)]
        exact ih (wi + 1) (by omega) (by omega)
      · rw [if_neg (by exact_mod_cast hwg), rd_int_eq hwN, rd_int_eq hgN]
        simp only [Option.some_bind]
        by_cases h1 : mpz_gcd (N.num.getD w 0) (N.num.getD g0 0) = 1
        · rw [if_neg (by simpa using h1)]
          exact ih (wi + 1) (by omega) (by omega)
        · have h2 : mpz_gcd (N.num.getD w 0) (N.num.getD g0 0) = N.num.getD g0 0 := by
            rcases hc with hc | hc | hc
            · exact absurd hc hwg
            · exact absurd hc h1
            · exact hc
          rw [if_pos h1, if_neg (by simpa using h2)]
          exact ih (wi + 1) (by omega) (by omega)

/-- Function `factor_coprimes` fails on a list with a weak index `K` that does not fit in an
`int`, as soon as the first "case 2" index finds no split among the weak indices
below `K`. -/
theorem factor_coprimes_narrow (N G : numlist) (hN : N.len ≤ N.num.length)
    (hG : N.len ≤ G.num.length)
    (hG0 : ∀ i, i < N.len → G.num.getD i 0 ≠ 1 → G.num.getD i 0 ≠ N.num.getD i 0 →
      G.num.getD i 0 ≠ 0)
    (K g0 : Nat) (hK : K < N.len) (hKn : to_int K < 0) (hK31 : K ≤ 2 ^ 31)
    (hKw : is_weak G K = true) (hg0 : g0 < K) (hc2 : is_case2 N G g0 = true)
    (hfirst : ∀ j, j < g0 → is_case2 N G j = false)
    (hmiss : ∀ w, w < K → is_weak G w = true → w ≠ g0 →
      mpz_gcd (N.num.getD w 0) (N.num.getD g0 0) = 1 ∨
        mpz_gcd (N.num.getD w 0) (N.num.getD g0 0) = N.num.getD g0 0) :
    ∃ st0, for_loop N.len 1 (classify_body N G) N.len 0
        ⟨makenumlist N.len, 0, List.replicate N.len 0, 0, List.replicate N.len 0, 0⟩ =
          some st0 ∧
      pairwise_body N 0 st0 = none ∧ factor_coprimes N G = none := by
  obtain ⟨st0, e0, h0⟩ := classify_loop N G hN hG hG0
  obtain ⟨_, _, _, _, _, _, _, c8, c9, _, _⟩ := h0
  obtain ⟨l2, hw⟩ := filter_range_split (is_weak G) hK hKw
  obtain ⟨l3, hc⟩ := filter_range_split (is_case2 N G) (show g0 < N.len by omega) hc2
  have hnil : (List.range g0).filter (is_case2 N G) = [] := by
    rw [List.filter_eq_nil_iff]
    intro j hj
    rw [hfirst j (List.mem_range.mp hj)]
    simp
  rw [hnil, List.nil_append] at hc
  rw [hw] at c8
  rw [hc] at c9
  obtain ⟨p1, p2, p3⟩ := take_split_entries c8
  obtain ⟨q1, q2, _⟩ := @take_split_entries _ [] _ _ _ c9
  have hinner : pairwise_body N 0 st0 = none := by
    unfold pairwise_body
    refine pairwise_inner_narrow N 0 g0 K _ st0 q2 (by omega) (by omega) p2 p1 hKn ?_
      st0.weak_count 0 (Nat.zero_le _) (by omega)
    intro k hk
    have hk2 := p3 k hk
    rw [List.getElem?_eq_getElem hk] at hk2
    have hmem := List.mem_filter.mp (List.getElem_mem hk)
    have hlt : ((List.range K).filter (is_weak G))[k] < K := List.mem_range.mp hmem.1
    refine ⟨_, hk2, by omega, by omega, ?_⟩
    by_cases he : ((List.range K).filter (is_weak G))[k] = g0
    · exact Or.inl he
    · exact Or.inr (hmiss _ hlt hmem.2 he)
  refine ⟨st0, e0, hinner, ?_⟩
  unfold factor_coprimes
  rw [e0, Option.some_bind]
  obtain ⟨c, hcnt⟩ : ∃ c, st0.weak_gcd_count = c + 1 := ⟨st0.weak_gcd_count - 1, by
    simp only [List.length_nil] at q1
    omega⟩
  rw [hcnt, for_loop, if_pos (by omega), hinner]
  rfl

/-! ## A run on more than `2^31` moduli -/

theorem sixes_then_ten_valid (m : Nat) (hm : m < 2 ^ 59) : (sixes_then_ten m).valid := by
  unfold sixes_then_ten numlist.valid
  dsimp only
  refine ⟨le_refl _, ?_, ?_⟩
  · rw [List.length_append, List.length_replicate, List.length_singleton]
  · unfold sizeof_mpz_t SIZE_MOD
    omega

theorem sixes_then_ten_toList (m : Nat) :
    (sixes_then_ten m).toList = List.replicate m 6 ++ [10] := by
  unfold sixes_then_ten numlist.toList
  apply List.take_of_length_le
  rw [List.length_append, List.length_replicate, List.length_singleton]

theorem sixes_then_ten_six (m : Nat) {i : Nat} (hi : i < m) :
    (sixes_then_ten m).toList[i]? = some 6 := by
  rw [sixes_then_ten_toList, List.getElem?_append_left (by rw [List.length_replicate]; exact hi),
    List.getElem?_replicate_of_lt hi]

theorem sixes_then_ten_last (m : Nat) : (sixes_then_ten m).toList[m]? = some 10 := by
  rw [sixes_then_ten_toList, List.getElem?_append_right (by rw [List.length_replicate]),
    List.length_replicate, Nat.sub_self, List.getElem?_cons_zero]

theorem sixes_then_ten_pos (m : Nat) : ∀ x ∈ (sixes_then_ten m).toList, 0 < x := by
  intro x hx
  rw [sixes_then_ten_toList, List.mem_append, List.mem_singleton] at hx
  rcases hx with h | h
  · rw [List.eq_of_mem_replicate h]
    norm_num
  · rw [h]
    norm_num

theorem gcd_six_pow_ten (k : Nat) : Nat.gcd (6 ^ (k + 1)) 10 = 2 := by
  have hc : Nat.Coprime (3 * 6 ^ k) 5 :=
    Nat.Coprime.mul (by decide) (Nat.Coprime.pow_left k (by decide))
  rw [show 6 ^ (k + 1) = 2 * (3 * 6 ^ k) by rw [pow_succ]; ring,
    show (10 : Nat) = 2 * 5 by norm_num, Nat.gcd_mul_left, Nat.Coprime.gcd_eq_one hc]

/-- On `m ≥ 2` moduli `6` followed by the modulus `10`, where `m` is the first index that
does not fit in an `int`: `fast_batchgcd` returns `G = [6, ..., 6, 2]`, and `factor_coprimes`
fails in the first round of its pairwise pass, when the search of a split for index `0`
reaches the weak index `m`. -/
theorem long_run (m : Nat) (hm2 : 2 ≤ m) (hm31 : m ≤ 2 ^ 31) (hmn : to_int m < 0) :
    ∃ G, fast_batchgcd (sixes_then_ten m) = some G ∧ G.len = m + 1 ∧
      G.toList.length = m + 1 ∧ (∀ i, i < m → G.toList[i]? = some 6) ∧
      G.toList[m]? = some 2 ∧ factor_coprimes (sixes_then_ten m) G = none := by
  have hv := sixes_then_ten_valid m (by omega)
  have hlen : (sixes_then_ten m).len = m + 1 := rfl
  have hpos := sixes_then_ten_pos m
  obtain ⟨G, e, gv, gl, hg⟩ := fast_batchgcd_gcd (sixes_then_ten m) hv (ne_zero_of_pos hpos)
  have hNl := toList_length (valid_len_le hv)
  have hprod : (sixes_then_ten m).toList.prod = 6 ^ m * 10 := by
    rw [sixes_then_ten_toList, List.prod_append, List.prod_replicate, List.prod_singleton]
  have hG6 : ∀ i, i < m → G.toList[i]? = some 6 := by
    intro i hi
    rw [hg i (by omega), getD_of_getElem? (sixes_then_ten_six m hi)]
    have h1 := prod_eraseIdx (sixes_then_ten m).toList i (by omega)
    rw [getD_of_getElem? (sixes_then_ten_six m hi), hprod] at h1
    have h2 : ((sixes_then_ten m).toList.eraseIdx i).prod = 6 * (6 ^ (m - 2) * 10) := by
      have hpow : (6 : Int) ^ m = 6 * (6 * 6 ^ (m - 2)) := by
        obtain ⟨k, hk⟩ : ∃ k, m = k + 2 := ⟨m - 2, by omega⟩
        rw [hk, Nat.add_sub_cancel]
        ring
      apply mul_left_cancel₀ (show (6 : Int) ≠ 0 by norm_num)
      rw [h1, hpow]
      ring
    rw [h2, Int.gcd_eq_right (Dvd.intro _ rfl)]
    rfl
  have hG2 : G.toList[m]? = some 2 := by
    rw [hg m (by omega), getD_of_getElem? (sixes_then_ten_last m)]
    have h1 := prod_eraseIdx (sixes_then_ten m).toList m (by omega)
    rw [getD_of_getElem? (sixes_then_ten_last m), hprod] at h1
    have h2 : ((sixes_then_ten m).toList.eraseIdx m).prod = 6 ^ m := by
      apply mul_left_cancel₀ (show (10 : Int) ≠ 0 by norm_num)
      rw [h1]
      ring
    rw [h2, show ((6 : Int) ^ m) = ((6 ^ m : Nat) : Int) by push_cast; rfl,
      show (10 : Int) = ((10 : Nat) : Int) by rfl, Int.gcd_natCast_natCast,
      show m = (m - 1) + 1 by omega, gcd_six_pow_ten]
    rfl
  have hGl := valid_len_le gv
  have hNle := valid_len_le hv
  have hn6 : ∀ i, i < m → (sixes_then_ten m).num.getD i 0 = 6 := fun i hi =>
    num_getD_of_toList (sixes_then_ten_six m hi)
  have hg6 : ∀ i, i < m → G.num.getD i 0 = 6 := fun i hi => num_getD_of_toList (hG6 i hi)
  have hg2 : G.num.getD m 0 = 2 := num_getD_of_toList hG2
  obtain ⟨st0, _, _, hfail⟩ := factor_coprimes_narrow (sixes_then_ten m) G hNle (by omega)
    (by
      intro i hi _ _
      by_cases him : i < m
      · rw [hg6 i him]
        norm_num
      · rw [show i = m by omega, hg2]
        norm_num)
    m 0 (by omega) hmn hm31 (is_weak_of_ne (by rw [hg2]; norm_num)) (by omega)
    (is_case2_of (by rw [hg6 0 (by omega)]; norm_num)
      (by rw [hg6 0 (by omega), hn6 0 (by omega)]))
    (fun j hj => absurd hj (Nat.not_lt_zero j))
    (by
      intro w hw _ _
      right
      rw [hn6 w hw, hn6 0 (by omega)]
      rfl)
  refine ⟨G, e, by rw [gl, hlen], by rw [toList_length hGl, gl, hlen], hG6, hG2, hfail⟩

end BatchGcd

namespace BatchGcd

/-! ## Lists of more than `2^31` moduli

The pairwise pass of `factor_coprimes` copies its `uint64_t` indices into `int` variables
(`int idx_w = weakidx[wi]; int idx_g = weakidx_gcd[wgi];`), whereas the first loop of the same
function indexes with `size_t`.  The three runs below are on the list of `2^31` moduli `6`
followed by the modulus `10`, whose last index `2^31` becomes `-2^31` as an `int`. -/

/-- C4. On the list of `2^31` moduli `6 = 2 * 3` followed by `10 = 2 * 5`, every input is a
product of two primes and `fast_batchgcd` returns `G` with `G[0] = 6` and `G[2^31] = 2`, so
both indices are weak; the modulus `10` splits index `0` (`gcd(10, 6) = 2`, smaller factor
`min 2 3 = 2`) and index `2^31` has the smaller factor `min 2 5 = 2`.  But the search of the
split for index `0` reads the weak index `2^31` as the `int` `-2^31`, accesses
`nlist->num[-2^31]` outside the list, and `factor_coprimes` returns no list. -/
theorem semiprime_run_int_index :
    (∀ i, i < (sixes_then_ten (2 ^ 31)).len → ∃ p q : Nat, p.Prime ∧ q.Prime ∧
      (sixes_then_ten (2 ^ 31)).toList[i]? = some ((p * q : Nat) : Int)) ∧
    to_int (2 ^ 31) = -2 ^ 31 ∧
    ∃ G, fast_batchgcd (sixes_then_ten (2 ^ 31)) = some G ∧ G.toList.length = 2 ^ 31 + 1 ∧
      G.toList[0]? = some 6 ∧ G.toList[2 ^ 31]? = some 2 ∧
      factor_coprimes (sixes_then_ten (2 ^ 31)) G = none := by
  refine ⟨?_, by decide, ?_⟩
  · intro i hi
    have hi2 : i < 2 ^ 31 + 1 := hi
    by_cases h : i < 2 ^ 31
    · exact ⟨2, 3, by norm_num, by norm_num, sixes_then_ten_six (2 ^ 31) h⟩
    · rw [show i = 2 ^ 31 by omega]
      exact ⟨2, 5, by norm_num, by norm_num, sixes_then_ten_last (2 ^ 31)⟩
  · obtain ⟨G, e, _, gl, h6, h2, hf⟩ := long_run (2 ^ 31) (by norm_num) (le_refl _) (by decide)
    exact ⟨G, e, gl, h6 0 (by norm_num), h2, hf⟩

/-- C14. On the list of `2^31` moduli `6` followed by `10`, all positive, `fast_batchgcd`
returns `G` with `G[2^31] = 2`: index `2^31` is weak with `G[2^31] < N[2^31] = 10`, and
`min 2 (10 / 2) = 2` would be its co-factor.  But the pairwise pass reads the weak index
`2^31` as the `int` `-2^31`, accesses `nlist->num[-2^31]` outside the list, and
`factor_coprimes` returns no list `C`. -/
theorem case1_run_int_index :
    (∀ x ∈ (sixes_then_ten (2 ^ 31)).toList, 0 < x) ∧
    (sixes_then_ten (2 ^ 31)).toList[2 ^ 31]? = some 10 ∧
    ∃ G, fast_batchgcd (sixes_then_ten (2 ^ 31)) = some G ∧ G.toList[2 ^ 31]? = some 2 ∧
      (2 : Int) ≠ 1 ∧ (2 : Int) < 10 ∧ min (2 : Int) (10 / 2) = 2 ∧
      factor_coprimes (sixes_then_ten (2 ^ 31)) G = none := by
  refine ⟨sixes_then_ten_pos _, sixes_then_ten_last _, ?_⟩
  obtain ⟨G, e, _, _, _, h2, hf⟩ := long_run (2 ^ 31) (by norm_num) (le_refl _) (by decide)
  exact ⟨G, e, h2, by decide, by decide, by decide, hf⟩

/-- C29. On the list of `2^31` moduli `6` followed by `10`, all positive, `fast_batchgcd`
returns `G` with `G[0] = N[0] = 6 ≠ 1`: index `0` is case 2, and the input at index `2^31`
splits it, `gcd(10, 6) = 2` being neither `1` nor `6`, so `C[0]` should be a proper divisor
of `6`.  But the search stops at that very index: read as the `int` `-2^31` it makes the
pass access `nlist->num[-2^31]` outside the list, and `factor_coprimes` returns no list. -/
theorem case2_run_int_index :
    (∀ x ∈ (sixes_then_ten (2 ^ 31)).toList, 0 < x) ∧
    (sixes_then_ten (2 ^ 31)).toList[0]? = some 6 ∧
    (sixes_then_ten (2 ^ 31)).toList[2 ^ 31]? = some 10 ∧
    mpz_gcd 10 6 = 2 ∧
    ∃ G, fast_batchgcd (sixes_then_ten (2 ^ 31)) = some G ∧ G.toList[0]? = some 6 ∧
      factor_coprimes (sixes_then_ten (2 ^ 31)) G = none := by
  refine ⟨sixes_then_ten_pos _, sixes_then_ten_six _ (by norm_num), sixes_then_ten_last _,
    by decide, ?_⟩
  obtain ⟨G, e, _, _, h6, _, hf⟩ := long_run (2 ^ 31) (by norm_num) (le_refl _) (by decide)
  exact ⟨G, e, h6 0 (by norm_num), hf⟩

end BatchGcd
